import Mathlib

set_option linter.unusedVariables false

/- The Batteries `Rat` arithmetic operations are `@[irreducible]`, which
blocks `decide`-style evaluation of the estimator's concrete runs; restore
the default transparency (their definitions are ordinary computable ones). -/
set_option allowUnsafeReducibility true in
attribute [semireducible] Rat.add Rat.sub Rat.mul Rat.inv

/-!
Verification of the graph-analysis and cycle-aware estimation engine
(`backend/graph_analyzer.py`, `backend/estimator.py`, with the data model of
`backend/models.py` and the two read-only catalogs of `backend/pricing_registry.py`
and `backend/tool_registry.py`).

The Python code is shallowly embedded: Python `dict`s become insertion-ordered
association lists (`PyDict`), Python `float`s become `ℚ`, Python `int`s become
`ℤ`, raised exceptions (`KeyError` on a missing dict key) become `Option.none`,
and the recursive depth-first traversals are given explicit fuel, with the fuel
chosen from the input sizes so that it provably never runs out on the inputs the
theorems quantify over.  The two catalogs and the tokenizer are consumed
interfaces (loaded from JSON / tiktoken at process start); the embedding takes
them as parameters, mirroring `registry.get`, `tool_registry.get` and
`count_tokens`.
-/

namespace AgenticFlow

/-! ### Python dictionaries

A Python `dict` preserves insertion order of keys; `d[k] = v` overwrites in
place when `k` is present and appends otherwise; `d[k]` raises `KeyError`
(modelled by `Option.none` at the use sites) when `k` is absent. -/

/-- Insertion-ordered association list modelling a Python `dict` keyed by `str`. -/
abbrev PyDict (α : Type) := List (String × α)

/-- `d.get(k)` / `k in d` support: the value at `k`, if present. -/
def dget (d : PyDict α) (k : String) : Option α :=
  (d.find? (fun p => p.1 == k)).map (·.2)

/-- `k in d` (Python dict membership). -/
def dmem (d : PyDict α) (k : String) : Bool :=
  (d.find? (fun p => p.1 == k)).isSome

/-- `d[k] = v`: overwrite in place when present, append otherwise. -/
def dset (d : PyDict α) (k : String) (v : α) : PyDict α :=
  if dmem d k then d.map (fun p => if p.1 == k then (k, v) else p) else d ++ [(k, v)]

/-- `d.setdefault(k, v)`. -/
def dsetD (d : PyDict α) (k : String) (v : α) : PyDict α :=
  if dmem d k then d else d ++ [(k, v)]

/-- `d.get(k, v)`. -/
def dgetD (d : PyDict α) (k : String) (v : α) : α :=
  (dget d k).getD v

/-- The keys of the dict, in insertion order. -/
def dkeys (d : PyDict α) : List String := d.map (·.1)

/-! ### Python numerics

Money and latency values are `float` in the source; they are embedded as `ℚ`.
Python's `round` uses round-half-to-even; `int(x)` truncates toward zero;
`//` is floor division. -/

/-- Python `round(x)` → `int`: round half to even. -/
def pyRoundInt (x : ℚ) : ℤ :=
  let f := ⌊x⌋
  let r := x - (f : ℚ)
  if r < 1/2 then f
  else if 1/2 < r then f + 1
  else if f % 2 = 0 then f else f + 1

/-- `10^d` as a rational (via `Nat.pow`, which evaluates on literals). -/
def tenPow (d : ℕ) : ℚ :=
  ((Nat.pow 10 d : ℕ) : ℚ)

/-- Python `round(x, d)` for `d` decimal digits. -/
def pyRound (x : ℚ) (d : ℕ) : ℚ :=
  (pyRoundInt (x * tenPow d) : ℚ) / tenPow d

/-- Python `int(x)` on a float: truncation toward zero. -/
def pyTrunc (x : ℚ) : ℤ :=
  if 0 ≤ x then ⌊x⌋ else -⌊-x⌋

/-- Python truthiness of an optional string (`None` and `""` are falsy). -/
def strTruthy : Option String → Bool
  | some s => !(s == "")
  | none => false

/-- Python `opt or dflt` for optional strings. -/
def orStr (o : Option String) (dflt : String) : String :=
  match o with
  | some s => if s == "" then dflt else s
  | none => dflt

/-- Python `opt or dflt` for optional ints (`None` and `0` are falsy). -/
def orInt (o : Option ℤ) (dflt : ℤ) : ℤ :=
  match o with
  | some k => if k == 0 then dflt else k
  | none => dflt

/-- Python `max(xs, key=f)` for a nonempty list: first element attaining the
maximal key (later elements replace the best only on a strictly larger key). -/
def pyMaxBy (f : String → ℚ) (x : String) (xs : List String) : String :=
  match xs with
  | [] => x
  | y :: ys => if f y > f x then pyMaxBy f y ys else pyMaxBy f x ys

/-- Python `min(xs)` of a nonempty int list. -/
def listMin (x : ℤ) (xs : List ℤ) : ℤ :=
  xs.foldl (fun a b => min a b) x

/-! ### Data model (`backend/models.py`)

`NodeConfig` / `EdgeConfig` are the request schemas; the estimation response
schemas follow.  Optional fields keep their Python defaults. -/

/-- `models.NodeConfig`. `type` ranges over
`"startNode" | "agentNode" | "toolNode" | "finishNode"`. -/
structure NodeConfig where
  id : String
  type : String
  label : Option String := none
  model_provider : Option String := none
  model_name : Option String := none
  context : Option String := some ""
  tool_id : Option String := none
  tool_category : Option String := none
  max_steps : Option ℤ := none
  task_type : Option String := none
  expected_output_size : Option String := none
  expected_calls_per_run : Option ℤ := none
deriving DecidableEq

/-- `models.EdgeConfig` (the optional `id` field plays no role downstream). -/
structure EdgeConfig where
  source : String
  target : String
deriving DecidableEq

/-- `pricing_registry.ModelPricing` (the fields the estimator consumes). -/
structure ModelPricing where
  input_per_million : ℚ
  output_per_million : ℚ
  tokens_per_sec : ℚ
deriving DecidableEq

/-- `tool_registry.ToolDefinition` (the fields the estimator consumes). -/
structure ToolDefinition where
  id : String
  display_name : String
  schema_tokens : ℤ
  avg_response_tokens : ℤ
  latency_ms : ℤ
deriving DecidableEq

/-- The external collaborators of the engine: the tokenizer (`count_tokens`'s
tiktoken encoding) and the two process-lifetime catalogs, consumed through
their read-only lookup contract. -/
structure Env where
  tok : String → ℕ
  priceCat : String → String → Option ModelPricing
  toolCat : String → Option ToolDefinition

/-- `models.ToolImpact`. -/
structure ToolImpact where
  tool_node_id : String
  tool_name : String
  tool_id : Option String
  schema_tokens : ℤ
  response_tokens : ℤ
  execution_latency : ℚ
deriving DecidableEq

/-- `models.NodeEstimation`. -/
structure NodeEstimation where
  node_id : String
  node_name : String
  tokens : ℤ
  input_tokens : ℤ
  output_tokens : ℤ
  cost : ℚ
  input_cost : ℚ
  output_cost : ℚ
  latency : ℚ
  model_provider : Option String := none
  model_name : Option String := none
  tool_id : Option String := none
  tool_impacts : Option (List ToolImpact) := none
  tool_schema_tokens : ℤ := 0
  tool_response_tokens : ℤ := 0
  tool_latency : ℚ := 0
  in_cycle : Bool := false
  cost_share : ℚ := 0
  latency_share : ℚ := 0
  bottleneck_severity : Option String := none
deriving DecidableEq

/-- `models.CycleInfo`. -/
structure CycleInfo where
  cycle_id : ℤ
  node_ids : List String
  node_labels : List String
  back_edges : List (String × String)
  max_iterations : ℤ
  expected_iterations : ℤ
  tokens_per_lap : ℤ := 0
  cost_per_lap : ℚ := 0
  latency_per_lap : ℚ := 0
  cost_contribution : ℚ := 0
  latency_contribution : ℚ := 0
  risk_level : Option String := none
  risk_reason : Option String := none
deriving DecidableEq

/-- `models.EstimationRange`. -/
structure EstimationRange where
  min : ℚ
  avg : ℚ
  max : ℚ
deriving DecidableEq

/-- `models.ParallelStep`. -/
structure ParallelStep where
  step : ℤ
  node_ids : List String
  node_labels : List String
  total_latency : ℚ := 0
  total_cost : ℚ := 0
  parallelism : ℤ := 0
deriving DecidableEq

/-- `models.ScalingProjection`. -/
structure ScalingProjection where
  runs_per_day : ℤ
  runs_per_month : ℤ
  loop_intensity : ℚ
  monthly_cost : ℚ
  monthly_tokens : ℤ
  monthly_compute_seconds : ℚ
  cost_per_1k_runs : ℚ
deriving DecidableEq

/-- `models.SensitivityReadout`. -/
structure SensitivityReadout where
  cost_min : ℚ
  cost_avg : ℚ
  cost_max : ℚ
  latency_min : ℚ
  latency_avg : ℚ
  latency_max : ℚ
deriving DecidableEq

/-- The per-factor numbers stored in `HealthScore.details` (a plain JSON dict
of fixed shape in the source; embedded as a structure). -/
structure HealthDetails where
  cost_concentration_score : ℤ
  top2_share : ℚ
  loop_risk_score : ℤ
  cycle_count : ℤ
  premium_model_score : ℤ
  premium_ratio : ℚ
  latency_balance_score : ℤ
  critical_vs_total : ℚ
deriving DecidableEq

/-- `models.HealthScore`. -/
structure HealthScore where
  grade : String
  score : ℤ
  badges : List String
  details : HealthDetails
deriving DecidableEq

/-- `models.WorkflowEstimation`. -/
structure WorkflowEstimation where
  total_tokens : ℤ
  total_input_tokens : ℤ
  total_output_tokens : ℤ
  total_cost : ℚ
  total_latency : ℚ
  total_tool_latency : ℚ
  graph_type : String
  breakdown : List NodeEstimation
  critical_path : List String
  detected_cycles : List CycleInfo := []
  token_range : Option EstimationRange := none
  cost_range : Option EstimationRange := none
  latency_range : Option EstimationRange := none
  recursion_limit : ℤ := 25
  parallel_steps : List ParallelStep := []
  critical_path_latency : ℚ := 0
  scaling_projection : Option ScalingProjection := none
  sensitivity : Option SensitivityReadout := none
  health : Option HealthScore := none
deriving DecidableEq

/-! ### `graph_analyzer.GraphAnalyzer`

`__init__` builds the adjacency dict (a `defaultdict(list)`) and the in-degree
dict in one pass over the edges.  The recursive traversals (`is_cyclic`'s DFS,
Tarjan's `strongconnect`, the back-edge DFS) get explicit fuel; `none` models
a raised `KeyError` or exhausted fuel. -/

/-- `graph_analyzer.CycleGroup`. -/
structure CycleGroup where
  node_ids : List String
  back_edges : List (String × String)
deriving DecidableEq

/-- The state `GraphAnalyzer.__init__` leaves behind: the inputs plus the
adjacency and in-degree dicts. -/
structure GraphAnalyzer where
  node_ids : List String
  edges : List EdgeConfig
  adj : PyDict (List String)
  in_degree : PyDict ℤ

/-- `self.adj[edge.source].append(edge.target)` on a `defaultdict(list)`. -/
def adjAdd (adj : PyDict (List String)) (s t : String) : PyDict (List String) :=
  match dget adj s with
  | some l => dset adj s (l ++ [t])
  | none => adj ++ [(s, [t])]

/-- `GraphAnalyzer.__init__`. -/
def mkAnalyzer (node_ids : List String) (edges : List EdgeConfig) : GraphAnalyzer :=
  let indeg0 : PyDict ℤ := node_ids.foldl (fun d nid => dset d nid 0) []
  let st := edges.foldl
    (fun (p : PyDict (List String) × PyDict ℤ) e =>
      let d := dsetD p.2 e.target 0
      (adjAdd p.1 e.source e.target, dset d e.target (dgetD d e.target 0 + 1)))
    ([], indeg0)
  { node_ids := node_ids, edges := edges, adj := st.1, in_degree := st.2 }

/-- `self.adj[node]` / `self.adj.get(node, [])`: on a `defaultdict(list)` both
yield the stored list, or `[]` when the key is absent. -/
def adjGet (g : GraphAnalyzer) (k : String) : List String := dgetD g.adj k []

/-- The three colors of the DFS (`WHITE, GRAY, BLACK = 0, 1, 2`). -/
inductive Col where
  | white
  | gray
  | black
deriving DecidableEq

/-- `{nid: WHITE for nid in self.node_ids}`. -/
def initColor (node_ids : List String) : PyDict Col :=
  node_ids.foldl (fun d nid => dset d nid Col.white) []

/-- Fuel for `is_cyclic`'s DFS: nesting depth is bounded by the number of
keys of the color dict, each recursive call graying a fresh white node. -/
def dfsFuel (g : GraphAnalyzer) : ℕ := g.node_ids.length + 1

/-- The neighbour loop of `is_cyclic._dfs`, parameterized by the recursive
visit (structural recursion on the neighbour list): `color[neighbour]` raises
on a neighbour that is not a graph node (`none`); a gray neighbour is a
back-edge (`True`); a white neighbour is visited recursively. -/
def dfsScan (visit : PyDict Col → String → Option (Bool × PyDict Col))
    (color : PyDict Col) (ns : List String) : Option (Bool × PyDict Col) :=
  match ns with
  | [] => some (false, color)
  | n :: rest =>
    match dget color n with
    | none => none
    | some Col.gray => some (true, color)
    | some Col.white =>
      match visit color n with
      | none => none
      | some (true, c2) => some (true, c2)
      | some (false, c2) => dfsScan visit c2 rest
    | some Col.black => dfsScan visit color rest

/-- `is_cyclic._dfs(node)`: gray the node, scan its neighbours, blacken
(structural recursion on the fuel). -/
def dfsVisit (g : GraphAnalyzer) : ℕ → PyDict Col → String → Option (Bool × PyDict Col)
  | 0, _, _ => none
  | f + 1, color, node =>
    let c1 := dset color node Col.gray
    match dfsScan (dfsVisit g f) c1 (adjGet g node) with
    | none => none
    | some (true, c2) => some (true, c2)
    | some (false, c2) => some (false, dset c2 node Col.black)

/-- The generator of `is_cyclic`'s final `any(...)`: run `_dfs` from every
still-white node in input order, short-circuiting on `True`. -/
def anyCyc (g : GraphAnalyzer) (color : PyDict Col) (ns : List String) : Option Bool :=
  match ns with
  | [] => some false
  | nid :: rest =>
    match dget color nid with
    | none => none
    | some c =>
      if c = Col.white then
        match dfsVisit g (dfsFuel g) color nid with
        | none => none
        | some (true, _) => some true
        | some (false, c2) => anyCyc g c2 rest
      else anyCyc g color rest

/-- `GraphAnalyzer.is_cyclic`. -/
def isCyclic (g : GraphAnalyzer) : Option Bool :=
  anyCyc g (initColor g.node_ids) g.node_ids

/-- `in_deg[neighbour] -= 1` followed by the `== 0` test.  Every neighbour is
some edge's target and was therefore `setdefault`-ed into `in_degree`; the
missing-key arm is unreachable. -/
def decrStep (d : PyDict ℤ) (v : String) : PyDict ℤ × Bool :=
  match dget d v with
  | none => (d, false)
  | some x => (dset d v (x - 1), x - 1 == 0)

/-- The inner loop of Kahn's algorithm: decrement every neighbour, collecting
(in order) the ones whose in-degree just reached zero. -/
def processNbrs (d : PyDict ℤ) (vs : List String) : PyDict ℤ × List String :=
  match vs with
  | [] => (d, [])
  | v :: rest =>
    let p := decrStep d v
    let q := processNbrs p.1 rest
    (q.1, if p.2 then v :: q.2 else q.2)

/-- The `while queue:` loop of `topological_order`. -/
def kahnLoop (g : GraphAnalyzer) (fuel : ℕ) (indeg : PyDict ℤ) (queue order : List String) :
    Option (List String) :=
  match fuel, queue with
  | _, [] => some order
  | 0, _ :: _ => none
  | f + 1, u :: q =>
    let p := processNbrs indeg (adjGet g u)
    kahnLoop g f p.1 (q ++ p.2) (order ++ [u])

/-- Fuel for `kahnLoop`: the measure `queue length + Σ max(0, in-degree)`
strictly decreases each iteration (see `kahnLoop_isSome`), and is at most
`|node_ids| + 2·|edges|` initially. -/
def kahnFuel (g : GraphAnalyzer) : ℕ := g.node_ids.length + 2 * g.edges.length + 1

/-- `GraphAnalyzer.topological_order`.  The `none` fallback for exhausted fuel
is unreachable (`kahnLoop_isSome`). -/
def topologicalOrder (g : GraphAnalyzer) : List String :=
  let indeg := g.in_degree
  let queue := (indeg.filter (fun p => p.2 == 0)).map (·.1)
  match kahnLoop g (kahnFuel g) indeg queue [] with
  | none => []
  | some order => if order.length == g.node_ids.length then order else []

/-! Tarjan's algorithm (`GraphAnalyzer._compute_sccs`). -/

/-- The mutable state of `_compute_sccs`: counter, `index`, `lowlink`, the
stack (top at the head here; Python appends/pops at the end), the `on_stack`
set (as a duplicate-free list) and the collected components. -/
structure TarjanSt where
  counter : ℕ
  index : PyDict ℕ
  lowlink : PyDict ℕ
  stack : List String
  onStack : List String
  result : List (List String)

/-- Python `set.add`. -/
def setAdd (s : List String) (x : String) : List String :=
  if s.contains x then s else s ++ [x]

/-- The component-popping loop: pop (and collect, in pop order) until `v`
comes off the stack.  `v` is always on the stack when the loop starts, so the
empty case is unreachable. -/
def popUntil (stack : List String) (v : String) : List String × List String :=
  match stack with
  | [] => ([], [])
  | w :: rest =>
    if w == v then ([w], rest)
    else
      let p := popUntil rest v
      (w :: p.1, p.2)

/-- Fuel for `strongconnect`: nesting depth is bounded by the number of
distinct nodes ever indexed, which all come from `node_ids` or adjacency
targets. -/
def tarjanFuel (g : GraphAnalyzer) : ℕ := g.node_ids.length + g.edges.length + 1

/-- The neighbour loop of `strongconnect`, parameterized by the recursive
call (structural recursion on the neighbour list): recurse on unindexed
neighbours, update `lowlink[v]` from child lowlinks and on-stack indices. -/
def sconnectNbrs (sc : TarjanSt → String → Option TarjanSt) (st : TarjanSt) (v : String)
    (ws : List String) : Option TarjanSt :=
  match ws with
  | [] => some st
  | w :: rest =>
    if dmem st.index w then
      if st.onStack.contains w then
        match dget st.lowlink v, dget st.index w with
        | some lv, some iw =>
          sconnectNbrs sc { st with lowlink := dset st.lowlink v (min lv iw) } v rest
        | _, _ => none
      else sconnectNbrs sc st v rest
    else
      match sc st w with
      | none => none
      | some st2 =>
        match dget st2.lowlink v, dget st2.lowlink w with
        | some lv, some lw =>
          sconnectNbrs sc { st2 with lowlink := dset st2.lowlink v (min lv lw) } v rest
        | _, _ => none

/-- `_compute_sccs.strongconnect(v)` (structural recursion on the fuel). -/
def sconnect (g : GraphAnalyzer) : ℕ → TarjanSt → String → Option TarjanSt
  | 0, _, _ => none
  | f + 1, st, v =>
    let st1 : TarjanSt :=
      { counter := st.counter + 1
        index := dset st.index v st.counter
        lowlink := dset st.lowlink v st.counter
        stack := v :: st.stack
        onStack := setAdd st.onStack v
        result := st.result }
    match sconnectNbrs (sconnect g f) st1 v (adjGet g v) with
    | none => none
    | some st2 =>
      match dget st2.lowlink v, dget st2.index v with
      | some lv, some iv =>
        if lv == iv then
          let p := popUntil st2.stack v
          some { st2 with
                 stack := p.2
                 onStack := p.1.foldl (fun s w => s.erase w) st2.onStack
                 result := st2.result ++ [p.1] }
        else some st2
      | _, _ => none

/-- The empty initial Tarjan state. -/
def tarjanInit : TarjanSt := ⟨0, [], [], [], [], []⟩

/-- The top-level loop of `_compute_sccs`: `strongconnect` every node not yet
indexed, in input order. -/
def tarjanLoop (g : GraphAnalyzer) (fuel : ℕ) (st : TarjanSt) (ns : List String) :
    Option TarjanSt :=
  match ns with
  | [] => some st
  | nid :: rest =>
    if dmem st.index nid then tarjanLoop g fuel st rest
    else
      match sconnect g fuel st nid with
      | none => none
      | some st2 => tarjanLoop g fuel st2 rest

/-- `GraphAnalyzer._compute_sccs` / the memoized `sccs` property. -/
def computeSccs (g : GraphAnalyzer) : Option (List (List String)) :=
  (tarjanLoop g (tarjanFuel g) tarjanInit g.node_ids).map (·.result)

/-! Back-edge discovery (`_find_back_edges_in_subgraph`). -/

/-- The neighbour loop of the back-edge DFS, parameterized by the recursive
visit (structural recursion on the neighbour list): neighbours outside the
SCC are skipped; `color.get(neighbour)` is a non-raising lookup, so a missing
key merely falls through. -/
def beScan (visit : PyDict Col → List (String × String) → String →
      Option (PyDict Col × List (String × String)))
    (sccSet : List String) (color : PyDict Col) (acc : List (String × String))
    (node : String) (ws : List String) :
    Option (PyDict Col × List (String × String)) :=
  match ws with
  | [] => some (color, acc)
  | w :: rest =>
    if sccSet.contains w then
      match dget color w with
      | some Col.gray => beScan visit sccSet color (acc ++ [(node, w)]) node rest
      | some Col.white =>
        match visit color acc w with
        | none => none
        | some p => beScan visit sccSet p.1 p.2 node rest
      | _ => beScan visit sccSet color acc node rest
    else beScan visit sccSet color acc node rest

/-- `_find_back_edges_in_subgraph._dfs(node)` (structural recursion on the
fuel). -/
def beVisit (g : GraphAnalyzer) (sccSet : List String) :
    ℕ → PyDict Col → List (String × String) → String →
    Option (PyDict Col × List (String × String))
  | 0, _, _, _ => none
  | f + 1, color, acc, node =>
    let c1 := dset color node Col.gray
    match beScan (beVisit g sccSet f) sccSet c1 acc node (adjGet g node) with
    | none => none
    | some p => some (dset p.1 node Col.black, p.2)

/-- The top loop of `_find_back_edges_in_subgraph` over the SCC's nodes. -/
def beLoop (g : GraphAnalyzer) (sccSet : List String) (color : PyDict Col)
    (acc : List (String × String)) (ns : List String) :
    Option (List (String × String)) :=
  match ns with
  | [] => some acc
  | nid :: rest =>
    match dget color nid with
    | none => none
    | some c =>
      if c = Col.white then
        match beVisit g sccSet (sccSet.length + 1) color acc nid with
        | none => none
        | some p => beLoop g sccSet p.1 p.2 rest
      else beLoop g sccSet color acc rest

/-- `GraphAnalyzer._find_back_edges_in_subgraph(scc, scc_set)`. -/
def findBackEdges (g : GraphAnalyzer) (scc : List String) :
    Option (List (String × String)) :=
  beLoop g scc (initColor scc) [] scc

/-- The SCC filter of `get_cycle_groups`: keep SCCs of size ≥ 2 and attach
their back-edges.  (The `internal_edges` list the source computes is dead
code — it is built and never used.) -/
def cgLoop (g : GraphAnalyzer) (acc : List CycleGroup) (sccs : List (List String)) :
    Option (List CycleGroup) :=
  match sccs with
  | [] => some acc
  | scc :: rest =>
    if scc.length < 2 then cgLoop g acc rest
    else
      match findBackEdges g scc with
      | none => none
      | some be => cgLoop g (acc ++ [⟨scc, be⟩]) rest

/-- `GraphAnalyzer.get_cycle_groups`. -/
def cycleGroups (g : GraphAnalyzer) : Option (List CycleGroup) :=
  match computeSccs g with
  | none => none
  | some sccs => cgLoop g [] sccs

/-- `GraphAnalyzer.get_nodes_in_cycles` (a Python set, used only through
membership; embedded as the concatenation of the groups' members). -/
def nodesInCycles (g : GraphAnalyzer) : Option (List String) :=
  (cycleGroups g).map (fun gs => gs.foldl (fun acc cg => acc ++ cg.node_ids) [])

/-! Latency-weighted critical path (`weighted_critical_path`). -/

/-- One relaxation `for v in self.adj.get(u, [])` step of the longest-path
dynamic program.  Dict reads model Python's evaluation order: `dist[u]` and
`dist[v]` are read (raising on a missing key) before `parent[v]`. -/
def wcpRelax (lm : PyDict ℚ) (dist : PyDict ℚ) (parent : PyDict (Option String))
    (u : String) (vs : List String) : Option (PyDict ℚ × PyDict (Option String)) :=
  match vs with
  | [] => some (dist, parent)
  | v :: rest =>
    match dget dist u with
    | none => none
    | some du =>
      let nd := du + dgetD lm u 0
      match dget dist v with
      | none => none
      | some dv =>
        match dget parent v with
        | none => none
        | some pv =>
          if nd ≥ dv ∧ pv = none ∧ u ≠ v then
            wcpRelax lm (dset dist v nd) (dset parent v (some u)) u rest
          else if nd > dv then
            wcpRelax lm (dset dist v nd) (dset parent v (some u)) u rest
          else wcpRelax lm dist parent u rest

/-- The outer `for u in order:` loop of the dynamic program. -/
def wcpLoop (g : GraphAnalyzer) (lm : PyDict ℚ) (dist : PyDict ℚ)
    (parent : PyDict (Option String)) (us : List String) :
    Option (PyDict ℚ × PyDict (Option String)) :=
  match us with
  | [] => some (dist, parent)
  | u :: rest =>
    match wcpRelax lm dist parent u (adjGet g u) with
    | none => none
    | some p => wcpLoop g lm p.1 p.2 rest

/-- `max(candidates, key=lambda n: dist[n] + latency_map.get(n, 0.0))`:
Python's `max` keeps the first element on ties and evaluates the key of every
element (so a missing `dist` key raises regardless of position). -/
def wcpMaxBy (lm : PyDict ℚ) (dist : PyDict ℚ) (best : String) (bkey : ℚ)
    (ns : List String) : Option String :=
  match ns with
  | [] => some best
  | n :: rest =>
    match dget dist n with
    | none => none
    | some dn =>
      let k := dn + dgetD lm n 0
      if k > bkey then wcpMaxBy lm dist n k rest else wcpMaxBy lm dist best bkey rest

/-- The `while parent[current] is not None:` backtracking loop, building the
path in append order (reversed by the caller).  Fuel bounds the chain length;
on every input that reaches this loop the parent chain is acyclic. -/
def wcpBacktrack (parent : PyDict (Option String)) (fuel : ℕ) (path : List String)
    (current : String) : Option (List String) :=
  match fuel with
  | 0 => none
  | f + 1 =>
    match dget parent current with
    | none => none
    | some none => some path
    | some (some u) => wcpBacktrack parent f (path ++ [u]) u

/-- `GraphAnalyzer.weighted_critical_path(latency_map)`. -/
def weightedCriticalPath (g : GraphAnalyzer) (lm : PyDict ℚ) : Option (List String) :=
  let order := topologicalOrder g
  if order.isEmpty then some g.node_ids
  else
    let dist0 : PyDict ℚ := g.node_ids.foldl (fun d nid => dset d nid 0) []
    let parent0 : PyDict (Option String) := g.node_ids.foldl (fun d nid => dset d nid none) []
    match wcpLoop g lm dist0 parent0 order with
    | none => none
    | some dp =>
      let sinks := order.filter (fun nid => (adjGet g nid).isEmpty)
      let candidates := if sinks.isEmpty then order else sinks
      match candidates with
      | [] => none
      | c :: cs =>
        match dget dp.1 c with
        | none => none
        | some dc =>
          match wcpMaxBy lm dp.1 c (dc + dgetD lm c 0) cs with
          | none => none
          | some endNode =>
            match wcpBacktrack dp.2 (g.node_ids.length + g.edges.length + 1) [endNode] endNode with
            | none => none
            | some path => some path.reverse

/-! Parallel levels (`compute_parallel_steps`). -/

/-- `depth[v] = max(depth[v], depth[u] + 1)` over `u`'s neighbours. -/
def cpsRelax (dep : PyDict ℤ) (u : String) (vs : List String) : Option (PyDict ℤ) :=
  match vs with
  | [] => some dep
  | v :: rest =>
    match dget dep v, dget dep u with
    | some dv, some du => cpsRelax (dset dep v (max dv (du + 1))) u rest
    | _, _ => none

/-- The outer depth loop of `compute_parallel_steps`. -/
def cpsLoop (g : GraphAnalyzer) (dep : PyDict ℤ) (us : List String) : Option (PyDict ℤ) :=
  match us with
  | [] => some dep
  | u :: rest =>
    match cpsRelax dep u (adjGet g u) with
    | none => none
    | some d2 => cpsLoop g d2 rest

/-- Python `max` of a nonempty int list. -/
def listMaxInt (x : ℤ) (xs : List ℤ) : ℤ :=
  xs.foldl (fun a b => max a b) x

/-- Read each order element's depth (`depth[nid]`, raising on a missing key). -/
def depthsOf (dep : PyDict ℤ) (ns : List String) : Option (List (String × ℤ)) :=
  match ns with
  | [] => some []
  | nid :: rest =>
    match dget dep nid with
    | none => none
    | some d => (depthsOf dep rest).map ((nid, d) :: ·)

/-- `GraphAnalyzer.compute_parallel_steps`. -/
def computeParallelSteps (g : GraphAnalyzer) : Option (List (List String)) :=
  let order := topologicalOrder g
  if order.isEmpty then some [g.node_ids]
  else
    let dep0 : PyDict ℤ := g.node_ids.foldl (fun d nid => dset d nid 0) []
    match cpsLoop g dep0 order with
    | none => none
    | some dep =>
      let maxDepth := match dep.map (·.2) with
        | [] => 0
        | v :: vs => listMaxInt v vs
      match depthsOf dep order with
      | none => none
      | some pairs =>
        some ((List.range (maxDepth.toNat + 1)).map
          (fun i => (pairs.filter (fun p => p.2 == (i : ℤ))).map (·.1)))

/-! ### `estimator.py` constants and per-node estimation -/

/-- `_BASE_SYSTEM_TOKENS`. -/
def baseSystemTokens : ℤ := 200

/-- `_OUTPUT_RATIO` (the flat fallback output/input ratio). -/
def defaultOutputMult : ℚ := 3/2

/-- `_DEFAULT_TPS`. -/
def defaultTps : ℚ := 50

/-- `_DEFAULT_TOOL_SCHEMA_TOKENS`, `_DEFAULT_TOOL_RESPONSE_TOKENS`,
`_DEFAULT_TOOL_LATENCY_MS`. -/
def defaultToolSchemaTokens : ℤ := 200

/-- See `defaultToolSchemaTokens`. -/
def defaultToolResponseTokens : ℤ := 800

/-- See `defaultToolSchemaTokens`. -/
def defaultToolLatencyMs : ℤ := 200

/-- `_DEFAULT_MAX_STEPS`. -/
def defaultMaxSteps : ℤ := 10

/-- `_HIGH_COST_MODEL_THRESHOLD` ($/M input tokens). -/
def highCostThreshold : ℚ := 10

/-- `count_tokens(text)`: `len(encoding.encode(text)) if text else 0`; the
tiktoken encoding is the environment's tokenizer. -/
def countTokens (env : Env) (text : String) : ℤ :=
  if text == "" then 0 else (env.tok text : ℤ)

/-- `_TASK_OUTPUT_MULTIPLIERS` (a dict keyed by task type and expected
output size, embedded as its entry list). -/
def taskOutputMultipliers : List ((String × String) × ℚ) :=
  [(("classification", "short"), 3/10),
   (("classification", "medium"), 1/2),
   (("classification", "long"), 4/5),
   (("classification", "very_long"), 1),
   (("summarization", "short"), 4/5),
   (("summarization", "medium"), 6/5),
   (("summarization", "long"), 9/5),
   (("summarization", "very_long"), 5/2),
   (("code_generation", "short"), 1),
   (("code_generation", "medium"), 2),
   (("code_generation", "long"), 3),
   (("code_generation", "very_long"), 9/2),
   (("rag_answer", "short"), 3/5),
   (("rag_answer", "medium"), 6/5),
   (("rag_answer", "long"), 2),
   (("rag_answer", "very_long"), 3),
   (("tool_orchestration", "short"), 1/2),
   (("tool_orchestration", "medium"), 1),
   (("tool_orchestration", "long"), 3/2),
   (("tool_orchestration", "very_long"), 2),
   (("routing", "short"), 1/5),
   (("routing", "medium"), 2/5),
   (("routing", "long"), 3/5),
   (("routing", "very_long"), 4/5)]

/-- `_TASK_OUTPUT_MULTIPLIERS.get((task_type, output_size))`. -/
def taskOutputMultiplier (task size : String) : Option ℚ :=
  (taskOutputMultipliers.find? (fun p => p.1.1 == task && p.1.2 == size)).map (·.2)

/-- `_get_output_multiplier(task_type, output_size)`: table lookup when both
are set (and truthy), else the flat `_OUTPUT_RATIO`. -/
def getOutputMultiplier (task size : Option String) : ℚ :=
  if strTruthy task && strTruthy size then
    match task, size with
    | some t, some s => (taskOutputMultiplier t s).getD defaultOutputMult
    | _, _ => defaultOutputMult
  else defaultOutputMult

/-- `tool_node.tool_id` truthiness-guarded catalog lookup
(`if tool_node.tool_id: tool_registry.get(...)`). -/
def toolLookup (env : Env) (tool_id : Option String) : Option ToolDefinition :=
  match tool_id with
  | some tid => if tid == "" then none else env.toolCat tid
  | none => none

/-- `_get_tool_impact(tool_node)`. -/
def getToolImpact (env : Env) (tn : NodeConfig) : ToolImpact :=
  match toolLookup env tn.tool_id with
  | some td =>
    { tool_node_id := tn.id
      tool_name := orStr tn.label td.display_name
      tool_id := some td.id
      schema_tokens := td.schema_tokens
      response_tokens := td.avg_response_tokens
      execution_latency := pyRound ((td.latency_ms : ℚ) / 1000) 3 }
  | none =>
    { tool_node_id := tn.id
      tool_name := orStr tn.label "Unknown Tool"
      tool_id := none
      schema_tokens := defaultToolSchemaTokens
      response_tokens := defaultToolResponseTokens
      execution_latency := pyRound ((defaultToolLatencyMs : ℚ) / 1000) 3 }

/-- `estimate_tool_node(node, in_cycle)`. -/
def estimateToolNode (env : Env) (node : NodeConfig) (in_cycle : Bool) : NodeEstimation :=
  let tool_def := toolLookup env node.tool_id
  let exec_latency : ℚ :=
    match tool_def with
    | some td => (td.latency_ms : ℚ) / 1000
    | none => (defaultToolLatencyMs : ℚ) / 1000
  { node_id := node.id
    node_name := orStr node.label (match tool_def with
      | some td => td.display_name
      | none => "Tool")
    tokens := 0
    input_tokens := 0
    output_tokens := 0
    cost := 0
    input_cost := 0
    output_cost := 0
    latency := pyRound exec_latency 3
    model_provider := none
    model_name := none
    tool_id := node.tool_id
    tool_impacts := none
    tool_schema_tokens := 0
    tool_response_tokens := (match tool_def with
      | some td => td.avg_response_tokens
      | none => defaultToolResponseTokens)
    tool_latency := pyRound exec_latency 3
    in_cycle := in_cycle }

/-- `estimate_agent_node(node, connected_tool_nodes, in_cycle)`. -/
def estimateAgentNode (env : Env) (node : NodeConfig) (connected : List NodeConfig)
    (in_cycle : Bool) : NodeEstimation :=
  let tool_impacts := connected.map (getToolImpact env)
  let total_schema := (tool_impacts.map (·.schema_tokens)).sum
  let total_resp := (tool_impacts.map (·.response_tokens)).sum
  let total_tool_lat := (tool_impacts.map (·.execution_latency)).sum
  let base_ctx : ℤ := countTokens env (orStr node.context "") + baseSystemTokens
  let input0 := base_ctx + total_schema + total_resp
  let mult := getOutputMultiplier node.task_type node.expected_output_size
  let output0 := pyTrunc ((base_ctx : ℚ) * mult)
  let calls := max 1 (orInt node.expected_calls_per_run 1)
  let input_tokens := input0 * calls
  let output_tokens := output0 * calls
  let total_tokens := input_tokens + output_tokens
  let provider := orStr node.model_provider ""
  let model := orStr node.model_name ""
  match env.priceCat provider model with
  | none =>
    let stl := total_tool_lat * (calls : ℚ)
    { node_id := node.id
      node_name := orStr node.label node.type
      tokens := total_tokens
      input_tokens := input_tokens
      output_tokens := output_tokens
      cost := 0
      input_cost := 0
      output_cost := 0
      latency := stl
      model_provider := if provider == "" then none else some provider
      model_name := if model == "" then none else some model
      tool_id := none
      tool_impacts := if tool_impacts.isEmpty then none else some tool_impacts
      tool_schema_tokens := total_schema
      tool_response_tokens := total_resp
      tool_latency := pyRound stl 3
      in_cycle := in_cycle }
  | some pricing =>
    let input_cost := ((input_tokens : ℚ) / 1000000) * pricing.input_per_million
    let output_cost := ((output_tokens : ℚ) / 1000000) * pricing.output_per_million
    let cost := pyRound (input_cost + output_cost) 8
    let tps := if pricing.tokens_per_sec == 0 then defaultTps else pricing.tokens_per_sec
    let llm_latency := (output_tokens : ℚ) / tps
    let stl := total_tool_lat * (calls : ℚ)
    let total_latency := llm_latency + stl
    { node_id := node.id
      node_name := orStr node.label node.type
      tokens := total_tokens
      input_tokens := input_tokens
      output_tokens := output_tokens
      cost := cost
      input_cost := pyRound input_cost 8
      output_cost := pyRound output_cost 8
      latency := pyRound total_latency 3
      model_provider := some provider
      model_name := some model
      tool_id := none
      tool_impacts := if tool_impacts.isEmpty then none else some tool_impacts
      tool_schema_tokens := total_schema
      tool_response_tokens := total_resp
      tool_latency := pyRound stl 3
      in_cycle := in_cycle }

/-- `estimate_node(node, in_cycle)` for start/finish/other kinds. -/
def estimatePlainNode (node : NodeConfig) (in_cycle : Bool) : NodeEstimation :=
  { node_id := node.id
    node_name := orStr node.label node.type
    tokens := 0
    input_tokens := 0
    output_tokens := 0
    cost := 0
    input_cost := 0
    output_cost := 0
    latency := 0
    model_provider := none
    model_name := none
    tool_id := none
    tool_impacts := none
    tool_schema_tokens := 0
    tool_response_tokens := 0
    tool_latency := 0
    in_cycle := in_cycle }

/-- `{n.id: n for n in nodes}`. -/
def mkNodeMap (nodes : List NodeConfig) : PyDict NodeConfig :=
  nodes.foldl (fun d n => dset d n.id n) []

/-- One conditional append of `_build_tool_connections`
(`if tool not in agent_tools[agent]: agent_tools[agent].append(tool)`). -/
def toolConnAdd (at_ : PyDict (List String)) (k v : String) : PyDict (List String) :=
  let cur := dgetD at_ k []
  if cur.contains v then at_ else dset at_ k (cur ++ [v])

/-- `_build_tool_connections(nodes, edges)`. -/
def buildToolConnections (nodes : List NodeConfig) (edges : List EdgeConfig) :
    PyDict (List String) :=
  let node_map := mkNodeMap nodes
  edges.foldl
    (fun at_ e =>
      match dget node_map e.source, dget node_map e.target with
      | some src, some tgt =>
        let a1 :=
          if src.type == "agentNode" && tgt.type == "toolNode" then
            toolConnAdd at_ src.id tgt.id
          else at_
        if src.type == "toolNode" && tgt.type == "agentNode" then
          toolConnAdd a1 tgt.id src.id
        else a1
      | _, _ => at_)
    []

/-- The per-node estimation loop of `estimate_workflow` (single lap). -/
def buildBreakdown (env : Env) (nodes : List NodeConfig) (node_map : PyDict NodeConfig)
    (agent_tools : PyDict (List String)) (cycle_node_ids : List String) :
    List NodeEstimation :=
  nodes.map (fun node =>
    let in_cycle := cycle_node_ids.contains node.id
    if node.type == "agentNode" then
      let connected_tool_ids := dgetD agent_tools node.id []
      let connected := connected_tool_ids.filterMap (fun tid => dget node_map tid)
      estimateAgentNode env node connected in_cycle
    else if node.type == "toolNode" then estimateToolNode env node in_cycle
    else estimatePlainNode node in_cycle)

/-- The per-group iteration policy of `estimate_workflow` (lines 633–643):
minimum configured `max_steps` over the group's agent nodes (default
`_DEFAULT_MAX_STEPS`), clamped to `recursion_limit`, scaled by the loop
intensity, rounded half-to-even, re-clamped to `[1, recursion_limit]`. -/
def groupMaxIterations (node_map : PyDict NodeConfig) (recursion_limit : ℤ) (li : ℚ)
    (member_ids : List String) : ℤ :=
  let agent_max_steps := member_ids.filterMap (fun nid =>
    match dget node_map nid with
    | some nc => if nc.type == "agentNode" then nc.max_steps else none
    | none => none)
  let m0 := match agent_max_steps with
    | [] => defaultMaxSteps
    | m :: ms => listMin m ms
  let m1 := min m0 recursion_limit
  max 1 (min recursion_limit (pyRoundInt ((m1 : ℚ) * li)))

/-- `expected_iter = max(1, math.ceil(max_iter / 2))`. -/
def expectedIterations (max_iter : ℤ) : ℤ :=
  max 1 ⌈(max_iter : ℚ) / 2⌉

/-- One iteration of the `for idx, cg in enumerate(...)` loop building
`detected_cycles` and the `node_id → max_iterations` dict. -/
def cycleInfoStep (node_map : PyDict NodeConfig) (recursion_limit : ℤ) (li : ℚ)
    (st : List CycleInfo × PyDict ℤ) (cg : CycleGroup) : List CycleInfo × PyDict ℤ :=
  let max_iter := groupMaxIterations node_map recursion_limit li cg.node_ids
  let expected_iter := expectedIterations max_iter
  let nci := cg.node_ids.foldl (fun d nid => dset d nid max_iter) st.2
  let labels := cg.node_ids.filterMap (fun nid =>
    (dget node_map nid).map (fun nc => orStr nc.label nid))
  (st.1 ++ [{ cycle_id := (st.1.length : ℤ)
              node_ids := cg.node_ids
              node_labels := labels
              back_edges := cg.back_edges
              max_iterations := max_iter
              expected_iterations := expected_iter }], nci)

/-- The `for idx, cg in enumerate(...)` loop building `detected_cycles` and
the `node_id → max_iterations` dict. -/
def buildCycleInfos (node_map : PyDict NodeConfig) (recursion_limit : ℤ) (li : ℚ)
    (groups : List CycleGroup) : List CycleInfo × PyDict ℤ :=
  groups.foldl (cycleInfoStep node_map recursion_limit li) ([], [])

/-- Python `max` of a nonempty float list. -/
def listMaxQ (x : ℚ) (xs : List ℚ) : ℚ :=
  xs.foldl (fun a b => max a b) x

/-- Insert `x` (an element that precedes the already-sorted tail in the
original order) into a descending-sorted list, before the first element whose
key does not exceed `x`'s. -/
def stableInsertDesc (key : α → ℚ) (x : α) : List α → List α
  | [] => [x]
  | y :: ys => if key x ≥ key y then x :: y :: ys else y :: stableInsertDesc key x ys

/-- Python's `list.sort(key=..., reverse=True)` / `sorted(..., reverse=True)`:
a stable descending sort by key.  A stable sort's output is determined by the
key alone, so this structural insertion sort computes the same list as
CPython's Timsort. -/
def stableSortDesc (key : α → ℚ) : List α → List α
  | [] => []
  | x :: xs => stableInsertDesc key x (stableSortDesc key xs)

/-- `_compute_bottleneck_shares(breakdown, total_cost, total_latency)`:
shares first, then severity by stable descending rank of
`max(cost_share, latency_share)` (Python `list.sort(reverse=True)` is
stable). -/
def computeBottleneckShares (breakdown : List NodeEstimation)
    (total_cost total_latency : ℚ) : List NodeEstimation :=
  let shared := breakdown.map (fun b =>
    { b with
      cost_share := if total_cost > 0 then pyRound (b.cost / total_cost) 4 else 0
      latency_share := if total_latency > 0 then pyRound (b.latency / total_latency) 4 else 0 })
  let impacts := shared.enum.map (fun p => (max p.2.cost_share p.2.latency_share, p.1))
  let sorted := stableSortDesc (·.1) impacts
  let n := sorted.length
  let sev := sorted.enum.map (fun rp =>
    (rp.2.2, if n > 0 then ((rp.1 : ℚ) + 1) / (n : ℚ) else 1))
  shared.enum.map (fun p =>
    let b := p.2
    match sev.find? (fun sp => sp.1 == p.1) with
    | some sp =>
      { b with bottleneck_severity :=
          if sp.2 ≤ 1/5 ∧ (b.cost > 0 ∨ b.latency > 0) then some "high"
          else if sp.2 ≤ 1/2 ∧ (b.cost > 0 ∨ b.latency > 0) then some "medium"
          else some "low" }
    | none => b)

/-- `_compute_cycle_contributions`: per-lap sums, contribution shares, and
the four-level risk classification with its reason string. -/
def computeCycleContributions (env : Env) (cycles : List CycleInfo)
    (breakdown : List NodeEstimation) (total_cost total_latency : ℚ) : List CycleInfo :=
  cycles.map (fun ci =>
    let members := breakdown.filter (fun b => ci.node_ids.contains b.node_id)
    let lap_tokens := (members.map (·.tokens)).sum
    let lap_cost := (members.map (·.cost)).sum
    let lap_latency := (members.map (·.latency)).sum
    let avg_cost := lap_cost * (ci.expected_iterations : ℚ)
    let avg_latency := lap_latency * (ci.expected_iterations : ℚ)
    let cost_contribution := if total_cost > 0 then pyRound (avg_cost / total_cost) 4 else 0
    let latency_contribution :=
      if total_latency > 0 then pyRound (avg_latency / total_latency) 4 else 0
    let expensive := breakdown.find? (fun b =>
      ci.node_ids.contains b.node_id && strTruthy b.model_provider &&
      strTruthy b.model_name &&
      (match env.priceCat (b.model_provider.getD "") (b.model_name.getD "") with
       | some p => decide (p.input_per_million ≥ highCostThreshold)
       | none => false))
    let has_expensive : Bool := expensive.isSome
    let expensive_name : String := match expensive with
      | some b => b.model_provider.getD "" ++ "/" ++ b.model_name.getD ""
      | none => ""
    let mi : ℤ := ci.max_iterations
    let rl : String × List String :=
      if has_expensive = true ∧ mi ≥ 20 then
        ("critical",
         ["Expensive model (" ++ expensive_name ++ ")",
          "High max iterations (" ++ toString mi ++ ")"])
      else if has_expensive = true ∨ mi ≥ 15 ∨ cost_contribution > 1/2 then
        ("high",
         (if has_expensive = true then ["Expensive model (" ++ expensive_name ++ ")"] else []) ++
         (if mi ≥ 15 then ["High max iterations (" ++ toString mi ++ ")"] else []) ++
         (if cost_contribution > 1/2 then
            ["Loop dominates cost (" ++ toString (pyRoundInt (cost_contribution * 100)) ++ "%)"]
          else []))
      else if mi ≥ 5 ∨ cost_contribution > 1/5 then
        ("medium",
         (if mi ≥ 5 then ["Moderate iterations (" ++ toString mi ++ ")"] else []) ++
         (if cost_contribution > 1/5 then
            ["Significant cost share (" ++ toString (pyRoundInt (cost_contribution * 100)) ++ "%)"]
          else []))
      else ("low", ["Bounded loop with low cost impact"])
    { ci with
      tokens_per_lap := lap_tokens
      cost_per_lap := pyRound lap_cost 8
      latency_per_lap := pyRound lap_latency 4
      cost_contribution := cost_contribution
      latency_contribution := latency_contribution
      risk_level := some rl.1
      risk_reason := some (String.intercalate "; " rl.2) })

/-- The premium-agent count of `_compute_health_score` (factor 3): agent
nodes whose truthy provider/model pair resolves to a catalog entry with
input price strictly above `_HIGH_COST_MODEL_THRESHOLD`. -/
def premiumAgentCount (env : Env) (agent_nodes : List NodeConfig) : ℕ :=
  agent_nodes.countP (fun n =>
    strTruthy n.model_provider && strTruthy n.model_name &&
    (match env.priceCat (n.model_provider.getD "") (n.model_name.getD "") with
     | some entry => decide (entry.input_per_million > highCostThreshold)
     | none => false))

/-- `_compute_health_score`. -/
def computeHealthScore (env : Env) (breakdown : List NodeEstimation)
    (detected_cycles : List CycleInfo) (nodes : List NodeConfig)
    (total_cost total_latency critical_path_latency : ℚ) : HealthScore :=
  let cost_shares :=
    stableSortDesc (fun q => q) ((breakdown.filter (fun b => b.cost > 0)).map (·.cost_share))
  let top2_share : ℚ := if cost_shares.isEmpty then 0 else (cost_shares.take 2).sum
  let cost_score : ℤ :=
    if top2_share ≤ 2/5 then 25
    else if top2_share ≤ 3/5 then 18
    else if top2_share ≤ 4/5 then 10
    else 3
  let badges1 : List String :=
    if top2_share ≤ 2/5 then ["Cost-efficient"]
    else if top2_share ≤ 3/5 then []
    else ["Cost-concentrated"]
  let loop_score : ℤ :=
    if detected_cycles.isEmpty then 25
    else if detected_cycles.any (fun c => c.risk_level == some "critical") then 3
    else if detected_cycles.any (fun c => c.risk_level == some "high") then 10
    else if detected_cycles.any (fun c => c.risk_level == some "medium") then 18
    else 22
  let badges2 : List String :=
    if detected_cycles.isEmpty then ["Loop-free"]
    else if detected_cycles.any (fun c =>
        c.risk_level == some "critical" || c.risk_level == some "high") then ["Loop-heavy"]
    else []
  let agent_nodes := nodes.filter (fun n => n.type == "agentNode")
  let premium_count := premiumAgentCount env agent_nodes
  let premium_ratio : ℚ :=
    if agent_nodes.isEmpty then 0 else (premium_count : ℚ) / (agent_nodes.length : ℚ)
  let model_score : ℤ :=
    if premium_ratio ≤ 1/5 then 25
    else if premium_ratio ≤ 1/2 then 18
    else if premium_ratio ≤ 4/5 then 10
    else 3
  let badges3 : List String :=
    if premium_ratio ≤ 1/5 then (if agent_nodes.isEmpty then [] else ["Budget-friendly"])
    else if premium_ratio ≤ 1/2 then []
    else ["High premium-model usage"]
  let latency_score : ℤ :=
    if total_latency > 0 ∧ critical_path_latency > 0 then
      let benefit := 1 - critical_path_latency / total_latency
      if benefit ≥ 3/10 then 25
      else if benefit ≥ 3/20 then 20
      else if benefit ≥ 1/20 then 15
      else 8
    else 15
  let badges4 : List String :=
    if total_latency > 0 ∧ critical_path_latency > 0 then
      let benefit := 1 - critical_path_latency / total_latency
      if benefit ≥ 1/20 then [] else ["Latency-sensitive"]
    else []
  let composite := cost_score + loop_score + model_score + latency_score
  { grade :=
      if composite ≥ 85 then "A"
      else if composite ≥ 70 then "B"
      else if composite ≥ 55 then "C"
      else if composite ≥ 40 then "D"
      else "F"
    score := composite
    badges := badges1 ++ badges2 ++ badges3 ++ badges4
    details :=
      { cost_concentration_score := cost_score
        top2_share := pyRound top2_share 3
        loop_risk_score := loop_score
        cycle_count := (detected_cycles.length : ℤ)
        premium_model_score := model_score
        premium_ratio := pyRound premium_ratio 3
        latency_balance_score := latency_score
        critical_vs_total := pyRound (critical_path_latency / max total_latency (1/1000)) 3 } }

/-- The `node_cycle_iterations.get(b.node_id, 1) // 2 or 1` factor applied to
in-cycle nodes when overriding `total_input_tokens` / `total_output_tokens`. -/
def halvedIterFactor (nci : PyDict ℤ) (nid : String) : ℤ :=
  let h := Int.fdiv (dgetD nci nid 1) 2
  if h == 0 then 1 else h

/-! `estimate_workflow` is embedded in named stages, one per contiguous
section of the function body, assembled by `ewAssemble`; the Option-valued
wrapper `estimateWorkflow` sequences the four effects (Tarjan + back-edge
fuel, `is_cyclic`, critical path, parallel steps), where `none` models a
raised exception (a `KeyError` on an edge endpoint that is not a listed node)
or exhausted traversal fuel. -/

/-- The analyzer `estimate_workflow` constructs. -/
def ewAnalyzer (nodes : List NodeConfig) (edges : List EdgeConfig) : GraphAnalyzer :=
  mkAnalyzer (nodes.map (·.id)) edges

/-- `analyzer.get_nodes_in_cycles()` given the computed cycle groups. -/
def ewCycleNodeIds (groups : List CycleGroup) : List String :=
  groups.foldl (fun acc cg => acc ++ cg.node_ids) []

/-- The single-lap per-node estimation loop (lines 611–621). -/
def ewBreakdown0 (env : Env) (nodes : List NodeConfig) (edges : List EdgeConfig)
    (groups : List CycleGroup) : List NodeEstimation :=
  buildBreakdown env nodes (mkNodeMap nodes) (buildToolConnections nodes edges)
    (ewCycleNodeIds groups)

/-- The `detected_cycles` construction (lines 624–659): empty when the graph
is acyclic. -/
def ewCyc (nodes : List NodeConfig) (recursion_limit : ℤ) (loop_intensity : Option ℚ)
    (is_cyclic : Bool) (groups : List CycleGroup) : List CycleInfo × PyDict ℤ :=
  if is_cyclic then
    buildCycleInfos (mkNodeMap nodes) recursion_limit (loop_intensity.getD 1) groups
  else ([], [])

/-- The min/avg/max range computation (lines 669–725), `none` when the
`is_cyclic and detected_cycles` guard fails. -/
def ewRanges (breakdown0 : List NodeEstimation) (detected0 : List CycleInfo)
    (is_cyclic : Bool) : Option (EstimationRange × EstimationRange × EstimationRange) :=
  if is_cyclic ∧ detected0 ≠ [] then
    let dagPart := breakdown0.filter (fun b => !b.in_cycle)
    let dag_tokens : ℤ := (dagPart.map (·.tokens)).sum
    let dag_cost : ℚ := (dagPart.map (·.cost)).sum
    let dag_latency : ℚ := (dagPart.map (·.latency)).sum
    let lapT := fun (ci : CycleInfo) =>
      ((breakdown0.filter (fun b => ci.node_ids.contains b.node_id)).map
        (fun b => (b.tokens : ℚ))).sum
    let lapC := fun (ci : CycleInfo) =>
      ((breakdown0.filter (fun b => ci.node_ids.contains b.node_id)).map (·.cost)).sum
    let lapL := fun (ci : CycleInfo) =>
      ((breakdown0.filter (fun b => ci.node_ids.contains b.node_id)).map (·.latency)).sum
    let ctmin := (detected0.map (fun ci => lapT ci * 1)).sum
    let ctavg := (detected0.map (fun ci => lapT ci * (ci.expected_iterations : ℚ))).sum
    let ctmax := (detected0.map (fun ci => lapT ci * (ci.max_iterations : ℚ))).sum
    let ccmin := (detected0.map (fun ci => lapC ci * 1)).sum
    let ccavg := (detected0.map (fun ci => lapC ci * (ci.expected_iterations : ℚ))).sum
    let ccmax := (detected0.map (fun ci => lapC ci * (ci.max_iterations : ℚ))).sum
    let clmin := (detected0.map (fun ci => lapL ci * 1)).sum
    let clavg := (detected0.map (fun ci => lapL ci * (ci.expected_iterations : ℚ))).sum
    let clmax := (detected0.map (fun ci => lapL ci * (ci.max_iterations : ℚ))).sum
    some
      (⟨(pyRoundInt ((dag_tokens : ℚ) + ctmin) : ℚ),
        (pyRoundInt ((dag_tokens : ℚ) + ctavg) : ℚ),
        (pyRoundInt ((dag_tokens : ℚ) + ctmax) : ℚ)⟩,
       ⟨pyRound (dag_cost + ccmin) 6, pyRound (dag_cost + ccavg) 6,
        pyRound (dag_cost + ccmax) 6⟩,
       ⟨pyRound (dag_latency + clmin) 3, pyRound (dag_latency + clavg) 3,
        pyRound (dag_latency + clmax) 3⟩)
  else none

/-- The five headline totals. -/
structure Totals where
  tokens : ℤ
  input : ℤ
  output : ℤ
  cost : ℚ
  latency : ℚ
deriving DecidableEq

/-- The headline totals (lines 662–666 resp. their cyclic override at lines
727–740). -/
def ewTotals (breakdown0 : List NodeEstimation) (nci : PyDict ℤ)
    (rng : Option (EstimationRange × EstimationRange × EstimationRange)) : Totals :=
  match rng with
  | some r =>
    { tokens := pyTrunc r.1.avg
      input := (breakdown0.map (fun b =>
        if b.in_cycle then b.input_tokens * halvedIterFactor nci b.node_id
        else b.input_tokens)).sum
      output := (breakdown0.map (fun b =>
        if b.in_cycle then b.output_tokens * halvedIterFactor nci b.node_id
        else b.output_tokens)).sum
      cost := pyRound r.2.1.avg 8
      latency := pyRound r.2.2.avg 3 }
  | none =>
    { tokens := (breakdown0.map (·.tokens)).sum
      input := (breakdown0.map (·.input_tokens)).sum
      output := (breakdown0.map (·.output_tokens)).sum
      cost := pyRound ((breakdown0.map (·.cost)).sum) 8
      latency := pyRound ((breakdown0.map (·.latency)).sum) 3 }

/-- The post-shares breakdown of a run. -/
def ewBreakdown (env : Env) (nodes : List NodeConfig) (edges : List EdgeConfig)
    (recursion_limit : ℤ) (loop_intensity : Option ℚ) (groups : List CycleGroup)
    (is_cyclic : Bool) : List NodeEstimation :=
  let breakdown0 := ewBreakdown0 env nodes edges groups
  let cyc := ewCyc nodes recursion_limit loop_intensity is_cyclic groups
  let rng := ewRanges breakdown0 cyc.1 is_cyclic
  let tot := ewTotals breakdown0 cyc.2 rng
  computeBottleneckShares breakdown0 tot.cost tot.latency

/-- The final `detected_cycles` (risk fields filled when nonempty). -/
def ewDetected (env : Env) (nodes : List NodeConfig) (edges : List EdgeConfig)
    (recursion_limit : ℤ) (loop_intensity : Option ℚ) (groups : List CycleGroup)
    (is_cyclic : Bool) : List CycleInfo :=
  let breakdown0 := ewBreakdown0 env nodes edges groups
  let cyc := ewCyc nodes recursion_limit loop_intensity is_cyclic groups
  let rng := ewRanges breakdown0 cyc.1 is_cyclic
  let tot := ewTotals breakdown0 cyc.2 rng
  let breakdown := computeBottleneckShares breakdown0 tot.cost tot.latency
  if cyc.1.isEmpty then cyc.1
  else computeCycleContributions env cyc.1 breakdown tot.cost tot.latency

/-- `latency_map = {b.node_id: b.latency for b in breakdown}`. -/
def ewLatencyMap (env : Env) (nodes : List NodeConfig) (edges : List EdgeConfig)
    (recursion_limit : ℤ) (loop_intensity : Option ℚ) (groups : List CycleGroup)
    (is_cyclic : Bool) : PyDict ℚ :=
  (ewBreakdown env nodes edges recursion_limit loop_intensity groups is_cyclic).foldl
    (fun d b => dset d b.node_id b.latency) []

/-- The pure assembly of the `WorkflowEstimation` result, given the values of
the four effectful calls. -/
def ewAssemble (env : Env) (nodes : List NodeConfig) (edges : List EdgeConfig)
    (recursion_limit : ℤ) (runs_per_day : Option ℤ) (loop_intensity : Option ℚ)
    (groups : List CycleGroup) (is_cyclic : Bool) (critical_path : List String)
    (raw_steps : List (List String)) : WorkflowEstimation :=
  let node_map := mkNodeMap nodes
  let breakdown0 := ewBreakdown0 env nodes edges groups
  let cyc := ewCyc nodes recursion_limit loop_intensity is_cyclic groups
  let rng := ewRanges breakdown0 cyc.1 is_cyclic
  let tot := ewTotals breakdown0 cyc.2 rng
  let total_tool_latency := pyRound ((breakdown0.map (·.tool_latency)).sum) 3
  let breakdown := computeBottleneckShares breakdown0 tot.cost tot.latency
  let detected :=
    if cyc.1.isEmpty then cyc.1
    else computeCycleContributions env cyc.1 breakdown tot.cost tot.latency
  let latency_map := breakdown.foldl (fun d b => dset d b.node_id b.latency) []
  let critical_path_latency :=
    pyRound ((critical_path.map (fun nid => dgetD latency_map nid 0)).sum) 4
  let breakdown_map := breakdown.foldl (fun d b => dset d b.node_id b) []
  let parallel_steps := raw_steps.enum.map (fun p =>
    let step_node_ids := p.2
    let step_latencies := step_node_ids.map (fun nid => dgetD latency_map nid 0)
    let step_costs :=
      (step_node_ids.filterMap (fun nid => dget breakdown_map nid)).map (·.cost)
    let step_labels := step_node_ids.filterMap (fun nid =>
      (dget node_map nid).map (fun nc => orStr nc.label nid))
    { step := (p.1 : ℤ)
      node_ids := step_node_ids
      node_labels := step_labels
      total_latency := pyRound
        (match step_latencies with
         | [] => 0
         | x :: xs => listMaxQ x xs) 4
      total_cost := pyRound step_costs.sum 8
      parallelism := (step_node_ids.length : ℤ) : ParallelStep })
  let scaling : Option ScalingProjection := match runs_per_day with
    | none => none
    | some rpd0 =>
      let rpd := max 1 rpd0
      let rpm := rpd * 30
      some
        { runs_per_day := rpd
          runs_per_month := rpm
          loop_intensity := loop_intensity.getD 1
          monthly_cost := pyRound (tot.cost * (rpm : ℚ)) 4
          monthly_tokens := tot.tokens * rpm
          monthly_compute_seconds := pyRound (tot.latency * (rpm : ℚ)) 2
          cost_per_1k_runs := pyRound (tot.cost * 1000) 6 }
  let sens : SensitivityReadout := match rng with
    | some r =>
      { cost_min := r.2.1.min, cost_avg := r.2.1.avg, cost_max := r.2.1.max
        latency_min := r.2.2.min, latency_avg := r.2.2.avg, latency_max := r.2.2.max }
    | none =>
      { cost_min := tot.cost, cost_avg := tot.cost, cost_max := tot.cost
        latency_min := tot.latency, latency_avg := tot.latency
        latency_max := tot.latency }
  let health := computeHealthScore env breakdown detected nodes tot.cost tot.latency
    critical_path_latency
  { total_tokens := tot.tokens
    total_input_tokens := tot.input
    total_output_tokens := tot.output
    total_cost := tot.cost
    total_latency := tot.latency
    total_tool_latency := total_tool_latency
    graph_type := if is_cyclic then "CYCLIC" else "DAG"
    breakdown := breakdown
    critical_path := critical_path
    detected_cycles := detected
    token_range := rng.map (·.1)
    cost_range := rng.map (·.2.1)
    latency_range := rng.map (·.2.2)
    recursion_limit := recursion_limit
    parallel_steps := parallel_steps
    critical_path_latency := critical_path_latency
    scaling_projection := scaling
    sensitivity := some sens
    health := some health }

/-- `estimate_workflow(nodes, edges, recursion_limit, runs_per_day,
loop_intensity)`: sequence the effectful calls in source order — the Tarjan
and back-edge traversals (line 607), `is_cyclic` (line 608, which raises
`KeyError` on an edge whose target is not a listed node), the critical-path
dynamic program (line 751) and the parallelism analysis (line 756) — and
assemble the result.  (`classify()` at line 823 recomputes `is_cyclic()`
deterministically, so its value is reused.) -/
def estimateWorkflow (env : Env) (nodes : List NodeConfig) (edges : List EdgeConfig)
    (recursion_limit : ℤ) (runs_per_day : Option ℤ) (loop_intensity : Option ℚ) :
    Option WorkflowEstimation :=
  let g := ewAnalyzer nodes edges
  match cycleGroups g with
  | none => none
  | some groups =>
    match isCyclic g with
    | none => none
    | some is_cyclic =>
      match weightedCriticalPath g
          (ewLatencyMap env nodes edges recursion_limit loop_intensity groups is_cyclic) with
      | none => none
      | some critical_path =>
        match computeParallelSteps g with
        | none => none
        | some raw_steps =>
          some (ewAssemble env nodes edges recursion_limit runs_per_day loop_intensity
            groups is_cyclic critical_path raw_steps)

/-! ### Concrete fixtures for counterexamples and witnesses -/

/-- An environment with empty catalogs and a zero tokenizer. -/
def zeroEnv : Env where
  tok := fun _ => 0
  priceCat := fun _ _ => none
  toolCat := fun _ => none

/-- A bare start node with id `"a"`. -/
def startA : NodeConfig where
  id := "a"
  type := "startNode"

/-- An agent node with two configured calls per run and empty context. -/
def c7Node : NodeConfig where
  id := "P"
  type := "agentNode"
  model_provider := some "X"
  model_name := some "Y"
  context := some ""
  expected_calls_per_run := some 2

/-- A pricing environment whose single entry prices input at exactly the
expensive-model threshold (10.0 $/M). -/
def envThr : Env where
  tok := fun _ => 0
  priceCat := fun p m =>
    if p == "P" && m == "M" then
      some { input_per_million := 10, output_per_million := 30, tokens_per_sec := 50 }
    else none
  toolCat := fun _ => none

/-- An agent node referencing the `envThr` entry. -/
def c8Node : NodeConfig where
  id := "N"
  type := "agentNode"
  model_provider := some "P"
  model_name := some "M"
  context := some ""

/-- A pricing environment with one model entry (2.5/10 $/M, 100 tok/s). -/
def scEnv : Env where
  tok := fun s => s.length
  priceCat := fun p m =>
    if p == "OpenAI" && m == "gpt-4o" then
      some { input_per_million := 5/2, output_per_million := 10, tokens_per_sec := 100 }
    else none
  toolCat := fun _ => none

/-- Scenario C's first agent: per-node cap 6. -/
def agA : NodeConfig where
  id := "A"
  type := "agentNode"
  model_provider := some "OpenAI"
  model_name := some "gpt-4o"
  context := some "hi"
  max_steps := some 6

/-- Scenario C's second agent: no cap. -/
def agB : NodeConfig where
  id := "B"
  type := "agentNode"
  model_provider := some "OpenAI"
  model_name := some "gpt-4o"
  context := some "yo"

/-- The two-edge cycle `A → B → A`. -/
def edC : List EdgeConfig := [⟨"A", "B"⟩, ⟨"B", "A"⟩]

/-- The cycle group Tarjan computes for `edC` (checked by `decide` where
used). -/
def cgC : List CycleGroup := [⟨["B", "A"], [("A", "B")]⟩]

/-- Well-formedness of the consumed catalogs: prices, throughputs, token
counts and latencies are nonnegative (true of the shipped
`model_pricing.json` and `tool_definitions.json`). -/
def EnvOk (env : Env) : Prop :=
  (∀ p m e, env.priceCat p m = some e →
    0 ≤ e.input_per_million ∧ 0 ≤ e.output_per_million ∧ 0 ≤ e.tokens_per_sec) ∧
  (∀ t d, env.toolCat t = some d →
    0 ≤ d.schema_tokens ∧ 0 ≤ d.avg_response_tokens ∧ 0 ≤ d.latency_ms)

/-- The cycle fixture's first agent with an odd per-node cap of 3. -/
def agA3 : NodeConfig where
  id := "A"
  type := "agentNode"
  model_provider := some "OpenAI"
  model_name := some "gpt-4o"
  context := some "hi"
  max_steps := some 3

/-- Spec-side reading of claim C3 for a rational metric: the single-pass sum
over DAG-zone nodes plus, per cycle group, the group's per-lap single-pass
sum multiplied by its `expected_iterations`. -/
def specAvgTotal (metric : NodeEstimation → ℚ) (breakdown : List NodeEstimation)
    (cycles : List CycleInfo) : ℚ :=
  ((breakdown.filter (fun b => !b.in_cycle)).map metric).sum +
  (cycles.map (fun ci =>
    ((breakdown.filter (fun b => ci.node_ids.contains b.node_id)).map metric).sum
      * (ci.expected_iterations : ℚ))).sum

/-- Spec-side reading of claim C3 for an integer metric (token counts). -/
def specAvgTotalInt (metric : NodeEstimation → ℤ) (breakdown : List NodeEstimation)
    (cycles : List CycleInfo) : ℤ :=
  ((breakdown.filter (fun b => !b.in_cycle)).map metric).sum +
  (cycles.map (fun ci =>
    ((breakdown.filter (fun b => ci.node_ids.contains b.node_id)).map metric).sum
      * ci.expected_iterations)).sum

/-- The amended input/output aggregate: a node belonging to a cycle is scaled
by `max(1, its cycle's max_iterations // 2)` (floor division) instead of the
cycle's `expected_iterations`; other nodes count single-pass. -/
def specHalvedTotal (metric : NodeEstimation → ℤ) (breakdown : List NodeEstimation)
    (cycles : List CycleInfo) : ℤ :=
  (breakdown.map (fun b =>
    match cycles.find? (fun ci => ci.node_ids.contains b.node_id) with
    | some ci => metric b * max 1 (Int.fdiv ci.max_iterations 2)
    | none => metric b)).sum

/-- An independent agent node (no tools, no edges) for Scenario E. -/
def agN (i ctx : String) : NodeConfig where
  id := i
  type := "agentNode"
  model_provider := some "OpenAI"
  model_name := some "gpt-4o"
  context := some ctx

/-- Scenario E's ten independent agents with distinct contexts. -/
def tenAgents : List NodeConfig :=
  [agN "A0" "", agN "A1" "x", agN "A2" "xx", agN "A3" "xxx", agN "A4" "xxxx",
   agN "A5" "xxxxx", agN "A6" "xxxxxx", agN "A7" "xxxxxxx", agN "A8" "xxxxxxxx",
   agN "A9" "xxxxxxxxx"]

/-- The result of the self-loop run (one agent, one `A → A` edge): the glue
values of the four effectful sub-calls are checked by `decide` where used. -/
def c10W : WorkflowEstimation :=
  ewAssemble scEnv [agA] [⟨"A", "A"⟩] 25 none none [] true ["A"] [["A"]]

/-- Invariant measure for Kahn's algorithm: the number of edges into `v`
whose source has not yet been emitted into `L`. -/
def remCount (edges : List EdgeConfig) (L : List String) (v : String) : ℤ :=
  (edges.countP (fun e => e.target == v && !(L.contains e.source)) : ℤ)

/-- The Tarjan state invariant: indexed nodes are listed, the `on_stack` set
mirrors the stack without duplicates, delivered components and the stack hold
pairwise-distinct nodes, and a node is indexed exactly when it sits in a
delivered component or on the stack. -/
def TInv (ids : List String) (st : TarjanSt) : Prop :=
  (∀ y, dmem st.index y = true → y ∈ ids) ∧
  st.onStack.Nodup ∧
  (∀ y, y ∈ st.stack ↔ y ∈ st.onStack) ∧
  (st.result.flatten ++ st.stack).Nodup ∧
  (∀ y, dmem st.index y = true ↔ (y ∈ st.result.flatten ∨ y ∈ st.stack))

/-- What a completed `strongconnect` call (or neighbour scan) rooted at `x`
guarantees relative to its entry state: the invariant holds, indices persist,
the counter grows, on-stack nodes keep indices at least `c0`, the entry stack
is a suffix of the exit stack, and the lowlink of an already-indexed node
other than `x` is untouched. -/
def SPost (ids : List String) (c0 : ℕ) (x : String) (st st2 : TarjanSt) : Prop :=
  TInv ids st2 ∧
  (∀ y i, dget st.index y = some i → dget st2.index y = some i) ∧
  st.counter ≤ st2.counter ∧
  (∀ y ∈ st2.onStack, ∃ iy, dget st2.index y = some iy ∧ c0 ≤ iy) ∧
  (∃ pre, st2.stack = pre ++ st.stack) ∧
  (∀ y, dmem st.index y = true → y ≠ x → dget st2.lowlink y = dget st.lowlink y)

/-- The entry block of `strongconnect(v)` (the `st1` of `sconnect`): index and
push `v`. -/
def tarjanPush (st : TarjanSt) (v : String) : TarjanSt :=
  ⟨st.counter + 1, dset st.index v st.counter, dset st.lowlink v st.counter,
    v :: st.stack, setAdd st.onStack v, st.result⟩

/-- The root-popping block of `strongconnect(v)`: collect `v`'s segment of
the stack as a component. -/
def tarjanPop (st : TarjanSt) (v : String) : TarjanSt :=
  { st with
    stack := (popUntil st.stack v).2
    onStack := (popUntil st.stack v).1.foldl (fun s w => s.erase w) st.onStack
    result := st.result ++ [(popUntil st.stack v).1] }

/-- Erase the `NodeEstimation` fields mutated by the bottleneck pass. -/
def nodeCore (b : NodeEstimation) : NodeEstimation :=
  { b with
    cost_share := 0
    latency_share := 0
    bottleneck_severity := none }

/-- Erase the `CycleInfo` fields mutated by the contribution pass. -/
def cycleCore (ci : CycleInfo) : CycleInfo :=
  { ci with
    tokens_per_lap := 0
    cost_per_lap := 0
    latency_per_lap := 0
    cost_contribution := 0
    latency_contribution := 0
    risk_level := none
    risk_reason := none }

/-! ### C1 -/

/-- C1: the claim says `is_cyclic`, `topological_order` and the full
`estimate_workflow` call complete without raising on an edge whose target is
not a listed node, with the unresolved edge ignored.  On nodes `["a"]` with
the single edge `a → x`: `is_cyclic` raises `KeyError` at `color[
"x"]` (embedded: `none`), `topological_order` returns `[]` instead of the
edge-ignored `["a"]`, and `estimate_workflow` therefore raises, while the
same call with the edge dropped completes.  The spec's §7 ("never fatal")
is the documented intent, so this is a code bug. -/
theorem C1_unresolved_edge_raises :
    isCyclic (mkAnalyzer ["a"] [⟨"a", "x"⟩]) = none ∧
    topologicalOrder (mkAnalyzer ["a"] [⟨"a", "x"⟩]) = [] ∧
    isCyclic (mkAnalyzer ["a"] []) = some false ∧
    topologicalOrder (mkAnalyzer ["a"] []) = ["a"] ∧
    estimateWorkflow zeroEnv [startA] [⟨"a", "x"⟩] 25 none none = none ∧
    (estimateWorkflow zeroEnv [startA] [] 25 none none).isSome = true := by
  refine ⟨by decide, by decide, by decide, by decide, ?_, ?_⟩
  · rw [estimateWorkflow]
    have h1 : cycleGroups (ewAnalyzer [startA] [⟨"a", "x"⟩]) = some [] := by decide
    have h2 : isCyclic (ewAnalyzer [startA] [⟨"a", "x"⟩]) = none := by decide
    simp only [h1, h2]
  · decide

/-! ### C2 (counterexample; the amended partition theorem follows later) -/

/-- C2 fails as stated: on nodes `["a"]` with the single edge `a → x`,
Tarjan's algorithm recurses into the unknown id `"x"` and returns it as a
component, so the components do not partition the input node set ("nothing
else in any component" is violated). -/
theorem C2_counterexample :
    computeSccs (mkAnalyzer ["a"] [⟨"a", "x"⟩]) = some [["x"], ["a"]] ∧
    "x" ∉ (["a"] : List String) := by decide

/-! ### C7 -/

/-- C7 fails as stated: an absent-pricing agent node configuring
`expected_calls_per_run = 2` reports `input_tokens = 400`, not the claimed
`tokenizer(context) + 200 = 200`. -/
theorem C7_counterexample :
    zeroEnv.priceCat (orStr c7Node.model_provider "") (orStr c7Node.model_name "") = none ∧
    (estimateAgentNode zeroEnv c7Node [] false).input_tokens = 400 ∧
    countTokens zeroEnv (orStr c7Node.context "") + baseSystemTokens = 200 ∧
    ((400 : ℤ) ≠ 200) := by decide

/-- C7 (amended): for every agent node whose `(provider, model)` pair is
absent from the pricing catalog, the estimation reports `cost`, `input_cost`
and `output_cost` all zero while token counts are still reported:
`input_tokens = (tokenizer(context) + 200 + Σ tool schema + Σ tool response)
× max(1, calls-per-run)` and `output_tokens = ⌊base context tokens × output
multiplier⌋ × max(1, calls-per-run)`; no exception is raised (the embedding
is a total function). -/
theorem C7_absent_pricing_zero_cost (env : Env) (node : NodeConfig)
    (connected : List NodeConfig) (in_cycle : Bool)
    (h : env.priceCat (orStr node.model_provider "") (orStr node.model_name "") = none) :
    (estimateAgentNode env node connected in_cycle).cost = 0 ∧
    (estimateAgentNode env node connected in_cycle).input_cost = 0 ∧
    (estimateAgentNode env node connected in_cycle).output_cost = 0 ∧
    (estimateAgentNode env node connected in_cycle).input_tokens =
      (countTokens env (orStr node.context "") + baseSystemTokens +
        ((connected.map (getToolImpact env)).map (·.schema_tokens)).sum +
        ((connected.map (getToolImpact env)).map (·.response_tokens)).sum) *
        max 1 (orInt node.expected_calls_per_run 1) ∧
    (estimateAgentNode env node connected in_cycle).output_tokens =
      pyTrunc (((countTokens env (orStr node.context "") + baseSystemTokens : ℤ) : ℚ) *
        getOutputMultiplier node.task_type node.expected_output_size) *
        max 1 (orInt node.expected_calls_per_run 1) := by
  simp [estimateAgentNode, h]

/-- C7 witness: the amended statement applied to the concrete
calls-per-run-2 node under the empty catalog. -/
theorem C7_absent_pricing_zero_cost_witness :
    zeroEnv.priceCat (orStr c7Node.model_provider "") (orStr c7Node.model_name "") = none ∧
    (estimateAgentNode zeroEnv c7Node [] false).cost = 0 ∧
    (estimateAgentNode zeroEnv c7Node [] false).input_tokens =
      (countTokens zeroEnv (orStr c7Node.context "") + baseSystemTokens + 0 + 0) *
        max 1 (orInt c7Node.expected_calls_per_run 1) := by
  have h : zeroEnv.priceCat (orStr c7Node.model_provider "") (orStr c7Node.model_name "") =
      none := by decide
  refine ⟨h, (C7_absent_pricing_zero_cost zeroEnv c7Node [] false h).1, ?_⟩
  have h4 := (C7_absent_pricing_zero_cost zeroEnv c7Node [] false h).2.2.2.1
  simpa using h4

/-! ### C8 -/

/-- C8 fails as stated: the health score's premium-model factor counts an
agent as premium only when its catalog input price is strictly above the
threshold (`>`), so an agent priced at exactly 10.0 $/M is not counted. -/
theorem C8_counterexample :
    envThr.priceCat "P" "M" =
      some { input_per_million := 10, output_per_million := 30, tokens_per_sec := 50 } ∧
    (10 : ℚ) ≥ highCostThreshold ∧
    premiumAgentCount envThr [c8Node] = 0 := by decide

/-- C8 (amended): in the health score's premium-model factor, an agent node
with truthy provider/model whose catalog entry exists is counted as premium
exactly when its input price per million is strictly above the fixed
threshold (10.0 $/M); an agent whose price equals the threshold is not
counted, and with a single such agent the premium-model factor scores the
full 25 points unless the price is strictly above the threshold. -/
theorem C8_premium_strictly_above (env : Env) (n : NodeConfig) (e : ModelPricing)
    (hn : n.type = "agentNode")
    (hp : strTruthy n.model_provider = true) (hm : strTruthy n.model_name = true)
    (he : env.priceCat (n.model_provider.getD "") (n.model_name.getD "") = some e)
    (breakdown : List NodeEstimation) (cycles : List CycleInfo) (tc tl cpl : ℚ) :
    premiumAgentCount env [n] = (if highCostThreshold < e.input_per_million then 1 else 0) ∧
    (computeHealthScore env breakdown cycles [n] tc tl cpl).details.premium_model_score =
      (if highCostThreshold < e.input_per_million then 3 else 25) := by
  have hcount : premiumAgentCount env [n] =
      (if highCostThreshold < e.input_per_million then 1 else 0) := by
    simp only [premiumAgentCount, List.countP, List.countP.go, hp, hm, he]
    by_cases hlt : highCostThreshold < e.input_per_million
    · simp [hlt]
    · simp [hlt]
  refine ⟨hcount, ?_⟩
  have hagents : [n].filter (fun m => m.type == "agentNode") = [n] := by
    simp [List.filter, hn]
  simp only [computeHealthScore, hagents, hcount]
  by_cases hlt : highCostThreshold < e.input_per_million
  · norm_num [hlt]
  · norm_num [hlt]

/-- C8 witness: the amended statement at the concrete threshold-priced
catalog entry, where the agent is not counted premium and the factor scores
25. -/
theorem C8_premium_strictly_above_witness :
    premiumAgentCount envThr [c8Node] = 0 ∧
    (computeHealthScore envThr [] [] [c8Node] 0 0 0).details.premium_model_score = 25 := by
  have h := C8_premium_strictly_above envThr c8Node
    { input_per_million := 10, output_per_million := 30, tokens_per_sec := 50 }
    (by decide) (by decide) (by decide) (by decide) [] [] 0 0 0
  have hlt : ¬ (highCostThreshold < (10 : ℚ)) := by norm_num [highCostThreshold]
  constructor
  · have := h.1
    simpa [hlt] using this
  · have := h.2
    simpa [hlt] using this

/-! ### Numeric lemmas about the Python rounding helpers -/

theorem pyRoundInt_ge_floor (x : ℚ) : ⌊x⌋ ≤ pyRoundInt x := by
  simp only [pyRoundInt]
  split
  · exact le_refl _
  · split
    · omega
    · split <;> omega

theorem pyRoundInt_le_floor_add_one (x : ℚ) : pyRoundInt x ≤ ⌊x⌋ + 1 := by
  simp only [pyRoundInt]
  split
  · omega
  · split
    · omega
    · split <;> omega

theorem pyRoundInt_eq_floor {x : ℚ} (h : x - (⌊x⌋ : ℚ) < 1/2) : pyRoundInt x = ⌊x⌋ := by
  simp only [pyRoundInt]
  rw [if_pos h]

theorem pyRoundInt_eq_floor_add_one {x : ℚ} (h : 1/2 < x - (⌊x⌋ : ℚ)) :
    pyRoundInt x = ⌊x⌋ + 1 := by
  simp only [pyRoundInt]
  rw [if_neg (by linarith), if_pos h]

theorem pyRoundInt_mono {x y : ℚ} (h : x ≤ y) : pyRoundInt x ≤ pyRoundInt y := by
  rcases lt_or_eq_of_le (Int.floor_le_floor h) with hf | hf
  · calc pyRoundInt x ≤ ⌊x⌋ + 1 := pyRoundInt_le_floor_add_one x
      _ ≤ ⌊y⌋ := by omega
      _ ≤ pyRoundInt y := pyRoundInt_ge_floor y
  · by_cases hx1 : x - (⌊x⌋ : ℚ) < 1/2
    · rw [pyRoundInt_eq_floor hx1, hf]
      exact pyRoundInt_ge_floor y
    · by_cases hy1 : 1/2 < y - (⌊y⌋ : ℚ)
      · rw [pyRoundInt_eq_floor_add_one hy1, ← hf]
        exact pyRoundInt_le_floor_add_one x
      · have hxy : x = y := by
          have h1 : (⌊x⌋ : ℚ) = (⌊y⌋ : ℚ) := by exact_mod_cast hf
          push_neg at hx1 hy1
          have h2 : x - (⌊x⌋ : ℚ) ≤ y - (⌊y⌋ : ℚ) := by
            rw [h1]; linarith
          linarith
        rw [hxy]

theorem pyRoundInt_zero : pyRoundInt 0 = 0 := by decide

theorem pyRoundInt_nonneg {x : ℚ} (h : 0 ≤ x) : 0 ≤ pyRoundInt x := by
  have := pyRoundInt_mono h
  rwa [pyRoundInt_zero] at this

theorem tenPow_pos (d : ℕ) : 0 < tenPow d := by
  unfold tenPow
  have : 0 < Nat.pow 10 d := Nat.pos_pow_of_pos d (by norm_num)
  exact_mod_cast this

theorem pyRound_mono {x y : ℚ} (d : ℕ) (h : x ≤ y) : pyRound x d ≤ pyRound y d := by
  unfold pyRound
  have hp := tenPow_pos d
  have hm : x * tenPow d ≤ y * tenPow d := mul_le_mul_of_nonneg_right h (le_of_lt hp)
  have := pyRoundInt_mono hm
  exact div_le_div_of_nonneg_right (by exact_mod_cast this) (le_of_lt hp)

theorem pyRound_zero (d : ℕ) : pyRound 0 d = 0 := by
  unfold pyRound
  rw [zero_mul, pyRoundInt_zero]
  simp

theorem pyRound_nonneg {x : ℚ} (d : ℕ) (h : 0 ≤ x) : 0 ≤ pyRound x d := by
  have := pyRound_mono d h
  rwa [pyRound_zero] at this

theorem pyTrunc_nonneg {x : ℚ} (h : 0 ≤ x) : 0 ≤ pyTrunc x := by
  unfold pyTrunc
  rw [if_pos h]
  exact Int.floor_nonneg.mpr h

/-! ### Nonnegativity of per-node estimations under well-formed catalogs -/

theorem countTokens_nonneg (env : Env) (s : String) : 0 ≤ countTokens env s := by
  unfold countTokens
  split
  · exact le_refl 0
  · exact Int.ofNat_nonneg _

theorem taskOutputMultiplier_pos (t s : String) (q : ℚ)
    (h : taskOutputMultiplier t s = some q) : 0 < q := by
  unfold taskOutputMultiplier at h
  rcases Option.map_eq_some'.mp h with ⟨p, hp, hq⟩
  have hmem : p ∈ taskOutputMultipliers := List.mem_of_find?_eq_some hp
  have hall : ∀ p' ∈ taskOutputMultipliers, 0 < p'.2 := by decide
  rw [← hq]
  exact hall p hmem

theorem getOutputMultiplier_pos (t s : Option String) : 0 < getOutputMultiplier t s := by
  by_cases hc : (strTruthy t && strTruthy s) = true
  · rcases t with _ | t0
    · simp [strTruthy] at hc
    rcases s with _ | s0
    · simp [strTruthy] at hc
    unfold getOutputMultiplier
    rw [if_pos hc]
    show 0 < (taskOutputMultiplier t0 s0).getD defaultOutputMult
    cases hq : taskOutputMultiplier t0 s0 with
    | none => norm_num [defaultOutputMult]
    | some q => simpa using taskOutputMultiplier_pos t0 s0 q hq
  · unfold getOutputMultiplier
    rw [if_neg hc]
    norm_num [defaultOutputMult]

theorem toolLookup_some (env : Env) (o : Option String) (td : ToolDefinition)
    (h : toolLookup env o = some td) : ∃ tid, env.toolCat tid = some td := by
  unfold toolLookup at h
  split at h
  next tid =>
    split at h
    · exact absurd h (by simp)
    · exact ⟨tid, h⟩
  next => exact absurd h (by simp)

theorem getToolImpact_nonneg (env : Env) (hok : EnvOk env) (tn : NodeConfig) :
    0 ≤ (getToolImpact env tn).schema_tokens ∧
    0 ≤ (getToolImpact env tn).response_tokens ∧
    0 ≤ (getToolImpact env tn).execution_latency := by
  unfold getToolImpact
  cases htl : toolLookup env tn.tool_id with
  | none =>
    refine ⟨by norm_num [defaultToolSchemaTokens], by norm_num [defaultToolResponseTokens], ?_⟩
    exact pyRound_nonneg 3 (by norm_num [defaultToolLatencyMs])
  | some td =>
    rcases toolLookup_some env tn.tool_id td htl with ⟨tid, htid⟩
    rcases hok.2 tid td htid with ⟨h1, h2, h3⟩
    refine ⟨h1, h2, ?_⟩
    refine pyRound_nonneg 3 (div_nonneg ?_ (by norm_num))
    exact_mod_cast h3

theorem callsMultiplier_pos (o : Option ℤ) : 1 ≤ max 1 (orInt o 1) := le_max_left 1 _

theorem estimateAgentNode_nonneg (env : Env) (hok : EnvOk env) (node : NodeConfig)
    (connected : List NodeConfig) (ic : Bool) :
    0 ≤ (estimateAgentNode env node connected ic).tokens ∧
    0 ≤ (estimateAgentNode env node connected ic).cost ∧
    0 ≤ (estimateAgentNode env node connected ic).latency := by
  have himp : ∀ ti ∈ connected.map (getToolImpact env),
      0 ≤ ti.schema_tokens ∧ 0 ≤ ti.response_tokens ∧ 0 ≤ ti.execution_latency := by
    intro ti hti
    rcases List.mem_map.mp hti with ⟨tn, _, htn⟩
    rw [← htn]
    exact getToolImpact_nonneg env hok tn
  have hschema : 0 ≤ ((connected.map (getToolImpact env)).map (·.schema_tokens)).sum := by
    refine List.sum_nonneg ?_
    intro x hx
    rcases List.mem_map.mp hx with ⟨ti, hti, hx'⟩
    rw [← hx']; exact (himp ti hti).1
  have hresp : 0 ≤ ((connected.map (getToolImpact env)).map (·.response_tokens)).sum := by
    refine List.sum_nonneg ?_
    intro x hx
    rcases List.mem_map.mp hx with ⟨ti, hti, hx'⟩
    rw [← hx']; exact (himp ti hti).2.1
  have hlat : 0 ≤ ((connected.map (getToolImpact env)).map (·.execution_latency)).sum := by
    refine List.sum_nonneg ?_
    intro x hx
    rcases List.mem_map.mp hx with ⟨ti, hti, hx'⟩
    rw [← hx']; exact (himp ti hti).2.2
  have hbase : 0 ≤ countTokens env (orStr node.context "") + baseSystemTokens := by
    have := countTokens_nonneg env (orStr node.context "")
    norm_num [baseSystemTokens]
    omega
  have hcalls : (0 : ℤ) ≤ max 1 (orInt node.expected_calls_per_run 1) :=
    le_trans (by norm_num) (callsMultiplier_pos _)
  have hinput : 0 ≤ (countTokens env (orStr node.context "") + baseSystemTokens +
      ((connected.map (getToolImpact env)).map (·.schema_tokens)).sum +
      ((connected.map (getToolImpact env)).map (·.response_tokens)).sum) *
      max 1 (orInt node.expected_calls_per_run 1) := by
    refine mul_nonneg ?_ hcalls
    omega
  have houtput : 0 ≤ pyTrunc
      (((countTokens env (orStr node.context "") + baseSystemTokens : ℤ) : ℚ) *
        getOutputMultiplier node.task_type node.expected_output_size) *
      max 1 (orInt node.expected_calls_per_run 1) := by
    refine mul_nonneg (pyTrunc_nonneg (mul_nonneg ?_ ?_)) hcalls
    · exact_mod_cast hbase
    · exact le_of_lt (getOutputMultiplier_pos _ _)
  have hstl : 0 ≤ ((connected.map (getToolImpact env)).map (·.execution_latency)).sum *
      ((max 1 (orInt node.expected_calls_per_run 1) : ℤ) : ℚ) := by
    refine mul_nonneg hlat ?_
    exact_mod_cast hcalls
  simp only [estimateAgentNode]
  cases hp : env.priceCat (orStr node.model_provider "") (orStr node.model_name "") with
  | none =>
    exact ⟨add_nonneg hinput houtput, le_refl 0, hstl⟩
  | some pricing =>
    rcases hok.1 _ _ _ hp with ⟨hip, hop, htps⟩
    have hic : 0 ≤ (((countTokens env (orStr node.context "") + baseSystemTokens +
        ((connected.map (getToolImpact env)).map (·.schema_tokens)).sum +
        ((connected.map (getToolImpact env)).map (·.response_tokens)).sum) *
        max 1 (orInt node.expected_calls_per_run 1) : ℤ) : ℚ) / 1000000 *
        pricing.input_per_million := by
      refine mul_nonneg (div_nonneg ?_ (by norm_num)) hip
      exact_mod_cast hinput
    have hoc : 0 ≤ ((pyTrunc
        (((countTokens env (orStr node.context "") + baseSystemTokens : ℤ) : ℚ) *
          getOutputMultiplier node.task_type node.expected_output_size) *
        max 1 (orInt node.expected_calls_per_run 1) : ℤ) : ℚ) / 1000000 *
        pricing.output_per_million := by
      refine mul_nonneg (div_nonneg ?_ (by norm_num)) hop
      exact_mod_cast houtput
    have htps2 : 0 ≤ (if pricing.tokens_per_sec == 0 then defaultTps
        else pricing.tokens_per_sec) := by
      split
      · norm_num [defaultTps]
      · exact htps
    have hllm : 0 ≤ ((pyTrunc
        (((countTokens env (orStr node.context "") + baseSystemTokens : ℤ) : ℚ) *
          getOutputMultiplier node.task_type node.expected_output_size) *
        max 1 (orInt node.expected_calls_per_run 1) : ℤ) : ℚ) /
        (if pricing.tokens_per_sec == 0 then defaultTps else pricing.tokens_per_sec) := by
      refine div_nonneg ?_ htps2
      exact_mod_cast houtput
    refine ⟨add_nonneg hinput houtput, ?_, ?_⟩
    · exact pyRound_nonneg 8 (add_nonneg hic hoc)
    · exact pyRound_nonneg 3 (add_nonneg hllm hstl)

theorem estimateToolNode_nonneg (env : Env) (hok : EnvOk env) (node : NodeConfig) (ic : Bool) :
    0 ≤ (estimateToolNode env node ic).tokens ∧
    0 ≤ (estimateToolNode env node ic).cost ∧
    0 ≤ (estimateToolNode env node ic).latency := by
  unfold estimateToolNode
  refine ⟨le_refl 0, le_refl 0, ?_⟩
  cases htl : toolLookup env node.tool_id with
  | none =>
    exact pyRound_nonneg 3 (by norm_num [defaultToolLatencyMs])
  | some td =>
    rcases toolLookup_some env node.tool_id td htl with ⟨tid, htid⟩
    have h3 := (hok.2 tid td htid).2.2
    refine pyRound_nonneg 3 (div_nonneg ?_ (by norm_num))
    exact_mod_cast h3

theorem buildBreakdown_nonneg (env : Env) (hok : EnvOk env) (nodes : List NodeConfig)
    (node_map : PyDict NodeConfig) (agent_tools : PyDict (List String))
    (cyc_ids : List String) :
    ∀ b ∈ buildBreakdown env nodes node_map agent_tools cyc_ids,
      0 ≤ b.tokens ∧ 0 ≤ b.cost ∧ 0 ≤ b.latency := by
  intro b hb
  unfold buildBreakdown at hb
  rcases List.mem_map.mp hb with ⟨node, _, hmap⟩
  rw [← hmap]
  split
  · exact estimateAgentNode_nonneg env hok node _ _
  · split
    · exact estimateToolNode_nonneg env hok node _
    · exact ⟨le_refl 0, le_refl 0, le_refl 0⟩

/-! ### Bounds on the iteration policy -/

theorem groupMaxIterations_pos (nm : PyDict NodeConfig) (rl : ℤ) (li : ℚ)
    (ids : List String) : 1 ≤ groupMaxIterations nm rl li ids :=
  le_max_left 1 _

theorem expectedIterations_pos (m : ℤ) : 1 ≤ expectedIterations m :=
  le_max_left 1 _

theorem expectedIterations_le {m : ℤ} (h : 1 ≤ m) : expectedIterations m ≤ m := by
  unfold expectedIterations
  refine max_le h (Int.ceil_le.mpr ?_)
  have hm : (1 : ℚ) ≤ (m : ℤ) := by exact_mod_cast h
  linarith

/-! ### Inversion and projection lemmas for `estimateWorkflow` -/

theorem ewAssemble_detected_cycles (env : Env) (nodes : List NodeConfig)
    (edges : List EdgeConfig) (rl : ℤ) (rpd : Option ℤ) (li : Option ℚ)
    (groups : List CycleGroup) (ic : Bool) (cp : List String) (steps : List (List String)) :
    (ewAssemble env nodes edges rl rpd li groups ic cp steps).detected_cycles =
      ewDetected env nodes edges rl li groups ic := rfl

theorem ewAssemble_breakdown (env : Env) (nodes : List NodeConfig)
    (edges : List EdgeConfig) (rl : ℤ) (rpd : Option ℤ) (li : Option ℚ)
    (groups : List CycleGroup) (ic : Bool) (cp : List String) (steps : List (List String)) :
    (ewAssemble env nodes edges rl rpd li groups ic cp steps).breakdown =
      ewBreakdown env nodes edges rl li groups ic := rfl

theorem ewAssemble_token_range (env : Env) (nodes : List NodeConfig)
    (edges : List EdgeConfig) (rl : ℤ) (rpd : Option ℤ) (li : Option ℚ)
    (groups : List CycleGroup) (ic : Bool) (cp : List String) (steps : List (List String)) :
    (ewAssemble env nodes edges rl rpd li groups ic cp steps).token_range =
      (ewRanges (ewBreakdown0 env nodes edges groups)
        (ewCyc nodes rl li ic groups).1 ic).map (·.1) := rfl

theorem ewAssemble_cost_range (env : Env) (nodes : List NodeConfig)
    (edges : List EdgeConfig) (rl : ℤ) (rpd : Option ℤ) (li : Option ℚ)
    (groups : List CycleGroup) (ic : Bool) (cp : List String) (steps : List (List String)) :
    (ewAssemble env nodes edges rl rpd li groups ic cp steps).cost_range =
      (ewRanges (ewBreakdown0 env nodes edges groups)
        (ewCyc nodes rl li ic groups).1 ic).map (·.2.1) := rfl

theorem ewAssemble_latency_range (env : Env) (nodes : List NodeConfig)
    (edges : List EdgeConfig) (rl : ℤ) (rpd : Option ℤ) (li : Option ℚ)
    (groups : List CycleGroup) (ic : Bool) (cp : List String) (steps : List (List String)) :
    (ewAssemble env nodes edges rl rpd li groups ic cp steps).latency_range =
      (ewRanges (ewBreakdown0 env nodes edges groups)
        (ewCyc nodes rl li ic groups).1 ic).map (·.2.2) := rfl

theorem ewAssemble_total_tokens (env : Env) (nodes : List NodeConfig)
    (edges : List EdgeConfig) (rl : ℤ) (rpd : Option ℤ) (li : Option ℚ)
    (groups : List CycleGroup) (ic : Bool) (cp : List String) (steps : List (List String)) :
    (ewAssemble env nodes edges rl rpd li groups ic cp steps).total_tokens =
      (ewTotals (ewBreakdown0 env nodes edges groups) (ewCyc nodes rl li ic groups).2
        (ewRanges (ewBreakdown0 env nodes edges groups)
          (ewCyc nodes rl li ic groups).1 ic)).tokens := rfl

theorem ewAssemble_total_input (env : Env) (nodes : List NodeConfig)
    (edges : List EdgeConfig) (rl : ℤ) (rpd : Option ℤ) (li : Option ℚ)
    (groups : List CycleGroup) (ic : Bool) (cp : List String) (steps : List (List String)) :
    (ewAssemble env nodes edges rl rpd li groups ic cp steps).total_input_tokens =
      (ewTotals (ewBreakdown0 env nodes edges groups) (ewCyc nodes rl li ic groups).2
        (ewRanges (ewBreakdown0 env nodes edges groups)
          (ewCyc nodes rl li ic groups).1 ic)).input := rfl

theorem ewAssemble_total_output (env : Env) (nodes : List NodeConfig)
    (edges : List EdgeConfig) (rl : ℤ) (rpd : Option ℤ) (li : Option ℚ)
    (groups : List CycleGroup) (ic : Bool) (cp : List String) (steps : List (List String)) :
    (ewAssemble env nodes edges rl rpd li groups ic cp steps).total_output_tokens =
      (ewTotals (ewBreakdown0 env nodes edges groups) (ewCyc nodes rl li ic groups).2
        (ewRanges (ewBreakdown0 env nodes edges groups)
          (ewCyc nodes rl li ic groups).1 ic)).output := rfl

theorem ewAssemble_total_cost (env : Env) (nodes : List NodeConfig)
    (edges : List EdgeConfig) (rl : ℤ) (rpd : Option ℤ) (li : Option ℚ)
    (groups : List CycleGroup) (ic : Bool) (cp : List String) (steps : List (List String)) :
    (ewAssemble env nodes edges rl rpd li groups ic cp steps).total_cost =
      (ewTotals (ewBreakdown0 env nodes edges groups) (ewCyc nodes rl li ic groups).2
        (ewRanges (ewBreakdown0 env nodes edges groups)
          (ewCyc nodes rl li ic groups).1 ic)).cost := rfl

theorem ewAssemble_total_latency (env : Env) (nodes : List NodeConfig)
    (edges : List EdgeConfig) (rl : ℤ) (rpd : Option ℤ) (li : Option ℚ)
    (groups : List CycleGroup) (ic : Bool) (cp : List String) (steps : List (List String)) :
    (ewAssemble env nodes edges rl rpd li groups ic cp steps).total_latency =
      (ewTotals (ewBreakdown0 env nodes edges groups) (ewCyc nodes rl li ic groups).2
        (ewRanges (ewBreakdown0 env nodes edges groups)
          (ewCyc nodes rl li ic groups).1 ic)).latency := rfl

theorem ewAssemble_graph_type (env : Env) (nodes : List NodeConfig)
    (edges : List EdgeConfig) (rl : ℤ) (rpd : Option ℤ) (li : Option ℚ)
    (groups : List CycleGroup) (ic : Bool) (cp : List String) (steps : List (List String)) :
    (ewAssemble env nodes edges rl rpd li groups ic cp steps).graph_type =
      (if ic then "CYCLIC" else "DAG") := rfl

theorem ewAssemble_sensitivity (env : Env) (nodes : List NodeConfig)
    (edges : List EdgeConfig) (rl : ℤ) (rpd : Option ℤ) (li : Option ℚ)
    (groups : List CycleGroup) (ic : Bool) (cp : List String) (steps : List (List String)) :
    (ewAssemble env nodes edges rl rpd li groups ic cp steps).sensitivity =
      some (match ewRanges (ewBreakdown0 env nodes edges groups)
          (ewCyc nodes rl li ic groups).1 ic with
        | some r =>
          { cost_min := r.2.1.min, cost_avg := r.2.1.avg, cost_max := r.2.1.max
            latency_min := r.2.2.min, latency_avg := r.2.2.avg, latency_max := r.2.2.max }
        | none =>
          let tot := ewTotals (ewBreakdown0 env nodes edges groups)
            (ewCyc nodes rl li ic groups).2
            (ewRanges (ewBreakdown0 env nodes edges groups)
              (ewCyc nodes rl li ic groups).1 ic)
          { cost_min := tot.cost, cost_avg := tot.cost, cost_max := tot.cost
            latency_min := tot.latency, latency_avg := tot.latency
            latency_max := tot.latency }) := rfl

/-- Inverting a successful `estimate_workflow` run into its four effectful
sub-results and the pure assembly. -/
theorem estimateWorkflow_some_inv (env : Env) (nodes : List NodeConfig)
    (edges : List EdgeConfig) (rl : ℤ) (rpd : Option ℤ) (li : Option ℚ)
    (r : WorkflowEstimation)
    (h : estimateWorkflow env nodes edges rl rpd li = some r) :
    ∃ groups ic cp steps,
      cycleGroups (ewAnalyzer nodes edges) = some groups ∧
      isCyclic (ewAnalyzer nodes edges) = some ic ∧
      weightedCriticalPath (ewAnalyzer nodes edges)
        (ewLatencyMap env nodes edges rl li groups ic) = some cp ∧
      computeParallelSteps (ewAnalyzer nodes edges) = some steps ∧
      r = ewAssemble env nodes edges rl rpd li groups ic cp steps := by
  simp only [estimateWorkflow] at h
  split at h
  · exact absurd h (by simp)
  next groups hg =>
    split at h
    · exact absurd h (by simp)
    next ic hic =>
      split at h
      · exact absurd h (by simp)
      next cp hcp =>
        split at h
        · exact absurd h (by simp)
        next steps hsteps =>
          exact ⟨groups, ic, cp, steps, hg, hic, hcp, hsteps, (Option.some.inj h).symm⟩

/-! ### Structure of `buildCycleInfos` and `computeCycleContributions` -/

/-- Every `CycleInfo` built by the enumeration loop carries the iteration
policy computed from its own member list. -/
theorem buildCycleInfos_fold_mem (node_map : PyDict NodeConfig) (rl : ℤ) (li : ℚ)
    (groups : List CycleGroup) (st : List CycleInfo × PyDict ℤ)
    (hst : ∀ ci ∈ st.1,
      ci.max_iterations = groupMaxIterations node_map rl li ci.node_ids ∧
      ci.expected_iterations = expectedIterations ci.max_iterations) :
    ∀ ci ∈ (groups.foldl (cycleInfoStep node_map rl li) st).1,
      ci.max_iterations = groupMaxIterations node_map rl li ci.node_ids ∧
      ci.expected_iterations = expectedIterations ci.max_iterations := by
  induction groups generalizing st with
  | nil => exact hst
  | cons cg rest ih =>
    refine ih (cycleInfoStep node_map rl li st cg) ?_
    intro ci hci
    simp only [cycleInfoStep, List.mem_append, List.mem_singleton] at hci
    rcases hci with hci | hci
    · exact hst ci hci
    · subst hci
      exact ⟨rfl, rfl⟩

/-- See `buildCycleInfos_fold_mem`. -/
theorem buildCycleInfos_mem (node_map : PyDict NodeConfig) (rl : ℤ) (li : ℚ)
    (groups : List CycleGroup) :
    ∀ ci ∈ (buildCycleInfos node_map rl li groups).1,
      ci.max_iterations = groupMaxIterations node_map rl li ci.node_ids ∧
      ci.expected_iterations = expectedIterations ci.max_iterations := by
  exact buildCycleInfos_fold_mem node_map rl li groups ([], []) (by intro ci h; cases h)

/-- The contribution/risk pass rewrites only per-lap, contribution and risk
fields: member lists and iteration counts are preserved. -/
theorem computeCycleContributions_mem (env : Env) (cycles : List CycleInfo)
    (breakdown : List NodeEstimation) (tc tl : ℚ) :
    ∀ ci' ∈ computeCycleContributions env cycles breakdown tc tl,
      ∃ ci ∈ cycles, ci'.node_ids = ci.node_ids ∧
        ci'.max_iterations = ci.max_iterations ∧
        ci'.expected_iterations = ci.expected_iterations := by
  intro ci' hci'
  unfold computeCycleContributions at hci'
  rcases List.mem_map.mp hci' with ⟨ci, hci, hmap⟩
  exact ⟨ci, hci, by rw [← hmap], by rw [← hmap], by rw [← hmap]⟩

/-- Every cycle in `ewDetected` carries the iteration policy of its member
list. -/
theorem ewDetected_mem (env : Env) (nodes : List NodeConfig) (edges : List EdgeConfig)
    (rl : ℤ) (li : Option ℚ) (groups : List CycleGroup) (ic : Bool) :
    ∀ ci ∈ ewDetected env nodes edges rl li groups ic,
      ci.max_iterations = groupMaxIterations (mkNodeMap nodes) rl (li.getD 1) ci.node_ids ∧
      ci.expected_iterations = expectedIterations ci.max_iterations := by
  intro ci hci
  unfold ewDetected at hci
  by_cases hic : ic
  · simp only [ewCyc, hic, if_true] at hci
    split at hci
    · exact buildCycleInfos_mem (mkNodeMap nodes) rl (li.getD 1) groups ci hci
    · rcases computeCycleContributions_mem env _ _ _ _ ci hci with ⟨ci0, hci0, h1, h2, h3⟩
      have := buildCycleInfos_mem (mkNodeMap nodes) rl (li.getD 1) groups ci0 hci0
      rw [h1, h2, h3]
      exact this
  · simp only [ewCyc, hic, if_false] at hci
    simp at hci

/-! ### Range monotonicity (C5) -/

/-- Iteration-count bounds for every cycle built by `ewCyc`. -/
theorem ewCyc_mem_bounds (nodes : List NodeConfig) (rl : ℤ) (li : Option ℚ) (ic : Bool)
    (groups : List CycleGroup) :
    ∀ ci ∈ (ewCyc nodes rl li ic groups).1,
      1 ≤ ci.expected_iterations ∧ ci.expected_iterations ≤ ci.max_iterations := by
  intro ci hci
  unfold ewCyc at hci
  split at hci
  · have hm := buildCycleInfos_mem (mkNodeMap nodes) rl (li.getD 1) groups ci hci
    have h1 := groupMaxIterations_pos (mkNodeMap nodes) rl (li.getD 1) ci.node_ids
    refine ⟨by rw [hm.2]; exact expectedIterations_pos _, ?_⟩
    rw [hm.2]
    exact expectedIterations_le (hm.1 ▸ h1)
  · simp at hci

/-- Pointwise bound: one lap is at most `expected_iterations` laps is at most
`max_iterations` laps, per cycle, for a nonnegative per-lap value. -/
theorem cycleSums_mono (det : List CycleInfo) (f : CycleInfo → ℚ)
    (hf : ∀ ci ∈ det, 0 ≤ f ci)
    (hdet : ∀ ci ∈ det, 1 ≤ ci.expected_iterations ∧
      ci.expected_iterations ≤ ci.max_iterations) :
    (det.map (fun ci => f ci * 1)).sum ≤
      (det.map (fun ci => f ci * (ci.expected_iterations : ℚ))).sum ∧
    (det.map (fun ci => f ci * (ci.expected_iterations : ℚ))).sum ≤
      (det.map (fun ci => f ci * (ci.max_iterations : ℚ))).sum := by
  constructor
  · refine List.sum_le_sum ?_
    intro ci hci
    have h1 : (1 : ℚ) ≤ (ci.expected_iterations : ℚ) := by
      exact_mod_cast (hdet ci hci).1
    exact mul_le_mul_of_nonneg_left h1 (hf ci hci)
  · refine List.sum_le_sum ?_
    intro ci hci
    have h1 : (ci.expected_iterations : ℚ) ≤ (ci.max_iterations : ℚ) := by
      exact_mod_cast (hdet ci hci).2
    exact mul_le_mul_of_nonneg_left h1 (hf ci hci)

/-- The three ranges computed by `ewRanges` satisfy `min ≤ avg ≤ max`
whenever per-node figures are nonnegative and the iteration bounds hold. -/
theorem ewRanges_min_le_avg_le_max (bd : List NodeEstimation) (det : List CycleInfo)
    (ic : Bool)
    (hbd : ∀ b ∈ bd, 0 ≤ b.tokens ∧ 0 ≤ b.cost ∧ 0 ≤ b.latency)
    (hdet : ∀ ci ∈ det, 1 ≤ ci.expected_iterations ∧
      ci.expected_iterations ≤ ci.max_iterations)
    (t : EstimationRange × EstimationRange × EstimationRange)
    (h : ewRanges bd det ic = some t) :
    (t.1.min ≤ t.1.avg ∧ t.1.avg ≤ t.1.max) ∧
    (t.2.1.min ≤ t.2.1.avg ∧ t.2.1.avg ≤ t.2.1.max) ∧
    (t.2.2.min ≤ t.2.2.avg ∧ t.2.2.avg ≤ t.2.2.max) := by
  have hlapT : ∀ ci ∈ det, 0 ≤
      ((bd.filter (fun b => ci.node_ids.contains b.node_id)).map
        (fun b => (b.tokens : ℚ))).sum := by
    intro ci _
    refine List.sum_nonneg ?_
    intro x hx
    rcases List.mem_map.mp hx with ⟨b, hb, hx'⟩
    rw [← hx']
    exact_mod_cast (hbd b (List.mem_of_mem_filter hb)).1
  have hlapC : ∀ ci ∈ det, 0 ≤
      ((bd.filter (fun b => ci.node_ids.contains b.node_id)).map (·.cost)).sum := by
    intro ci _
    refine List.sum_nonneg ?_
    intro x hx
    rcases List.mem_map.mp hx with ⟨b, hb, hx'⟩
    rw [← hx']
    exact (hbd b (List.mem_of_mem_filter hb)).2.1
  have hlapL : ∀ ci ∈ det, 0 ≤
      ((bd.filter (fun b => ci.node_ids.contains b.node_id)).map (·.latency)).sum := by
    intro ci _
    refine List.sum_nonneg ?_
    intro x hx
    rcases List.mem_map.mp hx with ⟨b, hb, hx'⟩
    rw [← hx']
    exact (hbd b (List.mem_of_mem_filter hb)).2.2
  simp only [ewRanges] at h
  split at h
  · have hT := cycleSums_mono det _ hlapT hdet
    have hC := cycleSums_mono det _ hlapC hdet
    have hL := cycleSums_mono det _ hlapL hdet
    injection h with h
    subst h
    refine ⟨⟨?_, ?_⟩, ⟨?_, ?_⟩, ⟨?_, ?_⟩⟩
    · exact Int.cast_le.mpr (pyRoundInt_mono (add_le_add_left hT.1 _))
    · exact Int.cast_le.mpr (pyRoundInt_mono (add_le_add_left hT.2 _))
    · exact pyRound_mono 6 (add_le_add_left hC.1 _)
    · exact pyRound_mono 6 (add_le_add_left hC.2 _)
    · exact pyRound_mono 3 (add_le_add_left hL.1 _)
    · exact pyRound_mono 3 (add_le_add_left hL.2 _)
  · exact absurd h (by simp)

/-! ### C4 -/

/-- C4: for every successful run, every reported cycle's `max_iterations` is
the minimum configured `max_steps` over the group's agent-kind nodes
(default 10 when none configures a cap), clamped to the recursion limit,
scaled by the loop-intensity multiplier (default 1.0), rounded to the
nearest integer (ties to even) and re-clamped to `[1, recursion_limit]` —
the computation `groupMaxIterations` — and `expected_iterations =
max(1, ⌈max_iterations / 2⌉)`.  The Scenario C instance (2-node cycle, one
cap of 6, recursion limit 25, giving 6 and 3) is checked by the witness. -/
theorem C4_iteration_policy (env : Env) (nodes : List NodeConfig) (edges : List EdgeConfig)
    (rl : ℤ) (rpd : Option ℤ) (li : Option ℚ) (r : WorkflowEstimation)
    (h : estimateWorkflow env nodes edges rl rpd li = some r) :
    ∀ ci ∈ r.detected_cycles,
      ci.max_iterations = groupMaxIterations (mkNodeMap nodes) rl (li.getD 1) ci.node_ids ∧
      ci.expected_iterations = max 1 ⌈(ci.max_iterations : ℚ) / 2⌉ := by
  rcases estimateWorkflow_some_inv env nodes edges rl rpd li r h with
    ⟨groups, ic, cp, steps, _, _, _, _, hr⟩
  subst hr
  rw [ewAssemble_detected_cycles]
  intro ci hci
  exact ewDetected_mem env nodes edges rl li groups ic ci hci

/-- C5: for every successful run under well-formed catalogs, each reported
token, cost and latency `EstimationRange` satisfies `min ≤ avg ≤ max`, and
every reported `CycleInfo` satisfies `1 ≤ expected_iterations ≤
max_iterations` with `expected_iterations = max(1, ⌈max_iterations / 2⌉)`. -/
theorem C5_range_and_iteration_invariants (env : Env) (nodes : List NodeConfig)
    (edges : List EdgeConfig) (rl : ℤ) (rpd : Option ℤ) (li : Option ℚ)
    (r : WorkflowEstimation) (hok : EnvOk env)
    (h : estimateWorkflow env nodes edges rl rpd li = some r) :
    (∀ tr, r.token_range = some tr → tr.min ≤ tr.avg ∧ tr.avg ≤ tr.max) ∧
    (∀ cr, r.cost_range = some cr → cr.min ≤ cr.avg ∧ cr.avg ≤ cr.max) ∧
    (∀ lr, r.latency_range = some lr → lr.min ≤ lr.avg ∧ lr.avg ≤ lr.max) ∧
    (∀ ci ∈ r.detected_cycles,
      1 ≤ ci.expected_iterations ∧ ci.expected_iterations ≤ ci.max_iterations ∧
      ci.expected_iterations = max 1 ⌈(ci.max_iterations : ℚ) / 2⌉) := by
  rcases estimateWorkflow_some_inv env nodes edges rl rpd li r h with
    ⟨groups, ic, cp, steps, _, _, _, _, hr⟩
  subst hr
  have hbd : ∀ b ∈ ewBreakdown0 env nodes edges groups,
      0 ≤ b.tokens ∧ 0 ≤ b.cost ∧ 0 ≤ b.latency := by
    intro b hb
    exact buildBreakdown_nonneg env hok nodes _ _ _ b hb
  have hdet := ewCyc_mem_bounds nodes rl li ic groups
  have hranges : ∀ t, ewRanges (ewBreakdown0 env nodes edges groups)
      (ewCyc nodes rl li ic groups).1 ic = some t →
      (t.1.min ≤ t.1.avg ∧ t.1.avg ≤ t.1.max) ∧
      (t.2.1.min ≤ t.2.1.avg ∧ t.2.1.avg ≤ t.2.1.max) ∧
      (t.2.2.min ≤ t.2.2.avg ∧ t.2.2.avg ≤ t.2.2.max) := by
    intro t ht
    exact ewRanges_min_le_avg_le_max _ _ ic hbd hdet t ht
  refine ⟨?_, ?_, ?_, ?_⟩
  · intro tr htr
    rw [ewAssemble_token_range] at htr
    rcases Option.map_eq_some'.mp htr with ⟨t, ht, htr'⟩
    have := (hranges t ht).1
    rw [← htr'] at *
    exact this
  · intro cr hcr
    rw [ewAssemble_cost_range] at hcr
    rcases Option.map_eq_some'.mp hcr with ⟨t, ht, hcr'⟩
    have := (hranges t ht).2.1
    rw [← hcr'] at *
    exact this
  · intro lr hlr
    rw [ewAssemble_latency_range] at hlr
    rcases Option.map_eq_some'.mp hlr with ⟨t, ht, hlr'⟩
    have := (hranges t ht).2.2
    rw [← hlr'] at *
    exact this
  · intro ci hci
    rw [ewAssemble_detected_cycles] at hci
    have hm := ewDetected_mem env nodes edges rl li groups ic ci hci
    have h1 := groupMaxIterations_pos (mkNodeMap nodes) rl (li.getD 1) ci.node_ids
    have hmax : 1 ≤ ci.max_iterations := hm.1 ▸ h1
    refine ⟨?_, ?_, hm.2⟩
    · rw [hm.2]; exact expectedIterations_pos _
    · rw [hm.2]; exact expectedIterations_le hmax

/-- C5 witness: the Scenario C run under the concrete catalog, whose entries
are nonnegative; the ranges are present (so the range clauses are not
vacuous) and the single cycle reports iterations 6 and 3. -/
theorem C5_range_and_iteration_invariants_witness :
    EnvOk scEnv ∧
    (ewAssemble scEnv [agA, agB] edC 25 none none cgC true
      ["A", "B"] [["A", "B"]]).token_range.isSome = true ∧
    (∀ tr, (ewAssemble scEnv [agA, agB] edC 25 none none cgC true
        ["A", "B"] [["A", "B"]]).token_range = some tr →
      tr.min ≤ tr.avg ∧ tr.avg ≤ tr.max) ∧
    (∀ ci ∈ (ewAssemble scEnv [agA, agB] edC 25 none none cgC true
        ["A", "B"] [["A", "B"]]).detected_cycles,
      1 ≤ ci.expected_iterations ∧ ci.expected_iterations ≤ ci.max_iterations ∧
      ci.expected_iterations = max 1 ⌈(ci.max_iterations : ℚ) / 2⌉) := by
  have hok : EnvOk scEnv := by
    constructor
    · intro p m e he
      simp only [scEnv] at he
      split at he
      · injection he with he
        rw [← he]
        norm_num
      · exact absurd he (by simp)
    · intro t d hd
      simp only [scEnv] at hd
      exact absurd hd (by simp)
  have hglue : estimateWorkflow scEnv [agA, agB] edC 25 none none =
      some (ewAssemble scEnv [agA, agB] edC 25 none none cgC true ["A", "B"] [["A", "B"]]) := by
    have h1 : cycleGroups (ewAnalyzer [agA, agB] edC) = some cgC := by decide
    have h2 : isCyclic (ewAnalyzer [agA, agB] edC) = some true := by decide
    have h3 : topologicalOrder (ewAnalyzer [agA, agB] edC) = [] := by decide
    have h4 : weightedCriticalPath (ewAnalyzer [agA, agB] edC)
        (ewLatencyMap scEnv [agA, agB] edC 25 none cgC true) = some ["A", "B"] := by
      rw [weightedCriticalPath, h3]; rfl
    have h5 : computeParallelSteps (ewAnalyzer [agA, agB] edC) = some [["A", "B"]] := by
      rw [computeParallelSteps, h3]; rfl
    rw [estimateWorkflow]
    simp only [h1, h2, h4, h5]
  have hmain := C5_range_and_iteration_invariants scEnv [agA, agB] edC 25 none none _ hok hglue
  exact ⟨hok, by decide, hmain.1, hmain.2.2.2⟩

/-- C4 witness: Scenario C — two agents in a 2-node cycle, one configuring
`max_steps = 6`, recursion limit 25 — produces exactly one cycle report with
`max_iterations = 6` and `expected_iterations = 3`, matching the policy. -/
theorem C4_iteration_policy_witness :
    estimateWorkflow scEnv [agA, agB] edC 25 none none =
      some (ewAssemble scEnv [agA, agB] edC 25 none none cgC true ["A", "B"] [["A", "B"]]) ∧
    (ewAssemble scEnv [agA, agB] edC 25 none none cgC true
        ["A", "B"] [["A", "B"]]).detected_cycles.map
      (fun ci => (ci.max_iterations, ci.expected_iterations)) = [(6, 3)] ∧
    (∀ ci ∈ (ewAssemble scEnv [agA, agB] edC 25 none none cgC true
        ["A", "B"] [["A", "B"]]).detected_cycles,
      ci.max_iterations = groupMaxIterations (mkNodeMap [agA, agB]) 25 1 ci.node_ids ∧
      ci.expected_iterations = max 1 ⌈(ci.max_iterations : ℚ) / 2⌉) := by
  have hglue : estimateWorkflow scEnv [agA, agB] edC 25 none none =
      some (ewAssemble scEnv [agA, agB] edC 25 none none cgC true ["A", "B"] [["A", "B"]]) := by
    have h1 : cycleGroups (ewAnalyzer [agA, agB] edC) = some cgC := by decide
    have h2 : isCyclic (ewAnalyzer [agA, agB] edC) = some true := by decide
    have h3 : topologicalOrder (ewAnalyzer [agA, agB] edC) = [] := by decide
    have h4 : weightedCriticalPath (ewAnalyzer [agA, agB] edC)
        (ewLatencyMap scEnv [agA, agB] edC 25 none cgC true) = some ["A", "B"] := by
      rw [weightedCriticalPath, h3]; rfl
    have h5 : computeParallelSteps (ewAnalyzer [agA, agB] edC) = some [["A", "B"]] := by
      rw [computeParallelSteps, h3]; rfl
    rw [estimateWorkflow]
    simp only [h1, h2, h4, h5]
  refine ⟨hglue, by decide, ?_⟩
  have := C4_iteration_policy scEnv [agA, agB] edC 25 none none _ hglue
  simpa using this

/-! ### Field-preservation transport (C3)

The bottleneck and contribution passes rewrite only presentation fields;
these lemmas transport filters, maps, `find?` and `Pairwise` across a pair of
lists whose erasures (`nodeCore` / `cycleCore`) agree. -/

/-- Transport a `map` across two lists with equal erasures. -/
theorem map_eq_of_core_eq {β γ : Type} (c : β → β) {l₁ l₂ : List β}
    (h : l₁.map c = l₂.map c) (g : β → γ) (hg : ∀ b, g (c b) = g b) :
    l₁.map g = l₂.map g := by
  have h₁ : l₁.map g = (l₁.map c).map g := by
    rw [List.map_map]
    exact List.map_congr_left fun b _ => (hg b).symm
  have h₂ : l₂.map g = (l₂.map c).map g := by
    rw [List.map_map]
    exact List.map_congr_left fun b _ => (hg b).symm
  rw [h₁, h₂, h]

/-- Transport a `filter`-then-`map` across two lists with equal erasures. -/
theorem filter_map_eq_of_core_eq {β γ : Type} (c : β → β) {l₁ l₂ : List β}
    (h : l₁.map c = l₂.map c) (p : β → Bool) (g : β → γ)
    (hp : ∀ b, p (c b) = p b) (hg : ∀ b, g (c b) = g b) :
    (l₁.filter p).map g = (l₂.filter p).map g := by
  induction l₁ generalizing l₂ with
  | nil =>
    cases l₂ with
    | nil => rfl
    | cons b bs => exact absurd h (by simp)
  | cons a as ih =>
    cases l₂ with
    | nil => exact absurd h (by simp)
    | cons b bs =>
      simp only [List.map_cons, List.cons.injEq] at h
      have hpa : p a = p b := by rw [← hp a, ← hp b, h.1]
      have hga : g a = g b := by rw [← hg a, ← hg b, h.1]
      by_cases hc : p a = true
      · rw [List.filter_cons_of_pos hc, List.filter_cons_of_pos (hpa ▸ hc),
          List.map_cons, List.map_cons, hga, ih h.2]
      · rw [List.filter_cons_of_neg hc, List.filter_cons_of_neg (hpa ▸ hc), ih h.2]

/-- Transport `find?` across two lists with equal erasures. -/
theorem find?_map_core_eq {β : Type} (c : β → β) {l₁ l₂ : List β}
    (h : l₁.map c = l₂.map c) (p : β → Bool) (hp : ∀ b, p (c b) = p b) :
    (l₁.find? p).map c = (l₂.find? p).map c := by
  induction l₁ generalizing l₂ with
  | nil =>
    cases l₂ with
    | nil => rfl
    | cons b bs => exact absurd h (by simp)
  | cons a as ih =>
    cases l₂ with
    | nil => exact absurd h (by simp)
    | cons b bs =>
      simp only [List.map_cons, List.cons.injEq] at h
      have hpa : p a = p b := by rw [← hp a, ← hp b, h.1]
      by_cases hc : p a = true
      · rw [List.find?_cons_of_pos _ hc, List.find?_cons_of_pos _ (hpa ▸ hc)]
        simpa using h.1
      · rw [List.find?_cons_of_neg _ hc, List.find?_cons_of_neg _ (hpa ▸ hc)]
        exact ih h.2

/-- Transport `Pairwise` across two lists with equal erasures. -/
theorem pairwise_of_core_eq {β : Type} (c : β → β) {l₁ l₂ : List β}
    (h : l₁.map c = l₂.map c) (R : β → β → Prop)
    (hR : ∀ a b, R (c a) (c b) ↔ R a b) (hp : l₁.Pairwise R) : l₂.Pairwise R := by
  have h₁ : (l₁.map c).Pairwise R :=
    List.pairwise_map.mpr (hp.imp fun hab => (hR _ _).mpr hab)
  rw [h] at h₁
  exact (List.pairwise_map.mp h₁).imp fun hab => (hR _ _).mp hab

/-- `find?` from the right end agrees with `find?` from the left when all
elements satisfying the predicate are equal. -/
theorem find?_reverse_of_unique {β : Type} (p : β → Bool) (l : List β)
    (hu : ∀ x ∈ l, ∀ y ∈ l, p x = true → p y = true → x = y) :
    l.reverse.find? p = l.find? p := by
  cases hfx : l.find? p with
  | none =>
    refine List.find?_eq_none.mpr ?_
    intro x hx
    exact List.find?_eq_none.mp hfx x (List.mem_reverse.mp hx)
  | some x =>
    cases hfy : l.reverse.find? p with
    | none =>
      exact absurd (List.find?_some hfx) (List.find?_eq_none.mp hfy x
        (List.mem_reverse.mpr (List.mem_of_find?_eq_some hfx)))
    | some y =>
      rw [hu y (List.mem_reverse.mp (List.mem_of_find?_eq_some hfy)) x
        (List.mem_of_find?_eq_some hfx) (List.find?_some hfy) (List.find?_some hfx)]

/-! ### Dictionary lookup after update (C3) -/

/-- Head step of a keyed `find?`. -/
theorem find?_key_cons {α : Type} (a : String × α) (l : List (String × α)) (k : String) :
    List.find? (fun p => p.1 == k) (a :: l) =
      if a.1 == k then some a else List.find? (fun p => p.1 == k) l := by
  by_cases h : a.1 = k
  · rw [@List.find?_cons_of_pos (String × α) (fun p => p.1 == k) a l
      (by simpa using h), if_pos (by simpa using h)]
  · rw [@List.find?_cons_of_neg (String × α) (fun p => p.1 == k) a l
      (by simpa using h), if_neg (by simpa using h)]

/-- Lookup after the in-place overwrite branch of `d[k] = v`. -/
theorem dget_map_replace {α : Type} (d : PyDict α) (k k' : String) (v : α) :
    dget (List.map (fun p => if p.1 == k then (k, v) else p) d) k' =
      if k' = k then (if dmem d k then some v else none) else dget d k' := by
  induction d with
  | nil => by_cases hk : k' = k <;> simp [dget, dmem, hk]
  | cons a as ih =>
    simp only [dget, dmem, List.map_cons, find?_key_cons] at ih ⊢
    by_cases hak : a.1 = k
    · by_cases hk : k' = k
      · subst hk
        simp [-List.find?_map, hak]
      · simp [-List.find?_map, hak, hk, Ne.symm hk] at ih ⊢
        exact ih
    · by_cases hk : k' = k
      · subst hk
        simp [-List.find?_map, hak] at ih ⊢
        rw [if_neg (show ¬((a.1 == k') = true) from by simpa using hak)]
        exact ih
      · by_cases hak' : a.1 = k'
        · simp [-List.find?_map, hak, hk, hak']
        · simp [-List.find?_map, hak, hk, hak'] at ih ⊢
          exact ih

/-- Lookup after `d[k] = v`: the new binding shadows, other keys are
untouched. -/
theorem dget_dset {α : Type} (d : PyDict α) (k k' : String) (v : α) :
    dget (dset d k v) k' = if k' = k then some v else dget d k' := by
  rw [dset]
  by_cases hm : dmem d k
  · rw [if_pos hm, dget_map_replace]
    simp [hm]
  · rw [if_neg hm, dget, List.find?_append]
    have hnone : List.find? (fun p => p.1 == k) d = none := by
      cases hfd : List.find? (fun p => p.1 == k) d with
      | none => rfl
      | some x => exact absurd (by rw [dmem, hfd]; rfl) hm
    by_cases hk : k' = k
    · subst hk
      rw [hnone]
      simp [find?_key_cons]
    · have hsing : List.find? (fun p => p.1 == k') [(k, v)] = none := by
        rw [find?_key_cons, if_neg (by simpa using Ne.symm hk)]
        rfl
      rw [hsing, if_neg hk, Option.or_none]
      rfl

/-- Lookup after a fold of same-value `dset`s over a member list. -/
theorem dget_foldl_dset {α : Type} (ns : List String) (v : α) (d : PyDict α)
    (k : String) :
    dget (ns.foldl (fun d' n => dset d' n v) d) k =
      if ns.contains k then some v else dget d k := by
  induction ns generalizing d with
  | nil => simp
  | cons n ns ih =>
    rw [List.foldl_cons, ih, dget_dset]
    by_cases h2 : k ∈ ns
    · simp [h2]
    · by_cases h1 : k = n
      · simp [h1, h2]
      · simp [h1, h2]

/-! ### Erasure facts for the presentation passes (C3) -/

/-- Mapping an erasure over an `enum.map` whose function is per-index
core-preserving. -/
theorem enum_map_core {β : Type} (c : β → β) (l : List β) (G : ℕ × β → β)
    (hG : ∀ p, c (G p) = c p.2) :
    (l.enum.map G).map c = l.map c := by
  rw [List.map_map]
  have h1 : l.enum.map (c ∘ G) = l.enum.map (fun p => c p.2) :=
    List.map_congr_left fun p _ => hG p
  have h2 : l.enum.map (fun p => c p.2) = (l.enum.map Prod.snd).map c := by
    rw [List.map_map]
    rfl
  rw [h1, h2, List.enum_map_snd]

/-- The bottleneck pass rewrites only share and severity fields. -/
theorem computeBottleneckShares_core (l : List NodeEstimation) (tc tl : ℚ) :
    (computeBottleneckShares l tc tl).map nodeCore = l.map nodeCore := by
  simp only [computeBottleneckShares]
  refine Eq.trans (enum_map_core nodeCore _ _ ?_) ?_
  · intro p
    split
    · rfl
    · rfl
  · rw [List.map_map]
    exact List.map_congr_left fun b _ => rfl

/-- The contribution pass rewrites only per-lap, contribution and risk
fields. -/
theorem computeCycleContributions_core (env : Env) (cs : List CycleInfo)
    (bd : List NodeEstimation) (tc tl : ℚ) :
    (computeCycleContributions env cs bd tc tl).map cycleCore = cs.map cycleCore := by
  simp only [computeCycleContributions]
  rw [List.map_map]
  exact List.map_congr_left fun ci _ => rfl

/-- `estimate_agent_node` reports the node's own id and the `in_cycle` flag
it was given. -/
theorem estimateAgentNode_fields (env : Env) (node : NodeConfig)
    (conn : List NodeConfig) (ic : Bool) :
    (estimateAgentNode env node conn ic).node_id = node.id ∧
    (estimateAgentNode env node conn ic).in_cycle = ic := by
  simp only [estimateAgentNode]
  cases env.priceCat (orStr node.model_provider "") (orStr node.model_name "") <;>
    exact ⟨rfl, rfl⟩

/-- Every breakdown entry's `in_cycle` flag records membership of its own
node id in the cycle-member list. -/
theorem buildBreakdown_in_cycle (env : Env) (nodes : List NodeConfig)
    (nm : PyDict NodeConfig) (at_ : PyDict (List String)) (cids : List String) :
    ∀ b ∈ buildBreakdown env nodes nm at_ cids,
      b.in_cycle = cids.contains b.node_id := by
  intro b hb
  simp only [buildBreakdown, List.mem_map] at hb
  rcases hb with ⟨node, hn, hb⟩
  subst hb
  by_cases h1 : node.type = "agentNode"
  · rw [if_pos (show (node.type == "agentNode") = true by simpa using h1),
      (estimateAgentNode_fields env node _ _).2,
      (estimateAgentNode_fields env node _ _).1]
  · rw [if_neg (show ¬(node.type == "agentNode") = true by simpa using h1)]
    by_cases h2 : node.type = "toolNode"
    · rw [if_pos (show (node.type == "toolNode") = true by simpa using h2)]
      rfl
    · rw [if_neg (show ¬(node.type == "toolNode") = true by simpa using h2)]
      rfl

/-! ### The iteration dictionary of `buildCycleInfos` (C3) -/

/-- Head step of a membership `find?` over cycle infos. -/
theorem find?_contains_cons (a : CycleInfo) (l : List CycleInfo) (nid : String) :
    List.find? (fun ci => ci.node_ids.contains nid) (a :: l) =
      if a.node_ids.contains nid then some a
      else List.find? (fun ci => ci.node_ids.contains nid) l := by
  by_cases h : a.node_ids.contains nid = true
  · rw [@List.find?_cons_of_pos CycleInfo (fun ci => ci.node_ids.contains nid) a l h,
      if_pos h]
  · rw [@List.find?_cons_of_neg CycleInfo (fun ci => ci.node_ids.contains nid) a l h,
      if_neg h]

/-- The member lists of the built cycle infos are the groups' member lists,
in order. -/
theorem buildCycleInfos_fold_nodeIds (nm : PyDict NodeConfig) (rl : ℤ) (li : ℚ)
    (groups : List CycleGroup) (st : List CycleInfo × PyDict ℤ) :
    ((groups.foldl (cycleInfoStep nm rl li) st).1).map (·.node_ids) =
      st.1.map (·.node_ids) ++ groups.map (·.node_ids) := by
  induction groups generalizing st with
  | nil => simp
  | cons cg rest ih =>
    rw [List.foldl_cons, ih]
    simp [cycleInfoStep]

/-- See `buildCycleInfos_fold_nodeIds`. -/
theorem buildCycleInfos_nodeIds (nm : PyDict NodeConfig) (rl : ℤ) (li : ℚ)
    (groups : List CycleGroup) :
    ((buildCycleInfos nm rl li groups).1).map (·.node_ids) =
      groups.map (·.node_ids) := by
  rw [buildCycleInfos, buildCycleInfos_fold_nodeIds]
  rfl

/-- Invariant of the enumeration loop: the iteration dictionary holds, for
each node id, the `max_iterations` of the last built cycle containing it. -/
theorem buildCycleInfos_fold_dget (nm : PyDict NodeConfig) (rl : ℤ) (li : ℚ)
    (groups : List CycleGroup) (st : List CycleInfo × PyDict ℤ) (nid : String)
    (hst : dget st.2 nid =
      (st.1.reverse.find? (fun ci => ci.node_ids.contains nid)).map (·.max_iterations)) :
    dget (groups.foldl (cycleInfoStep nm rl li) st).2 nid =
      ((groups.foldl (cycleInfoStep nm rl li) st).1.reverse.find?
        (fun ci => ci.node_ids.contains nid)).map (·.max_iterations) := by
  induction groups generalizing st with
  | nil => exact hst
  | cons cg rest ih =>
    rw [List.foldl_cons]
    refine ih _ ?_
    simp only [cycleInfoStep, List.reverse_append, List.reverse_singleton,
      List.singleton_append, find?_contains_cons, dget_foldl_dset]
    by_cases hc : cg.node_ids.contains nid = true
    · rw [if_pos (by simpa using hc), if_pos (by simpa using hc)]
      rfl
    · rw [if_neg (by simpa using hc), if_neg (by simpa using hc)]
      exact hst

/-- See `buildCycleInfos_fold_dget`. -/
theorem buildCycleInfos_dget (nm : PyDict NodeConfig) (rl : ℤ) (li : ℚ)
    (groups : List CycleGroup) (nid : String) :
    dget (buildCycleInfos nm rl li groups).2 nid =
      ((buildCycleInfos nm rl li groups).1.reverse.find?
        (fun ci => ci.node_ids.contains nid)).map (·.max_iterations) := by
  rw [buildCycleInfos]
  exact buildCycleInfos_fold_dget nm rl li groups ([], []) nid (by simp [dget])

/-- Membership in `get_nodes_in_cycles` is membership in some group. -/
theorem ewCycleNodeIds_mem (groups : List CycleGroup) (nid : String) :
    nid ∈ ewCycleNodeIds groups ↔ ∃ cg ∈ groups, nid ∈ cg.node_ids := by
  have gen : ∀ (gs : List CycleGroup) (acc : List String),
      (nid ∈ gs.foldl (fun acc cg => acc ++ cg.node_ids) acc) ↔
        (nid ∈ acc ∨ ∃ cg ∈ gs, nid ∈ cg.node_ids) := by
    intro gs
    induction gs with
    | nil => intro acc; simp
    | cons cg rest ih =>
      intro acc
      rw [List.foldl_cons, ih]
      simp [List.mem_append, or_assoc]
  rw [ewCycleNodeIds, gen groups []]
  simp

/-- The `// 2 or 1` factor, for a key bound in the dictionary to a positive
iteration count. -/
theorem halvedIterFactor_eq (nci : PyDict ℤ) (nid : String) (mi : ℤ)
    (h : dget nci nid = some mi) (hmi : 1 ≤ mi) :
    halvedIterFactor nci nid = max 1 (Int.fdiv mi 2) := by
  simp only [halvedIterFactor, dgetD, h, Option.getD_some]
  have h0 : 0 ≤ Int.fdiv mi 2 := Int.fdiv_nonneg (by omega) (by omega)
  by_cases hz : Int.fdiv mi 2 = 0
  · simp [hz]
  · rw [if_neg (by simpa using hz)]
    omega

/-- `int()` of an integer-valued float is that integer. -/
theorem pyTrunc_intCast (n : ℤ) : pyTrunc ((n : ℤ) : ℚ) = n := by
  rw [pyTrunc]
  by_cases h : (0 : ℚ) ≤ ((n : ℤ) : ℚ)
  · rw [if_pos h, Int.floor_intCast]
  · rw [if_neg h, show -((n : ℤ) : ℚ) = (((-n : ℤ) : ℤ) : ℚ) by push_cast; ring,
      Int.floor_intCast]
    omega

/-! ### The spec-side totals against the embedded stages (C3) -/

/-- `specAvgTotal` only reads erased-core fields, so it transports across the
presentation passes. -/
theorem specAvgTotal_core (m : NodeEstimation → ℚ) {BD B0 : List NodeEstimation}
    {D C0 : List CycleInfo} (hm : ∀ b, m (nodeCore b) = m b)
    (hb : BD.map nodeCore = B0.map nodeCore)
    (hc : D.map cycleCore = C0.map cycleCore) :
    specAvgTotal m BD D = specAvgTotal m B0 C0 := by
  simp only [specAvgTotal]
  congr 1
  · exact congrArg List.sum
      (filter_map_eq_of_core_eq nodeCore hb (fun b => !b.in_cycle) m (fun b => rfl) hm)
  · refine congrArg List.sum ?_
    refine Eq.trans (map_eq_of_core_eq cycleCore hc _ fun ci => rfl) ?_
    refine List.map_congr_left fun ci _ => ?_
    rw [filter_map_eq_of_core_eq nodeCore hb
      (fun b => ci.node_ids.contains b.node_id) m (fun b => rfl) hm]

/-- `specHalvedTotal` only reads erased-core fields, so it transports across
the presentation passes. -/
theorem specHalvedTotal_core (m : NodeEstimation → ℤ) {BD B0 : List NodeEstimation}
    {D C0 : List CycleInfo} (hm : ∀ b, m (nodeCore b) = m b)
    (hb : BD.map nodeCore = B0.map nodeCore)
    (hc : D.map cycleCore = C0.map cycleCore) :
    specHalvedTotal m BD D = specHalvedTotal m B0 C0 := by
  simp only [specHalvedTotal]
  refine congrArg List.sum ?_
  refine Eq.trans (map_eq_of_core_eq nodeCore hb _ ?_) (List.map_congr_left ?_)
  · intro b
    simp only [show (nodeCore b).node_id = b.node_id from rfl]
    cases hf : D.find? (fun ci => ci.node_ids.contains b.node_id) with
    | none => exact hm b
    | some ci => exact congrArg (· * max 1 (Int.fdiv ci.max_iterations 2)) (hm b)
  · intro b _
    have hfc := find?_map_core_eq cycleCore hc
      (fun ci => ci.node_ids.contains b.node_id) (fun ci => rfl)
    cases hf1 : D.find? (fun ci => ci.node_ids.contains b.node_id) with
    | none =>
      cases hf2 : C0.find? (fun ci => ci.node_ids.contains b.node_id) with
      | none => rfl
      | some c2 => rw [hf1, hf2] at hfc; exact absurd hfc (by simp)
    | some c1 =>
      cases hf2 : C0.find? (fun ci => ci.node_ids.contains b.node_id) with
      | none => rw [hf1, hf2] at hfc; exact absurd hfc (by simp)
      | some c2 =>
        rw [hf1, hf2] at hfc
        have hcc : cycleCore c1 = cycleCore c2 := by simpa using hfc
        have hmax : c1.max_iterations = c2.max_iterations := by
          have := congrArg CycleInfo.max_iterations hcc
          simpa [cycleCore] using this
        show m b * max 1 (Int.fdiv c1.max_iterations 2) =
          m b * max 1 (Int.fdiv c2.max_iterations 2)
        rw [hmax]

/-- Under pairwise-disjoint member lists, at most one cycle contains a given
node id. -/
theorem disjoint_unique_container {l : List CycleInfo}
    (hd : l.Pairwise (fun a b => ∀ n ∈ a.node_ids, n ∉ b.node_ids)) (nid : String) :
    ∀ x ∈ l, ∀ y ∈ l, (x.node_ids.contains nid) = true →
      (y.node_ids.contains nid) = true → x = y := by
  intro x hx y hy hpx hpy
  by_contra hxy
  have hsym : Symmetric (fun a b : CycleInfo => ∀ n ∈ a.node_ids, n ∉ b.node_ids) := by
    intro a b hab n hnb hna
    exact hab n hna hnb
  have := hd.forall hsym hx hy hxy
  exact this nid (by simpa using hpx) (by simpa using hpy)

/-- The cyclic-branch headline tokens / cost / latency totals equal the
claim's avg-case formulas (with the source's roundings). -/
theorem ewTotals_cyclic_totals (B0 : List NodeEstimation) (C0 : List CycleInfo)
    (nci : PyDict ℤ) (hne : C0 ≠ []) :
    (ewTotals B0 nci (ewRanges B0 C0 true)).tokens =
      pyRoundInt (specAvgTotal (fun b => (b.tokens : ℚ)) B0 C0) ∧
    (ewTotals B0 nci (ewRanges B0 C0 true)).cost =
      pyRound (pyRound (specAvgTotal (fun b => b.cost) B0 C0) 6) 8 ∧
    (ewTotals B0 nci (ewRanges B0 C0 true)).latency =
      pyRound (pyRound (specAvgTotal (fun b => b.latency) B0 C0) 3) 3 := by
  simp only [ewRanges, ewTotals, specAvgTotal]
  rw [if_pos (show True ∧ C0 ≠ [] from ⟨trivial, hne⟩)]
  refine ⟨?_, rfl, rfl⟩
  refine Eq.trans (pyTrunc_intCast _) ?_
  congr 1
  rw [Int.cast_list_sum, List.map_map]
  rfl

/-- With pairwise-disjoint cycle groups, the per-node `// 2 or 1`-scaled sum
of the cyclic override equals the amended per-cycle formula. -/
theorem ewTotals_halved_metric (env : Env) (nodes : List NodeConfig)
    (edges : List EdgeConfig) (groups : List CycleGroup) (rl : ℤ) (li : ℚ)
    (metric : NodeEstimation → ℤ)
    (hdisj : ((buildCycleInfos (mkNodeMap nodes) rl li groups).1).Pairwise
      (fun a b => ∀ n ∈ a.node_ids, n ∉ b.node_ids)) :
    ((ewBreakdown0 env nodes edges groups).map (fun b =>
        if b.in_cycle then
          metric b *
            halvedIterFactor (buildCycleInfos (mkNodeMap nodes) rl li groups).2 b.node_id
        else metric b)).sum =
      specHalvedTotal metric (ewBreakdown0 env nodes edges groups)
        (buildCycleInfos (mkNodeMap nodes) rl li groups).1 := by
  simp only [specHalvedTotal]
  refine congrArg List.sum (List.map_congr_left ?_)
  intro b hb
  have hic : b.in_cycle = (ewCycleNodeIds groups).contains b.node_id :=
    buildBreakdown_in_cycle env nodes _ _ _ b hb
  by_cases hbc : b.node_id ∈ ewCycleNodeIds groups
  · rw [hic, if_pos (show ((ewCycleNodeIds groups).contains b.node_id) = true
      by simpa using hbc)]
    rcases (ewCycleNodeIds_mem groups b.node_id).mp hbc with ⟨cg, hcg, hmem⟩
    have hin : cg.node_ids ∈
        ((buildCycleInfos (mkNodeMap nodes) rl li groups).1).map (·.node_ids) := by
      rw [buildCycleInfos_nodeIds]
      exact List.mem_map.mpr ⟨cg, hcg, rfl⟩
    rcases List.mem_map.mp hin with ⟨ci, hciC0, hcie⟩
    have hfs : ((buildCycleInfos (mkNodeMap nodes) rl li groups).1.find?
        (fun ci => ci.node_ids.contains b.node_id)).isSome :=
      List.find?_isSome.mpr ⟨ci, hciC0, by rw [hcie]; simpa using hmem⟩
    rcases Option.isSome_iff_exists.mp hfs with ⟨ci₀, hf⟩
    have hdict : dget (buildCycleInfos (mkNodeMap nodes) rl li groups).2 b.node_id =
        some ci₀.max_iterations := by
      rw [buildCycleInfos_dget,
        find?_reverse_of_unique _ _ (disjoint_unique_container hdisj b.node_id), hf]
      rfl
    have hmaxpos : 1 ≤ ci₀.max_iterations := by
      have hmm := buildCycleInfos_mem (mkNodeMap nodes) rl li groups ci₀
        (List.mem_of_find?_eq_some hf)
      rw [hmm.1]
      exact groupMaxIterations_pos _ _ _ _
    rw [halvedIterFactor_eq _ _ _ hdict hmaxpos, hf]
  · rw [hic, if_neg (show ¬((ewCycleNodeIds groups).contains b.node_id) = true
      by simpa using hbc)]
    have hfn : (buildCycleInfos (mkNodeMap nodes) rl li groups).1.find?
        (fun ci => ci.node_ids.contains b.node_id) = none := by
      refine List.find?_eq_none.mpr ?_
      intro x hx hpx
      refine hbc ((ewCycleNodeIds_mem groups b.node_id).mpr ?_)
      have hxin : x.node_ids ∈ groups.map (·.node_ids) := by
        rw [← buildCycleInfos_nodeIds (mkNodeMap nodes) rl li groups]
        exact List.mem_map.mpr ⟨x, hx, rfl⟩
      rcases List.mem_map.mp hxin with ⟨cg, hcg, hcge⟩
      exact ⟨cg, hcg, by rw [hcge]; simpa using hpx⟩
    rw [hfn]

/-- The cyclic-branch input/output totals are the per-node `// 2 or 1`-scaled
sums. -/
theorem ewTotals_cyclic_io (B0 : List NodeEstimation) (C0 : List CycleInfo)
    (nci : PyDict ℤ) (hne : C0 ≠ []) :
    (ewTotals B0 nci (ewRanges B0 C0 true)).input =
      (B0.map (fun b =>
        if b.in_cycle then b.input_tokens * halvedIterFactor nci b.node_id
        else b.input_tokens)).sum ∧
    (ewTotals B0 nci (ewRanges B0 C0 true)).output =
      (B0.map (fun b =>
        if b.in_cycle then b.output_tokens * halvedIterFactor nci b.node_id
        else b.output_tokens)).sum := by
  simp only [ewRanges, ewTotals]
  rw [if_pos (show True ∧ C0 ≠ [] from ⟨trivial, hne⟩)]
  exact ⟨rfl, rfl⟩

/-! ### C3 -/

/-- C3 (amended): for every successful run reporting at least one cycle,
with pairwise-disjoint cycle member lists, the headline `total_tokens`,
`total_cost` and `total_latency` equal the claim's avg case — DAG-zone
single-pass sum plus, per cycle, the per-lap sum times
`expected_iterations` — under the source's roundings.  `total_input_tokens`
and `total_output_tokens`, however, scale each in-cycle node by
`max(1, its cycle's max_iterations // 2)` (floor halving), not by
`expected_iterations = ceil(max_iterations / 2)` as the claim says; the two
disagree whenever a cycle's `max_iterations` is odd and `≥ 3`
(see the counterexample). -/
theorem C3_totals_amended (env : Env) (nodes : List NodeConfig)
    (edges : List EdgeConfig) (rl : ℤ) (rpd : Option ℤ) (li : Option ℚ)
    (r : WorkflowEstimation)
    (h : estimateWorkflow env nodes edges rl rpd li = some r)
    (hne : r.detected_cycles ≠ [])
    (hdisj : r.detected_cycles.Pairwise (fun a b => ∀ n ∈ a.node_ids, n ∉ b.node_ids)) :
    r.total_tokens =
      pyRoundInt (specAvgTotal (fun b => (b.tokens : ℚ)) r.breakdown r.detected_cycles) ∧
    r.total_cost =
      pyRound (pyRound (specAvgTotal (fun b => b.cost) r.breakdown r.detected_cycles) 6) 8 ∧
    r.total_latency =
      pyRound (pyRound (specAvgTotal (fun b => b.latency) r.breakdown r.detected_cycles) 3) 3 ∧
    r.total_input_tokens =
      specHalvedTotal (fun b => b.input_tokens) r.breakdown r.detected_cycles ∧
    r.total_output_tokens =
      specHalvedTotal (fun b => b.output_tokens) r.breakdown r.detected_cycles := by
  rcases estimateWorkflow_some_inv env nodes edges rl rpd li r h with
    ⟨groups, ic, cp, steps, _, _, _, _, hr⟩
  subst hr
  rw [ewAssemble_detected_cycles] at hne hdisj
  have hCne : (ewCyc nodes rl li ic groups).1 ≠ [] := by
    intro h0
    apply hne
    simp only [ewDetected, h0]
    rfl
  have hic : ic = true := by
    cases ic with
    | false => exact absurd rfl hCne
    | true => rfl
  subst hic
  have hb : (ewBreakdown env nodes edges rl li groups true).map nodeCore =
      (ewBreakdown0 env nodes edges groups).map nodeCore :=
    computeBottleneckShares_core _ _ _
  have hc : (ewDetected env nodes edges rl li groups true).map cycleCore =
      ((ewCyc nodes rl li true groups).1).map cycleCore := by
    simp only [ewDetected]
    rw [if_neg (by simpa [List.isEmpty_iff] using hCne)]
    exact computeCycleContributions_core _ _ _ _ _
  have hdisjC : ((ewCyc nodes rl li true groups).1).Pairwise
      (fun a b => ∀ n ∈ a.node_ids, n ∉ b.node_ids) :=
    pairwise_of_core_eq cycleCore hc _ (fun a b => Iff.rfl) hdisj
  refine ⟨?_, ?_, ?_, ?_, ?_⟩
  · rw [ewAssemble_total_tokens, ewAssemble_breakdown, ewAssemble_detected_cycles,
      (ewTotals_cyclic_totals _ _ _ hCne).1,
      specAvgTotal_core (fun b => (b.tokens : ℚ)) (fun b => rfl) hb hc]
  · rw [ewAssemble_total_cost, ewAssemble_breakdown, ewAssemble_detected_cycles,
      (ewTotals_cyclic_totals _ _ _ hCne).2.1,
      specAvgTotal_core (fun b => b.cost) (fun b => rfl) hb hc]
  · rw [ewAssemble_total_latency, ewAssemble_breakdown, ewAssemble_detected_cycles,
      (ewTotals_cyclic_totals _ _ _ hCne).2.2,
      specAvgTotal_core (fun b => b.latency) (fun b => rfl) hb hc]
  · rw [ewAssemble_total_input, ewAssemble_breakdown, ewAssemble_detected_cycles,
      (ewTotals_cyclic_io _ _ _ hCne).1,
      specHalvedTotal_core (fun b => b.input_tokens) (fun b => rfl) hb hc]
    exact ewTotals_halved_metric env nodes edges groups rl (li.getD 1) _ hdisjC
  · rw [ewAssemble_total_output, ewAssemble_breakdown, ewAssemble_detected_cycles,
      (ewTotals_cyclic_io _ _ _ hCne).2,
      specHalvedTotal_core (fun b => b.output_tokens) (fun b => rfl) hb hc]
    exact ewTotals_halved_metric env nodes edges groups rl (li.getD 1) _ hdisjC

set_option maxRecDepth 40000 in
/-- C3 counterexample: two agents in a 2-node cycle, one configuring the odd
cap `max_steps = 3`, recursion limit 25.  The single cycle reports
`max_iterations = 3` and `expected_iterations = 2`, so the claim's avg-case
formula for `total_input_tokens` — DAG-zone sum (0) plus per-lap input sum
(404) times `expected_iterations` (2) — gives 808, but the code reports
`404`: the override scales by `max_iterations // 2 = 1`, not by
`expected_iterations`. -/
theorem C3_counterexample :
    estimateWorkflow scEnv [agA3, agB] edC 25 none none =
      some (ewAssemble scEnv [agA3, agB] edC 25 none none cgC true
        ["A", "B"] [["A", "B"]]) ∧
    (ewAssemble scEnv [agA3, agB] edC 25 none none cgC true
        ["A", "B"] [["A", "B"]]).detected_cycles.map
      (fun ci => (ci.max_iterations, ci.expected_iterations)) = [(3, 2)] ∧
    specAvgTotalInt (fun b => b.input_tokens)
      (ewAssemble scEnv [agA3, agB] edC 25 none none cgC true
        ["A", "B"] [["A", "B"]]).breakdown
      (ewAssemble scEnv [agA3, agB] edC 25 none none cgC true
        ["A", "B"] [["A", "B"]]).detected_cycles = 808 ∧
    (ewAssemble scEnv [agA3, agB] edC 25 none none cgC true
        ["A", "B"] [["A", "B"]]).total_input_tokens = 404 := by
  have h3 : topologicalOrder (ewAnalyzer [agA3, agB] edC) = [] := by decide
  have hglue : estimateWorkflow scEnv [agA3, agB] edC 25 none none =
      some (ewAssemble scEnv [agA3, agB] edC 25 none none cgC true
        ["A", "B"] [["A", "B"]]) := by
    have h1 : cycleGroups (ewAnalyzer [agA3, agB] edC) = some cgC := by decide
    have h2 : isCyclic (ewAnalyzer [agA3, agB] edC) = some true := by decide
    have h4 : weightedCriticalPath (ewAnalyzer [agA3, agB] edC)
        (ewLatencyMap scEnv [agA3, agB] edC 25 none cgC true) = some ["A", "B"] := by
      rw [weightedCriticalPath, h3]
      rfl
    have h5 : computeParallelSteps (ewAnalyzer [agA3, agB] edC) = some [["A", "B"]] := by
      rw [computeParallelSteps, h3]
      rfl
    rw [estimateWorkflow]
    simp only [h1, h2, h4, h5]
  exact ⟨hglue, by decide, by decide, by decide⟩

set_option maxRecDepth 40000 in
/-- C3 amended-theorem witness: at the odd-cap cycle instance the amended
theorem's hypotheses hold concretely and its halved-factor input formula and
avg-case token formula are exhibited. -/
theorem C3_totals_amended_witness :
    (ewAssemble scEnv [agA3, agB] edC 25 none none cgC true
      ["A", "B"] [["A", "B"]]).detected_cycles ≠ [] ∧
    (ewAssemble scEnv [agA3, agB] edC 25 none none cgC true
        ["A", "B"] [["A", "B"]]).total_tokens =
      pyRoundInt (specAvgTotal (fun b => (b.tokens : ℚ))
        (ewAssemble scEnv [agA3, agB] edC 25 none none cgC true
          ["A", "B"] [["A", "B"]]).breakdown
        (ewAssemble scEnv [agA3, agB] edC 25 none none cgC true
          ["A", "B"] [["A", "B"]]).detected_cycles) ∧
    (ewAssemble scEnv [agA3, agB] edC 25 none none cgC true
        ["A", "B"] [["A", "B"]]).total_input_tokens =
      specHalvedTotal (fun b => b.input_tokens)
        (ewAssemble scEnv [agA3, agB] edC 25 none none cgC true
          ["A", "B"] [["A", "B"]]).breakdown
        (ewAssemble scEnv [agA3, agB] edC 25 none none cgC true
          ["A", "B"] [["A", "B"]]).detected_cycles := by
  have h3 : topologicalOrder (ewAnalyzer [agA3, agB] edC) = [] := by decide
  have hglue : estimateWorkflow scEnv [agA3, agB] edC 25 none none =
      some (ewAssemble scEnv [agA3, agB] edC 25 none none cgC true
        ["A", "B"] [["A", "B"]]) := by
    have h1 : cycleGroups (ewAnalyzer [agA3, agB] edC) = some cgC := by decide
    have h2 : isCyclic (ewAnalyzer [agA3, agB] edC) = some true := by decide
    have h4 : weightedCriticalPath (ewAnalyzer [agA3, agB] edC)
        (ewLatencyMap scEnv [agA3, agB] edC 25 none cgC true) = some ["A", "B"] := by
      rw [weightedCriticalPath, h3]
      rfl
    have h5 : computeParallelSteps (ewAnalyzer [agA3, agB] edC) = some [["A", "B"]] := by
      rw [computeParallelSteps, h3]
      rfl
    rw [estimateWorkflow]
    simp only [h1, h2, h4, h5]
  have hmain := C3_totals_amended scEnv [agA3, agB] edC 25 none none _ hglue
    (by decide) (by decide)
  exact ⟨by decide, hmain.1, hmain.2.2.2.1⟩

/-! ### Edge-free graphs (C9): dictionary shape lemmas -/

/-- Dict lookup at a cons cell. -/
theorem dget_cons {α : Type} (p : String × α) (d : PyDict α) (k : String) :
    dget (p :: d) k = if p.1 == k then some p.2 else dget d k := by
  rw [dget, find?_key_cons]
  by_cases h : (p.1 == k) = true
  · rw [if_pos h, if_pos h]
    rfl
  · rw [if_neg h, if_neg h]
    rfl

/-- An absent key has no `find?` hit. -/
theorem dmem_false_find? {α : Type} (d : PyDict α) (k : String)
    (h : dmem d k = false) : List.find? (fun p => p.1 == k) d = none := by
  cases hfd : List.find? (fun p => p.1 == k) d with
  | none => rfl
  | some x => rw [dmem, hfd] at h; exact absurd h (by simp)

/-- A fold of `dset`s at pairwise-distinct fresh keys appends the bindings in
order. -/
theorem foldl_dset_pairs {α β : Type} (f : β → String) (v : β → α) (l : List β)
    (d0 : PyDict α) (hfresh : ∀ b ∈ l, dmem d0 (f b) = false)
    (hnd : (l.map f).Nodup) :
    l.foldl (fun d b => dset d (f b) (v b)) d0 = d0 ++ l.map (fun b => (f b, v b)) := by
  induction l generalizing d0 with
  | nil => simp
  | cons a l ih =>
    rw [List.foldl_cons]
    have hnd' : (∀ x ∈ l, ¬f x = f a) ∧ (l.map f).Nodup := by simpa using hnd
    have hda : dset d0 (f a) (v a) = d0 ++ [(f a, v a)] := by
      rw [dset, if_neg (by simp [hfresh a (by simp)])]
    rw [hda, ih (d0 ++ [(f a, v a)]) ?_ hnd'.2]
    · simp
    · intro b hb
      have h1 := dmem_false_find? d0 (f b) (hfresh b (by simp [hb]))
      have h2 : f b ≠ f a := hnd'.1 b hb
      simp only [dmem, List.find?_append, h1, find?_key_cons]
      simp [Ne.symm h2]

/-- First-match lookup in an association list with pairwise-distinct keys. -/
theorem dget_map_pairs {α β : Type} (f : β → String) (v : β → α) (l : List β)
    (hnd : (l.map f).Nodup) (b : β) (hb : b ∈ l) :
    dget (l.map (fun b => (f b, v b))) (f b) = some (v b) := by
  induction l with
  | nil => cases hb
  | cons a l ih =>
    have hnd' : (∀ x ∈ l, ¬f x = f a) ∧ (l.map f).Nodup := by simpa using hnd
    rw [List.map_cons, dget_cons]
    rcases List.mem_cons.mp hb with hba | hbl
    · subst hba
      rw [if_pos (by simp)]
    · have h2 : f a ≠ f b := fun he => hnd'.1 b hbl he.symm
      rw [if_neg (by simpa using h2)]
      exact ih hnd'.2 hbl

/-- Mapping a projection over an `enum.map` that stores the element in the
projected field. -/
theorem enum_map_proj {β γ : Type} (l : List β) (G : ℕ × β → γ) (pr : γ → β)
    (hG : ∀ p, pr (G p) = p.2) : (l.enum.map G).map pr = l := by
  rw [List.map_map]
  have h1 : l.enum.map (pr ∘ G) = l.enum.map Prod.snd :=
    List.map_congr_left fun p _ => hG p
  rw [h1, List.enum_map_snd]

/-- Members transport across equal erasures. -/
theorem mem_map_core {β : Type} (c : β → β) {l₁ l₂ : List β}
    (h : l₁.map c = l₂.map c) (b : β) (hb : b ∈ l₁) : ∃ b₂ ∈ l₂, c b₂ = c b := by
  have hm : c b ∈ l₂.map c := h ▸ List.mem_map.mpr ⟨b, hb, rfl⟩
  rcases List.mem_map.mp hm with ⟨b₂, hb₂, he⟩
  exact ⟨b₂, hb₂, he⟩

/-! ### Edge-free graphs (C9): the traversals drain trivially -/

/-- With an empty adjacency dict, Kahn's loop drains the queue in order. -/
theorem kahnLoop_no_adj (g : GraphAnalyzer) (hadj : g.adj = []) :
    ∀ (queue : List String) (fuel : ℕ), queue.length ≤ fuel →
      ∀ (indeg : PyDict ℤ) (order : List String),
        kahnLoop g fuel indeg queue order = some (order ++ queue) := by
  intro queue
  induction queue with
  | nil =>
    intro fuel _ indeg order
    cases fuel <;> simp [kahnLoop]
  | cons u q ih =>
    intro fuel hf indeg order
    cases fuel with
    | zero => simp at hf
    | succ f =>
      have hu : adjGet g u = [] := by rw [adjGet, hadj]; rfl
      have hstep : kahnLoop g (f + 1) indeg (u :: q) order =
          kahnLoop g f (processNbrs indeg (adjGet g u)).1
            (q ++ (processNbrs indeg (adjGet g u)).2) (order ++ [u]) := rfl
      rw [hstep, hu]
      show kahnLoop g f indeg (q ++ []) (order ++ [u]) = some (order ++ u :: q)
      rw [List.append_nil, ih f (by simp at hf; omega) indeg (order ++ [u])]
      simp

/-- With an empty adjacency dict, the depth loop leaves depths unchanged. -/
theorem cpsLoop_no_adj (g : GraphAnalyzer) (hadj : g.adj = []) (us : List String) :
    ∀ dep, cpsLoop g dep us = some dep := by
  induction us with
  | nil => intro dep; rfl
  | cons u rest ih =>
    intro dep
    have hu : adjGet g u = [] := by rw [adjGet, hadj]; rfl
    have hstep : cpsLoop g dep (u :: rest) =
        match cpsRelax dep u (adjGet g u) with
        | none => none
        | some d2 => cpsLoop g d2 rest := rfl
    rw [hstep, hu]
    show cpsLoop g dep rest = some dep
    exact ih dep

/-- With an empty adjacency dict, the longest-path loop is the identity. -/
theorem wcpLoop_no_adj (g : GraphAnalyzer) (hadj : g.adj = []) (lm : PyDict ℚ)
    (us : List String) : ∀ dist parent,
      wcpLoop g lm dist parent us = some (dist, parent) := by
  induction us with
  | nil => intro dist parent; rfl
  | cons u rest ih =>
    intro dist parent
    have hu : adjGet g u = [] := by rw [adjGet, hadj]; rfl
    have hstep : wcpLoop g lm dist parent (u :: rest) =
        match wcpRelax lm dist parent u (adjGet g u) with
        | none => none
        | some p => wcpLoop g lm p.1 p.2 rest := rfl
    rw [hstep, hu]
    show wcpLoop g lm dist parent rest = some (dist, parent)
    exact ih dist parent

/-- On a zero `dist` dict, `max(..., key=...)` returns a node attaining the
running maximum of the latencies. -/
theorem wcpMaxBy_key (lm dist : PyDict ℚ) :
    ∀ (ns : List String) (best : String) (bkey : ℚ),
      (∀ n ∈ ns, dget dist n = some 0) → dgetD lm best 0 = bkey →
      ∃ e, wcpMaxBy lm dist best bkey ns = some e ∧ (e = best ∨ e ∈ ns) ∧
        dgetD lm e 0 = (ns.map (fun n => dgetD lm n 0)).foldl max bkey := by
  intro ns
  induction ns with
  | nil =>
    intro best bkey _ hbk
    exact ⟨best, rfl, Or.inl rfl, by simpa using hbk⟩
  | cons n rest ih =>
    intro best bkey h0 hbk
    have hstep : wcpMaxBy lm dist best bkey (n :: rest) =
        match dget dist n with
        | none => none
        | some dn =>
          if dn + dgetD lm n 0 > bkey then wcpMaxBy lm dist n (dn + dgetD lm n 0) rest
          else wcpMaxBy lm dist best bkey rest := rfl
    have hred : wcpMaxBy lm dist best bkey (n :: rest) =
        if dgetD lm n 0 > bkey then wcpMaxBy lm dist n (dgetD lm n 0) rest
        else wcpMaxBy lm dist best bkey rest := by
      rw [hstep, h0 n (by simp)]
      show (if (0 : ℚ) + dgetD lm n 0 > bkey then
          wcpMaxBy lm dist n ((0 : ℚ) + dgetD lm n 0) rest
        else wcpMaxBy lm dist best bkey rest) = _
      rw [zero_add]
    rw [hred]
    by_cases hk : dgetD lm n 0 > bkey
    · rw [if_pos hk]
      rcases ih n (dgetD lm n 0) (fun m hm => h0 m (by simp [hm])) rfl with
        ⟨e, he, hmem, hkey⟩
      refine ⟨e, he, ?_, ?_⟩
      · rcases hmem with h | h
        · exact Or.inr (by simp [h])
        · exact Or.inr (by simp [h])
      · rw [hkey, List.map_cons, List.foldl_cons, max_eq_right (le_of_lt hk)]
    · rw [if_neg hk]
      rcases ih best bkey (fun m hm => h0 m (by simp [hm])) hbk with
        ⟨e, he, hmem, hkey⟩
      refine ⟨e, he, ?_, ?_⟩
      · rcases hmem with h | h
        · exact Or.inl h
        · exact Or.inr (by simp [h])
      · rw [hkey, List.map_cons, List.foldl_cons, max_eq_left (not_lt.mp hk)]

/-! ### Latencies are integer thousandths (C9) -/

/-- A rational with at most three decimal digits. -/
def thousandth (x : ℚ) : Prop := ∃ n : ℤ, x * 1000 = (n : ℚ)

/-- `0` is a thousandth. -/
theorem thousandth_zero : thousandth 0 := ⟨0, by norm_num⟩

/-- Thousandths are closed under addition. -/
theorem thousandth_add {x y : ℚ} (hx : thousandth x) (hy : thousandth y) :
    thousandth (x + y) := by
  rcases hx with ⟨n, hn⟩
  rcases hy with ⟨m, hm⟩
  exact ⟨n + m, by rw [add_mul, hn, hm]; push_cast; ring⟩

/-- Thousandths are closed under list sums. -/
theorem thousandth_sum (l : List ℚ) (h : ∀ x ∈ l, thousandth x) :
    thousandth l.sum := by
  induction l with
  | nil => exact thousandth_zero
  | cons a l ih =>
    rw [List.sum_cons]
    exact thousandth_add (h a (by simp)) (ih (fun x hx => h x (by simp [hx])))

/-- Thousandths are closed under integer scaling. -/
theorem thousandth_mul_int {x : ℚ} (c : ℤ) (hx : thousandth x) :
    thousandth (x * (c : ℚ)) := by
  rcases hx with ⟨n, hn⟩
  exact ⟨n * c, by rw [mul_right_comm, hn]; push_cast; ring⟩

/-- Thousandths are closed under `max`. -/
theorem thousandth_max {x y : ℚ} (hx : thousandth x) (hy : thousandth y) :
    thousandth (max x y) := by
  rcases le_total x y with h | h
  · rw [max_eq_right h]; exact hy
  · rw [max_eq_left h]; exact hx

/-- Thousandths are closed under a `max` fold. -/
theorem thousandth_foldl_max (l : List ℚ) :
    ∀ x, thousandth x → (∀ y ∈ l, thousandth y) → thousandth (l.foldl max x) := by
  induction l with
  | nil => intro x hx _; exact hx
  | cons a l ih =>
    intro x hx h
    rw [List.foldl_cons]
    exact ih _ (thousandth_max hx (h a (by simp))) (fun y hy => h y (by simp [hy]))

/-- `10^3 = 1000`. -/
theorem tenPow_three : tenPow 3 = 1000 := by norm_num [tenPow]

/-- Three-digit roundings are thousandths. -/
theorem thousandth_pyRound3 (y : ℚ) : thousandth (pyRound y 3) := by
  refine ⟨pyRoundInt (y * tenPow 3), ?_⟩
  simp only [pyRound]
  rw [tenPow_three, div_mul_cancel₀ _ (by norm_num : (1000 : ℚ) ≠ 0)]

/-- Rounding an integer-valued rational is the identity. -/
theorem pyRoundInt_intCast (n : ℤ) : pyRoundInt ((n : ℤ) : ℚ) = n := by
  simp [pyRoundInt, Int.floor_intCast]

/-- Rounding a thousandth to four digits is exact. -/
theorem pyRound4_thousandth (x : ℚ) (hx : thousandth x) : pyRound x 4 = x := by
  rcases hx with ⟨n, hn⟩
  have h4 : tenPow 4 = 10000 := by norm_num [tenPow]
  have hx4 : x * tenPow 4 = ((10 * n : ℤ) : ℚ) := by
    rw [h4]
    calc x * 10000 = x * 1000 * 10 := by ring
      _ = (n : ℚ) * 10 := by rw [hn]
      _ = ((10 * n : ℤ) : ℚ) := by push_cast; ring
  simp only [pyRound]
  rw [hx4, pyRoundInt_intCast, h4, div_eq_iff (by norm_num : (10000 : ℚ) ≠ 0)]
  rw [← hx4, h4]

/-- Every tool impact's execution latency is a thousandth. -/
theorem getToolImpact_latency_thousandth (env : Env) (tn : NodeConfig) :
    thousandth (getToolImpact env tn).execution_latency := by
  simp only [getToolImpact]
  cases toolLookup env tn.tool_id <;> exact thousandth_pyRound3 _

/-- Every agent estimation's latency is a thousandth. -/
theorem estimateAgentNode_latency_thousandth (env : Env) (node : NodeConfig)
    (conn : List NodeConfig) (ic : Bool) :
    thousandth (estimateAgentNode env node conn ic).latency := by
  have hstl : thousandth (((conn.map (getToolImpact env)).map (·.execution_latency)).sum *
      ((max 1 (orInt node.expected_calls_per_run 1) : ℤ) : ℚ)) := by
    refine thousandth_mul_int _ (thousandth_sum _ ?_)
    intro x hx
    rcases List.mem_map.mp hx with ⟨ti, hti, hx'⟩
    rcases List.mem_map.mp hti with ⟨tn, _, hti'⟩
    rw [← hx', ← hti']
    exact getToolImpact_latency_thousandth env tn
  simp only [estimateAgentNode]
  cases hp : env.priceCat (orStr node.model_provider "") (orStr node.model_name "") with
  | none => exact hstl
  | some pricing => exact thousandth_pyRound3 _

/-- Every breakdown latency is a thousandth. -/
theorem buildBreakdown_latency_thousandth (env : Env) (nodes : List NodeConfig)
    (nm : PyDict NodeConfig) (at_ : PyDict (List String)) (cids : List String) :
    ∀ b ∈ buildBreakdown env nodes nm at_ cids, thousandth b.latency := by
  intro b hb
  simp only [buildBreakdown, List.mem_map] at hb
  rcases hb with ⟨node, hn, hb⟩
  subst hb
  by_cases h1 : node.type = "agentNode"
  · rw [if_pos (show (node.type == "agentNode") = true by simpa using h1)]
    exact estimateAgentNode_latency_thousandth env node _ _
  · rw [if_neg (show ¬(node.type == "agentNode") = true by simpa using h1)]
    by_cases h2 : node.type = "toolNode"
    · rw [if_pos (show (node.type == "toolNode") = true by simpa using h2)]
      exact thousandth_pyRound3 _
    · rw [if_neg (show ¬(node.type == "toolNode") = true by simpa using h2)]
      exact thousandth_zero

/-- Every breakdown entry reports its node's own id, in order. -/
theorem buildBreakdown_node_id (env : Env) (nodes : List NodeConfig)
    (nm : PyDict NodeConfig) (at_ : PyDict (List String)) (cids : List String) :
    (buildBreakdown env nodes nm at_ cids).map (·.node_id) = nodes.map (·.id) := by
  simp only [buildBreakdown, List.map_map]
  refine List.map_congr_left fun node _ => ?_
  simp only [Function.comp_apply]
  by_cases h1 : node.type = "agentNode"
  · rw [if_pos (show (node.type == "agentNode") = true by simpa using h1)]
    exact (estimateAgentNode_fields env node _ _).1
  · rw [if_neg (show ¬(node.type == "agentNode") = true by simpa using h1)]
    by_cases h2 : node.type = "toolNode"
    · rw [if_pos (show (node.type == "toolNode") = true by simpa using h2)]
      rfl
    · rw [if_neg (show ¬(node.type == "toolNode") = true by simpa using h2)]
      rfl

/-! ### Edge-free graphs (C9): the three analyses -/

/-- A same-value `dset` fold from the empty dict lists the bindings. -/
theorem foldl_dset_const {α : Type} (ids : List String) (v : α) (hnd : ids.Nodup) :
    ids.foldl (fun d nid => dset d nid v) [] = ids.map (fun i => (i, v)) := by
  have h := foldl_dset_pairs (fun s => s) (fun _ => v) ids []
    (fun b _ => rfl) (by simpa using hnd)
  simpa using h

/-- Lookup in a constant association list. -/
theorem dget_const_pairs {α : Type} (ids : List String) (v : α) (hnd : ids.Nodup)
    (k : String) (hk : k ∈ ids) : dget (ids.map (fun i => (i, v))) k = some v := by
  have h := dget_map_pairs (fun s => s) (fun _ => v) ids (by simpa using hnd) k hk
  simpa using h

/-- With no edges, Kahn's algorithm returns the nodes in input order. -/
theorem topologicalOrder_no_edges (ids : List String) (hnd : ids.Nodup) :
    topologicalOrder (mkAnalyzer ids []) = ids := by
  have hadj : (mkAnalyzer ids []).adj = [] := rfl
  have hindeg : (mkAnalyzer ids []).in_degree = ids.map (fun i => (i, (0 : ℤ))) := by
    show ids.foldl (fun d nid => dset d nid 0) [] = _
    exact foldl_dset_const ids 0 hnd
  have hfuel : ids.length ≤ kahnFuel (mkAnalyzer ids []) := by
    show ids.length ≤ ids.length + 2 * ([] : List EdgeConfig).length + 1
    omega
  simp only [topologicalOrder]
  rw [hindeg]
  have hq : ((ids.map (fun i => (i, (0 : ℤ)))).filter (fun p => p.2 == 0)).map (·.1) =
      ids := by
    rw [List.filter_eq_self.mpr ?_, List.map_map]
    · show List.map (fun i => i) ids = ids
      exact List.map_id' ids
    · intro p hp
      rcases List.mem_map.mp hp with ⟨i, _, hi⟩
      rw [← hi]
      simp
  rw [hq, kahnLoop_no_adj _ hadj ids (kahnFuel (mkAnalyzer ids [])) hfuel
    (ids.map (fun i => (i, (0 : ℤ)))) []]
  show (if (([] : List String) ++ ids).length == ids.length then ([] ++ ids) else []) = ids
  simp

/-- A `max` fold over zeros is zero. -/
theorem listMaxInt_zero_of_all (l : List ℤ) (h : ∀ x ∈ l, x = 0) :
    listMaxInt 0 l = 0 := by
  induction l with
  | nil => rfl
  | cons a l ih =>
    simp only [listMaxInt, List.foldl_cons] at ih ⊢
    rw [h a (by simp), max_self]
    exact ih fun x hx => h x (by simp [hx])

/-- Reading depths that are all present and zero. -/
theorem depthsOf_const (dep : PyDict ℤ) (ns : List String)
    (h : ∀ n ∈ ns, dget dep n = some 0) :
    depthsOf dep ns = some (ns.map (fun n => (n, (0 : ℤ)))) := by
  induction ns with
  | nil => rfl
  | cons n rest ih =>
    have hstep : depthsOf dep (n :: rest) =
        match dget dep n with
        | none => none
        | some d => (depthsOf dep rest).map ((n, d) :: ·) := rfl
    rw [hstep, h n (by simp), ih fun m hm => h m (by simp [hm])]
    rfl

/-- With no edges, the parallel analysis puts every node in one level. -/
theorem computeParallelSteps_no_edges (ids : List String) (hn : ids ≠ [])
    (hnd : ids.Nodup) :
    computeParallelSteps (mkAnalyzer ids []) = some [ids] := by
  rcases List.exists_cons_of_ne_nil hn with ⟨i0, rest, rfl⟩
  have hadj : (mkAnalyzer (i0 :: rest) []).adj = [] := rfl
  have htopo := topologicalOrder_no_edges (i0 :: rest) hnd
  have hdep : (mkAnalyzer (i0 :: rest) []).node_ids.foldl
      (fun d nid => dset d nid (0 : ℤ)) [] =
      (i0 :: rest).map (fun i => (i, (0 : ℤ))) := foldl_dset_const _ 0 hnd
  have hdo : depthsOf ((i0 :: rest).map (fun i => (i, (0 : ℤ)))) (i0 :: rest) =
      some ((i0 :: rest).map (fun n => (n, (0 : ℤ)))) :=
    depthsOf_const _ _ fun n hnmem => dget_const_pairs _ 0 hnd n hnmem
  simp only [computeParallelSteps]
  rw [htopo, if_neg (by simp [List.isEmpty_iff]), hdep,
    cpsLoop_no_adj _ hadj (i0 :: rest) ((i0 :: rest).map (fun i => (i, (0 : ℤ))))]
  simp only [hdo]
  have hM : (match List.map (fun x => x.2)
        (List.map (fun i => (i, (0 : ℤ))) (i0 :: rest)) with
      | [] => (0 : ℤ)
      | v :: vs => listMaxInt v vs) = 0 := by
    show listMaxInt 0 (List.map (fun x => x.2) (List.map (fun i => (i, (0 : ℤ))) rest)) = 0
    refine listMaxInt_zero_of_all _ ?_
    intro x hx
    rcases List.mem_map.mp hx with ⟨p, hp, hx2⟩
    rcases List.mem_map.mp hp with ⟨i, _, hp2⟩
    rw [← hx2, ← hp2]
  rw [hM]
  simp only [Int.toNat_zero]
  have hbind : ((do
      let a ← List.range (0 + 1)
      pure ((a : ℕ) : ℤ)) : List ℤ) = [(0 : ℤ)] := by decide
  rw [hbind]
  simp only [List.map_cons, List.map_nil]
  congr 1
  have hfil : List.filter (fun p => p.2 == (0 : ℤ))
      ((i0, (0 : ℤ)) :: List.map (fun i => (i, (0 : ℤ))) rest) =
      (i0, (0 : ℤ)) :: List.map (fun i => (i, (0 : ℤ))) rest := by
    refine List.filter_eq_self.mpr ?_
    intro p hp
    rcases List.mem_cons.mp hp with h | h
    · rw [h]
      simp
    · rcases List.mem_map.mp h with ⟨i, _, hi⟩
      rw [← hi]
      simp
  rw [hfil]
  simp only [List.map_cons, List.map_map]
  show [i0 :: List.map (fun n => n) rest] = [i0 :: rest]
  rw [List.map_id']

/-- With no edges, the critical path is a single node whose latency attains
the maximum. -/
theorem weightedCriticalPath_no_edges (i0 : String) (rest : List String)
    (hnd : (i0 :: rest).Nodup) (lm : PyDict ℚ) :
    ∃ e, weightedCriticalPath (mkAnalyzer (i0 :: rest) []) lm = some [e] ∧
      e ∈ i0 :: rest ∧
      dgetD lm e 0 = (rest.map (fun n => dgetD lm n 0)).foldl max (dgetD lm i0 0) := by
  have hadj : (mkAnalyzer (i0 :: rest) []).adj = [] := rfl
  have htopo := topologicalOrder_no_edges (i0 :: rest) hnd
  have hdist : (mkAnalyzer (i0 :: rest) []).node_ids.foldl
      (fun d nid => dset d nid (0 : ℚ)) [] =
      (i0 :: rest).map (fun i => (i, (0 : ℚ))) := foldl_dset_const _ _ hnd
  have hpar : (mkAnalyzer (i0 :: rest) []).node_ids.foldl
      (fun d nid => dset d nid (none : Option String)) [] =
      (i0 :: rest).map (fun i => (i, (none : Option String))) := foldl_dset_const _ _ hnd
  obtain ⟨e, he, hemem, hekey⟩ := wcpMaxBy_key lm
    ((i0 :: rest).map (fun i => (i, (0 : ℚ)))) rest i0 ((0 : ℚ) + dgetD lm i0 0)
    (fun n hnr => dget_const_pairs _ _ hnd n (by simp [hnr])) (zero_add _).symm
  have hememL : e ∈ i0 :: rest := by
    rcases hemem with h | h
    · simp [h]
    · simp [h]
  have hbt : wcpBacktrack ((i0 :: rest).map (fun i => (i, (none : Option String))))
      ((mkAnalyzer (i0 :: rest) []).node_ids.length +
        (mkAnalyzer (i0 :: rest) []).edges.length + 1) [e] e = some [e] := by
    have hstep : wcpBacktrack ((i0 :: rest).map (fun i => (i, (none : Option String))))
        ((mkAnalyzer (i0 :: rest) []).node_ids.length +
          (mkAnalyzer (i0 :: rest) []).edges.length + 1) [e] e =
        match dget ((i0 :: rest).map (fun i => (i, (none : Option String)))) e with
        | none => none
        | some none => some [e]
        | some (some u) =>
          wcpBacktrack ((i0 :: rest).map (fun i => (i, (none : Option String))))
            ((mkAnalyzer (i0 :: rest) []).node_ids.length +
              (mkAnalyzer (i0 :: rest) []).edges.length) ([e] ++ [u]) u := rfl
    rw [hstep, dget_const_pairs _ _ hnd e hememL]
  refine ⟨e, ?_, hememL, by rw [zero_add] at hekey; exact hekey⟩
  simp only [weightedCriticalPath]
  rw [htopo, if_neg (by simp [List.isEmpty_iff]), hdist, hpar,
    wcpLoop_no_adj _ hadj lm (i0 :: rest) ((i0 :: rest).map (fun i => (i, (0 : ℚ))))
      ((i0 :: rest).map (fun i => (i, (none : Option String))))]
  have hsinks : (i0 :: rest).filter
      (fun nid => (adjGet (mkAnalyzer (i0 :: rest) []) nid).isEmpty) = i0 :: rest :=
    List.filter_eq_self.mpr fun a _ => by rw [adjGet, hadj]; rfl
  rw [hsinks, if_neg (by simp [List.isEmpty_iff])]
  show (match dget ((i0 :: rest).map (fun i => (i, (0 : ℚ)))) i0 with
    | none => none
    | some dc =>
      match wcpMaxBy lm ((i0 :: rest).map (fun i => (i, (0 : ℚ)))) i0
          (dc + dgetD lm i0 0) rest with
      | none => none
      | some endNode =>
        match wcpBacktrack ((i0 :: rest).map (fun i => (i, (none : Option String))))
            ((mkAnalyzer (i0 :: rest) []).node_ids.length +
              (mkAnalyzer (i0 :: rest) []).edges.length + 1) [endNode] endNode with
        | none => none
        | some path => some path.reverse) = some [e]
  rw [dget_const_pairs _ (0 : ℚ) hnd i0 (by simp)]
  show (match wcpMaxBy lm ((i0 :: rest).map (fun i => (i, (0 : ℚ)))) i0
      ((0 : ℚ) + dgetD lm i0 0) rest with
    | none => none
    | some endNode =>
      match wcpBacktrack ((i0 :: rest).map (fun i => (i, (none : Option String))))
          ((mkAnalyzer (i0 :: rest) []).node_ids.length +
            (mkAnalyzer (i0 :: rest) []).edges.length + 1) [endNode] endNode with
      | none => none
      | some path => some path.reverse) = some [e]
  rw [he]
  show (match wcpBacktrack ((i0 :: rest).map (fun i => (i, (none : Option String))))
      ((mkAnalyzer (i0 :: rest) []).node_ids.length +
        (mkAnalyzer (i0 :: rest) []).edges.length + 1) [e] e with
    | none => none
    | some path => some path.reverse) = some [e]
  rw [hbt]
  rfl

/-- The reported critical-path latency is the 4-digit rounding of the path's
latency-map sum. -/
theorem ewAssemble_critical_path_latency (env : Env) (nodes : List NodeConfig)
    (edges : List EdgeConfig) (rl : ℤ) (rpd : Option ℤ) (li : Option ℚ)
    (groups : List CycleGroup) (ic : Bool) (cp : List String)
    (steps : List (List String)) :
    (ewAssemble env nodes edges rl rpd li groups ic cp steps).critical_path_latency =
      pyRound ((cp.map (fun nid =>
        dgetD (ewLatencyMap env nodes edges rl li groups ic) nid 0)).sum) 4 := rfl

/-! ### C9 -/

/-- C9: on an edge-free graph (n ≥ 1 nodes with distinct ids), a successful
run reports exactly one parallel level holding all node ids, and the
critical-path latency is the *maximum* single-node latency of the breakdown
(not the sum): the critical path degenerates to the single highest-latency
node, the 4-digit rounding is exact because all latencies have at most three
decimal digits. -/
theorem C9_edge_free (env : Env) (nodes : List NodeConfig) (rl : ℤ)
    (rpd : Option ℤ) (li : Option ℚ) (r : WorkflowEstimation) (hn : nodes ≠ [])
    (hnd : (nodes.map (·.id)).Nodup)
    (h : estimateWorkflow env nodes [] rl rpd li = some r) :
    r.parallel_steps.map (·.node_ids) = [nodes.map (·.id)] ∧
    ∀ l ls, r.breakdown.map (·.latency) = l :: ls →
      r.critical_path_latency = listMaxQ l ls := by
  rcases nodes with _ | ⟨n0, ns⟩
  · exact absurd rfl hn
  rcases estimateWorkflow_some_inv env (n0 :: ns) [] rl rpd li r h with
    ⟨groups, ic, cp, steps, hg, hic, hcp, hsteps, hr⟩
  subst hr
  have hnd' : (n0.id :: ns.map (·.id)).Nodup := by simpa using hnd
  have hps : computeParallelSteps (ewAnalyzer (n0 :: ns) []) =
      some [(n0 :: ns).map (·.id)] := by
    show computeParallelSteps (mkAnalyzer ((n0 :: ns).map (·.id)) []) = _
    exact computeParallelSteps_no_edges ((n0 :: ns).map (·.id)) (by simp)
      (by simpa using hnd)
  have hsteps' : steps = [(n0 :: ns).map (·.id)] :=
    Option.some.inj (hsteps.symm.trans hps)
  constructor
  · have hproj : ((ewAssemble env (n0 :: ns) [] rl rpd li groups ic cp
        steps).parallel_steps).map (·.node_ids) = steps := by
      refine enum_map_proj steps _ _ ?_
      intro p
      rfl
    rw [hproj, hsteps']
  · intro l ls hlls
    rw [ewAssemble_breakdown] at hlls
    obtain ⟨e, hwcp, hemem, hekey⟩ := weightedCriticalPath_no_edges n0.id
      (ns.map (·.id)) hnd' (ewLatencyMap env (n0 :: ns) [] rl li groups ic)
    have hcp' : cp = [e] := Option.some.inj (hcp.symm.trans hwcp)
    have hcore : (ewBreakdown env (n0 :: ns) [] rl li groups ic).map nodeCore =
        (ewBreakdown0 env (n0 :: ns) [] groups).map nodeCore :=
      computeBottleneckShares_core _ _ _
    have hBDids : (ewBreakdown env (n0 :: ns) [] rl li groups ic).map (·.node_id) =
        (n0 :: ns).map (·.id) := by
      rw [map_eq_of_core_eq nodeCore hcore
        (fun b : NodeEstimation => b.node_id) (fun b => rfl)]
      exact buildBreakdown_node_id env (n0 :: ns) _ _ _
    have hndBD : ((ewBreakdown env (n0 :: ns) [] rl li groups ic).map
        (·.node_id)).Nodup := by
      rw [hBDids]
      exact hnd
    have hLM : ewLatencyMap env (n0 :: ns) [] rl li groups ic =
        (ewBreakdown env (n0 :: ns) [] rl li groups ic).map
          (fun b => (b.node_id, b.latency)) := by
      show (ewBreakdown env (n0 :: ns) [] rl li groups ic).foldl
        (fun d b => dset d b.node_id b.latency) [] = _
      exact foldl_dset_pairs (fun b : NodeEstimation => b.node_id)
        (fun b : NodeEstimation => b.latency) _ [] (fun b _ => rfl) hndBD
    have hmapL : ((n0 :: ns).map (·.id)).map
        (fun i => dgetD (ewLatencyMap env (n0 :: ns) [] rl li groups ic) i 0) =
        (ewBreakdown env (n0 :: ns) [] rl li groups ic).map (·.latency) := by
      rw [← hBDids, List.map_map]
      refine List.map_congr_left fun b hb => ?_
      show dgetD (ewLatencyMap env (n0 :: ns) [] rl li groups ic) b.node_id 0 =
        b.latency
      rw [dgetD, hLM, dget_map_pairs (fun b : NodeEstimation => b.node_id)
        (fun b : NodeEstimation => b.latency) _ hndBD b hb]
      rfl
    simp only [List.map_cons] at hmapL
    rw [hlls] at hmapL
    have hl : dgetD (ewLatencyMap env (n0 :: ns) [] rl li groups ic) n0.id 0 = l := by
      injection hmapL
    have hls : (ns.map (·.id)).map
        (fun i => dgetD (ewLatencyMap env (n0 :: ns) [] rl li groups ic) i 0) = ls := by
      injection hmapL
    have hth : ∀ b ∈ ewBreakdown env (n0 :: ns) [] rl li groups ic,
        thousandth b.latency := by
      intro b hb
      rcases mem_map_core nodeCore hcore b hb with ⟨b₂, hb₂, he2⟩
      have hlatEq : b₂.latency = b.latency := by
        have := congrArg NodeEstimation.latency he2
        simpa [nodeCore] using this
      rw [← hlatEq]
      exact buildBreakdown_latency_thousandth env (n0 :: ns) _ _ _ b₂ hb₂
    have hthAll : ∀ y ∈ l :: ls, thousandth y := by
      intro y hy
      rw [← hlls] at hy
      rcases List.mem_map.mp hy with ⟨b, hb, hyb⟩
      rw [← hyb]
      exact hth b hb
    rw [ewAssemble_critical_path_latency, hcp']
    have hsum : (([e]).map (fun nid =>
        dgetD (ewLatencyMap env (n0 :: ns) [] rl li groups ic) nid 0)).sum =
        dgetD (ewLatencyMap env (n0 :: ns) [] rl li groups ic) e 0 := by
      simp
    rw [hsum, hekey, hls, hl]
    show pyRound (ls.foldl max l) 4 = listMaxQ l ls
    have : listMaxQ l ls = ls.foldl max l := rfl
    rw [this]
    exact pyRound4_thousandth _ (thousandth_foldl_max ls l (hthAll l (by simp))
      (fun y hy => hthAll y (by simp [hy])))

set_option maxRecDepth 40000 in
/-- C9 witness: Scenario E — ten independent agents, no edges.  One parallel
level holds all ten ids; the critical-path latency is the maximum single-node
latency 3.13s (node `A9`), and differs from the 30.55s sum. -/
theorem C9_edge_free_witness :
    estimateWorkflow scEnv tenAgents [] 25 none none =
      some (ewAssemble scEnv tenAgents [] 25 none none [] false ["A9"]
        [tenAgents.map (·.id)]) ∧
    (ewAssemble scEnv tenAgents [] 25 none none [] false ["A9"]
        [tenAgents.map (·.id)]).parallel_steps.map (·.node_ids) =
      [tenAgents.map (·.id)] ∧
    (ewAssemble scEnv tenAgents [] 25 none none [] false ["A9"]
        [tenAgents.map (·.id)]).critical_path_latency = 313/100 ∧
    (ewAssemble scEnv tenAgents [] 25 none none [] false ["A9"]
        [tenAgents.map (·.id)]).critical_path_latency ≠
      ((ewAssemble scEnv tenAgents [] 25 none none [] false ["A9"]
        [tenAgents.map (·.id)]).breakdown.map (·.latency)).sum ∧
    (∀ l ls, (ewAssemble scEnv tenAgents [] 25 none none [] false ["A9"]
        [tenAgents.map (·.id)]).breakdown.map (·.latency) = l :: ls →
      (ewAssemble scEnv tenAgents [] 25 none none [] false ["A9"]
        [tenAgents.map (·.id)]).critical_path_latency = listMaxQ l ls) := by
  have hglue : estimateWorkflow scEnv tenAgents [] 25 none none =
      some (ewAssemble scEnv tenAgents [] 25 none none [] false ["A9"]
        [tenAgents.map (·.id)]) := by
    have h1 : cycleGroups (ewAnalyzer tenAgents []) = some [] := by decide
    have h2 : isCyclic (ewAnalyzer tenAgents []) = some false := by decide
    have h4 : weightedCriticalPath (ewAnalyzer tenAgents [])
        (ewLatencyMap scEnv tenAgents [] 25 none [] false) = some ["A9"] := by decide
    have h5 : computeParallelSteps (ewAnalyzer tenAgents []) =
        some [tenAgents.map (·.id)] := by decide
    rw [estimateWorkflow]
    simp only [h1, h2, h4, h5]
  have hmain := C9_edge_free scEnv tenAgents 25 none none _ (by decide) (by decide) hglue
  exact ⟨hglue, hmain.1, by decide, by decide, hmain.2⟩

/-! ### Self-loop graphs (C10): adjacency membership -/

/-- `adjAdd` records the new target. -/
theorem adjAdd_mem (adj : PyDict (List String)) (s t : String) :
    t ∈ dgetD (adjAdd adj s t) s [] := by
  rw [adjAdd]
  cases hd : dget adj s with
  | some l =>
    rw [dgetD, dget_dset, if_pos rfl]
    simp
  | none =>
    have hf : List.find? (fun p => p.1 == s) adj = none := by
      cases hfa : List.find? (fun p => p.1 == s) adj with
      | none => rfl
      | some x => rw [dget, hfa] at hd; exact absurd hd (by simp)
    rw [dgetD, dget, List.find?_append, hf]
    simp [find?_key_cons]

/-- `adjAdd` preserves recorded targets. -/
theorem adjAdd_pres (adj : PyDict (List String)) (s t s' t' : String)
    (h : t ∈ dgetD adj s []) : t ∈ dgetD (adjAdd adj s' t') s [] := by
  rw [adjAdd]
  cases hd : dget adj s' with
  | some l =>
    by_cases hss : s = s'
    · subst hss
      rw [dgetD, dget_dset, if_pos rfl]
      rw [dgetD, hd] at h
      simp only [Option.getD_some] at h ⊢
      exact List.mem_append_left _ h
    · rw [dgetD, dget_dset, if_neg hss]
      exact h
  | none =>
    rw [dgetD, dget, List.find?_append]
    cases hfs : List.find? (fun p => p.1 == s) adj with
    | some x =>
      rw [dgetD, dget, hfs] at h
      exact h
    | none =>
      rw [dgetD, dget, hfs] at h
      simp at h

/-- The init fold preserves recorded adjacency targets. -/
theorem mkAnalyzer_fold_adj_pres (edges : List EdgeConfig) :
    ∀ (st : PyDict (List String) × PyDict ℤ) (s t : String),
      t ∈ dgetD st.1 s [] →
      t ∈ dgetD (edges.foldl (fun p e =>
        let d := dsetD p.2 e.target 0
        (adjAdd p.1 e.source e.target, dset d e.target (dgetD d e.target 0 + 1)))
        st).1 s [] := by
  induction edges with
  | nil => intro st s t h; exact h
  | cons e rest ih =>
    intro st s t h
    rw [List.foldl_cons]
    exact ih _ s t (adjAdd_pres st.1 s t e.source e.target h)

/-- Each edge's target is recorded under its source. -/
theorem mkAnalyzer_adj_mem (ids : List String) (edges : List EdgeConfig)
    (e : EdgeConfig) (he : e ∈ edges) :
    e.target ∈ adjGet (mkAnalyzer ids edges) e.source := by
  suffices hsuf : ∀ (rest : List EdgeConfig) (st : PyDict (List String) × PyDict ℤ),
      e ∈ rest →
      e.target ∈ dgetD (rest.foldl (fun p e =>
        let d := dsetD p.2 e.target 0
        (adjAdd p.1 e.source e.target, dset d e.target (dgetD d e.target 0 + 1)))
        st).1 e.source [] by
    exact hsuf edges _ he
  intro rest
  induction rest with
  | nil => intro st h; exact absurd h (by simp)
  | cons e' rest ih =>
    intro st h
    rw [List.foldl_cons]
    rcases List.mem_cons.mp h with h1 | h1
    · subst h1
      exact mkAnalyzer_fold_adj_pres rest _ e.source e.target
        (adjAdd_mem st.1 e.source e.target)
    · exact ih _ h1

/-! ### Self-loop graphs (C10): the DFS reports a cycle -/

/-- A completed neighbour scan keeps a third node gray. -/
theorem dfsScan_gray_pres (g : GraphAnalyzer) (a : String) (f : ℕ)
    (ihf : ∀ c n fl c2, n ≠ a → dget c a = some Col.gray →
      dfsVisit g f c n = some (fl, c2) → dget c2 a = some Col.gray) :
    ∀ (ns : List String) (c : PyDict Col) (fl : Bool) (c2 : PyDict Col),
      dget c a = some Col.gray →
      dfsScan (dfsVisit g f) c ns = some (fl, c2) → dget c2 a = some Col.gray := by
  intro ns
  induction ns with
  | nil =>
    intro c fl c2 hg h
    have h' : (some (false, c) : Option (Bool × PyDict Col)) = some (fl, c2) := h
    injection h' with h1; injection h1 with h1a h1b
    rw [← h1b]
    exact hg
  | cons n rest ih =>
    intro c fl c2 hg h
    have hstep : dfsScan (dfsVisit g f) c (n :: rest) =
        match dget c n with
        | none => none
        | some Col.gray => some (true, c)
        | some Col.white =>
          match dfsVisit g f c n with
          | none => none
          | some (true, c3) => some (true, c3)
          | some (false, c3) => dfsScan (dfsVisit g f) c3 rest
        | some Col.black => dfsScan (dfsVisit g f) c rest := rfl
    rw [hstep] at h
    cases hn : dget c n with
    | none => rw [hn] at h; exact absurd h (by simp)
    | some col =>
      rw [hn] at h
      cases col with
      | gray =>
        have h' : (some (true, c) : Option (Bool × PyDict Col)) = some (fl, c2) := h
        injection h' with h1; injection h1 with h1a h1b
        rw [← h1b]
        exact hg
      | white =>
        have hna : n ≠ a := fun he => by
          rw [he] at hn
          exact absurd (hg.symm.trans hn) (by simp)
        cases hv : dfsVisit g f c n with
        | none => rw [hv] at h; exact absurd h (by simp)
        | some p =>
          rw [hv] at h
          rcases p with ⟨fl', c3⟩
          cases fl' with
          | true =>
            have h' : (some (true, c3) : Option (Bool × PyDict Col)) = some (fl, c2) := h
            injection h' with h1; injection h1 with h1a h1b
            rw [← h1b]
            exact ihf c n true c3 hna hg hv
          | false => exact ih c3 fl c2 (ihf c n false c3 hna hg hv) h
      | black => exact ih c fl c2 hg h

/-- A completed visit of another node keeps a third node gray. -/
theorem dfsVisit_gray_pres (g : GraphAnalyzer) (a : String) :
    ∀ f c n fl c2, n ≠ a → dget c a = some Col.gray →
      dfsVisit g f c n = some (fl, c2) → dget c2 a = some Col.gray := by
  intro f
  induction f with
  | zero => intro c n fl c2 _ _ h; exact absurd h (by simp [dfsVisit])
  | succ f ih =>
    intro c n fl c2 hna hg h
    have hstep : dfsVisit g (f + 1) c n =
        match dfsScan (dfsVisit g f) (dset c n Col.gray) (adjGet g n) with
        | none => none
        | some (true, c3) => some (true, c3)
        | some (false, c3) => some (false, dset c3 n Col.black) := rfl
    rw [hstep] at h
    have hg1 : dget (dset c n Col.gray) a = some Col.gray := by
      rw [dget_dset, if_neg (Ne.symm hna)]
      exact hg
    cases hs : dfsScan (dfsVisit g f) (dset c n Col.gray) (adjGet g n) with
    | none => rw [hs] at h; exact absurd h (by simp)
    | some p =>
      rw [hs] at h
      rcases p with ⟨fl', c3⟩
      have hc3 : dget c3 a = some Col.gray :=
        dfsScan_gray_pres g a f ih _ _ _ _ hg1 hs
      cases fl' with
      | true =>
        have h' : (some (true, c3) : Option (Bool × PyDict Col)) = some (fl, c2) := h
        injection h' with h1; injection h1 with h1a h1b
        rw [← h1b]
        exact hc3
      | false =>
        have h' : (some (false, dset c3 n Col.black) : Option (Bool × PyDict Col)) =
          some (fl, c2) := h
        injection h' with h1; injection h1 with h1a h1b
        rw [← h1b, dget_dset, if_neg (Ne.symm hna)]
        exact hc3

/-- A scan whose member list contains a gray node cannot report "no cycle". -/
theorem dfsScan_self_true (g : GraphAnalyzer) (a : String) (f : ℕ) :
    ∀ (ns : List String) (c : PyDict Col) (fl : Bool) (c2 : PyDict Col),
      a ∈ ns → dget c a = some Col.gray →
      dfsScan (dfsVisit g f) c ns = some (fl, c2) → fl = true := by
  intro ns
  induction ns with
  | nil => intro c fl c2 ha _ _; exact absurd ha (by simp)
  | cons n rest ih =>
    intro c fl c2 ha hg h
    have hstep : dfsScan (dfsVisit g f) c (n :: rest) =
        match dget c n with
        | none => none
        | some Col.gray => some (true, c)
        | some Col.white =>
          match dfsVisit g f c n with
          | none => none
          | some (true, c3) => some (true, c3)
          | some (false, c3) => dfsScan (dfsVisit g f) c3 rest
        | some Col.black => dfsScan (dfsVisit g f) c rest := rfl
    rw [hstep] at h
    by_cases hn_a : n = a
    · rw [hn_a, hg] at h
      have h' : (some (true, c) : Option (Bool × PyDict Col)) = some (fl, c2) := h
      injection h' with h1; injection h1 with h1a h1b
      exact h1a.symm
    · have ha' : a ∈ rest := by
        rcases List.mem_cons.mp ha with h1 | h1
        · exact absurd h1.symm hn_a
        · exact h1
      cases hn : dget c n with
      | none => rw [hn] at h; exact absurd h (by simp)
      | some col =>
        rw [hn] at h
        cases col with
        | gray =>
          have h' : (some (true, c) : Option (Bool × PyDict Col)) = some (fl, c2) := h
          injection h' with h1; injection h1 with h1a h1b
          exact h1a.symm
        | white =>
          cases hv : dfsVisit g f c n with
          | none => rw [hv] at h; exact absurd h (by simp)
          | some p =>
            rw [hv] at h
            rcases p with ⟨fl', c3⟩
            cases fl' with
            | true =>
              have h' : (some (true, c3) : Option (Bool × PyDict Col)) = some (fl, c2) := h
              injection h' with h1; injection h1 with h1a h1b
              exact h1a.symm
            | false =>
              exact ih c3 fl c2 ha' (dfsVisit_gray_pres g a f c n false c3 hn_a hg hv) h
        | black => exact ih c fl c2 ha' hg h

/-- Visiting a self-loop node always reports a cycle. -/
theorem dfsVisit_self_true (g : GraphAnalyzer) (a : String)
    (hself : a ∈ adjGet g a) (f : ℕ) (c : PyDict Col) (fl : Bool) (c2 : PyDict Col)
    (h : dfsVisit g (f + 1) c a = some (fl, c2)) : fl = true := by
  have hstep : dfsVisit g (f + 1) c a =
      match dfsScan (dfsVisit g f) (dset c a Col.gray) (adjGet g a) with
      | none => none
      | some (true, c3) => some (true, c3)
      | some (false, c3) => some (false, dset c3 a Col.black) := rfl
  rw [hstep] at h
  have hg1 : dget (dset c a Col.gray) a = some Col.gray := by
    rw [dget_dset, if_pos rfl]
  cases hs : dfsScan (dfsVisit g f) (dset c a Col.gray) (adjGet g a) with
  | none => rw [hs] at h; exact absurd h (by simp)
  | some p =>
    rw [hs] at h
    rcases p with ⟨fl', c3⟩
    have hfl' : fl' = true := dfsScan_self_true g a f (adjGet g a) _ fl' c3 hself hg1 hs
    subst hfl'
    have h' : (some (true, c3) : Option (Bool × PyDict Col)) = some (fl, c2) := h
    injection h' with h1; injection h1 with h1a h1b
    exact h1a.symm

/-- A visit that reports "no cycle" leaves a self-loop node white. -/
theorem dfsVisit_keeps_white (g : GraphAnalyzer) (a : String)
    (hself : a ∈ adjGet g a) :
    ∀ f c n c2, dget c a = some Col.white →
      dfsVisit g f c n = some (false, c2) → dget c2 a = some Col.white := by
  intro f
  induction f with
  | zero => intro c n c2 _ h; exact absurd h (by simp [dfsVisit])
  | succ f ih =>
    intro c n c2 hw h
    by_cases hna : n = a
    · have := dfsVisit_self_true g a hself f c false c2 (hna ▸ h)
      exact absurd this (by simp)
    · have hstep : dfsVisit g (f + 1) c n =
          match dfsScan (dfsVisit g f) (dset c n Col.gray) (adjGet g n) with
          | none => none
          | some (true, c3) => some (true, c3)
          | some (false, c3) => some (false, dset c3 n Col.black) := rfl
      rw [hstep] at h
      have hw1 : dget (dset c n Col.gray) a = some Col.white := by
        rw [dget_dset, if_neg (Ne.symm hna)]
        exact hw
      have hscan : ∀ (ns : List String) (c' c2' : PyDict Col),
          dget c' a = some Col.white →
          dfsScan (dfsVisit g f) c' ns = some (false, c2') →
          dget c2' a = some Col.white := by
        intro ns
        induction ns with
        | nil =>
          intro c' c2' hw' h'
          have h'' : (some (false, c') : Option (Bool × PyDict Col)) =
            some (false, c2') := h'
          injection h'' with h1; injection h1 with h1a h1b
          rw [← h1b]
          exact hw'
        | cons m rest ihs =>
          intro c' c2' hw' h'
          have hstep' : dfsScan (dfsVisit g f) c' (m :: rest) =
              match dget c' m with
              | none => none
              | some Col.gray => some (true, c')
              | some Col.white =>
                match dfsVisit g f c' m with
                | none => none
                | some (true, c3) => some (true, c3)
                | some (false, c3) => dfsScan (dfsVisit g f) c3 rest
              | some Col.black => dfsScan (dfsVisit g f) c' rest := rfl
          rw [hstep'] at h'
          cases hm : dget c' m with
          | none => rw [hm] at h'; exact absurd h' (by simp)
          | some col =>
            rw [hm] at h'
            cases col with
            | gray =>
              have h'' : (some (true, c') : Option (Bool × PyDict Col)) =
                some (false, c2') := h'
              injection h'' with h1; injection h1 with h1a h1b
              exact absurd h1a (by simp)
            | white =>
              by_cases hma : m = a
              · cases f with
                | zero =>
                  have hv : dfsVisit g 0 c' m = none := rfl
                  rw [hv] at h'
                  exact Option.noConfusion h'
                | succ f' =>
                  cases hv : dfsVisit g (f' + 1) c' m with
                  | none => rw [hv] at h'; exact absurd h' (by simp)
                  | some p =>
                    rw [hv] at h'
                    rcases p with ⟨fl', c3⟩
                    have hfl' : fl' = true :=
                      dfsVisit_self_true g a hself f' c' fl' c3 (hma ▸ hv)
                    subst hfl'
                    have h'' : (some (true, c3) : Option (Bool × PyDict Col)) =
                      some (false, c2') := h'
                    injection h'' with h1; injection h1 with h1a h1b
                    exact absurd h1a (by simp)
              · cases hv : dfsVisit g f c' m with
                | none => rw [hv] at h'; exact absurd h' (by simp)
                | some p =>
                  rw [hv] at h'
                  rcases p with ⟨fl', c3⟩
                  cases fl' with
                  | true =>
                    have h'' : (some (true, c3) : Option (Bool × PyDict Col)) =
                      some (false, c2') := h'
                    injection h'' with h1; injection h1 with h1a h1b
                    exact absurd h1a (by simp)
                  | false => exact ihs c3 c2' (ih c' m c3 hw' hv) h'
            | black => exact ihs c' c2' hw' h'
      cases hs : dfsScan (dfsVisit g f) (dset c n Col.gray) (adjGet g n) with
      | none => rw [hs] at h; exact absurd h (by simp)
      | some p =>
        rw [hs] at h
        rcases p with ⟨fl', c3⟩
        cases fl' with
        | true =>
          have h' : (some (true, c3) : Option (Bool × PyDict Col)) =
            some (false, c2) := h
          injection h' with h1; injection h1 with h1a h1b
          exact absurd h1a (by simp)
        | false =>
          have h' : (some (false, dset c3 n Col.black) : Option (Bool × PyDict Col)) =
            some (false, c2) := h
          injection h' with h1; injection h1 with h1a h1b
          rw [← h1b, dget_dset, if_neg (Ne.symm hna)]
          exact hscan (adjGet g n) (dset c n Col.gray) c3 hw1 hs

/-- The outer cycle loop never reports "acyclic" while a white self-loop node
remains. -/
theorem anyCyc_ne_false (g : GraphAnalyzer) (a : String)
    (hself : a ∈ adjGet g a) :
    ∀ (ns : List String) (color : PyDict Col), a ∈ ns →
      dget color a = some Col.white → anyCyc g color ns ≠ some false := by
  intro ns
  induction ns with
  | nil => intro color ha _ _; exact absurd ha (by simp)
  | cons nid rest ih =>
    intro color ha hw h
    have hstep : anyCyc g color (nid :: rest) =
        match dget color nid with
        | none => none
        | some c =>
          if c = Col.white then
            match dfsVisit g (dfsFuel g) color nid with
            | none => none
            | some (true, _) => some true
            | some (false, c2) => anyCyc g c2 rest
          else anyCyc g color rest := rfl
    rw [hstep] at h
    cases hn : dget color nid with
    | none => rw [hn] at h; simp at h
    | some c =>
      rw [hn] at h
      cases c with
      | white =>
        have h2 : (match dfsVisit g (dfsFuel g) color nid with
            | none => none
            | some (true, _) => some true
            | some (false, c2) => anyCyc g c2 rest) = some false := h
        by_cases hna : nid = a
        · cases hv : dfsVisit g (dfsFuel g) color nid with
          | none => rw [hv] at h2; simp at h2
          | some p =>
            rcases p with ⟨fl', c3⟩
            have hva : dfsVisit g (g.node_ids.length + 1) color a = some (fl', c3) := by
              rw [← hna]
              exact hv
            have hfl := dfsVisit_self_true g a hself g.node_ids.length color fl' c3 hva
            subst hfl
            rw [hv] at h2
            simp at h2
        · cases hv : dfsVisit g (dfsFuel g) color nid with
          | none => rw [hv] at h2; simp at h2
          | some p =>
            rcases p with ⟨fl', c3⟩
            rw [hv] at h2
            cases fl' with
            | true => simp at h2
            | false =>
              have hw3 : dget c3 a = some Col.white :=
                dfsVisit_keeps_white g a hself (dfsFuel g) color nid c3 hw hv
              have ha' : a ∈ rest := by
                rcases List.mem_cons.mp ha with h1 | h1
                · exact absurd h1.symm hna
                · exact h1
              exact ih c3 ha' hw3 h2
      | gray =>
        have h2 : anyCyc g color rest = some false := h
        have hna : nid ≠ a := fun he =>
          Col.noConfusion (Option.some.inj ((he ▸ hn).symm.trans hw))
        have ha' : a ∈ rest := by
          rcases List.mem_cons.mp ha with h1 | h1
          · exact absurd h1.symm hna
          · exact h1
        exact ih color ha' hw h2
      | black =>
        have h2 : anyCyc g color rest = some false := h
        have hna : nid ≠ a := fun he =>
          Col.noConfusion (Option.some.inj ((he ▸ hn).symm.trans hw))
        have ha' : a ∈ rest := by
          rcases List.mem_cons.mp ha with h1 | h1
          · exact absurd h1.symm hna
          · exact h1
        exact ih color ha' hw h2

/-- A self-loop on a listed node forces `is_cyclic` away from `False`. -/
theorem isCyclic_self_loop (ids : List String) (edges : List EdgeConfig)
    (a : String) (hmem : a ∈ ids)
    (hself : a ∈ adjGet (mkAnalyzer ids edges) a) :
    isCyclic (mkAnalyzer ids edges) ≠ some false := by
  have hw : dget (initColor ids) a = some Col.white := by
    show dget (ids.foldl (fun d nid => dset d nid Col.white) []) a = some Col.white
    rw [dget_foldl_dset, if_pos (by simpa using hmem)]
  exact anyCyc_ne_false (mkAnalyzer ids edges) a hself ids (initColor ids) hmem hw

/-- Size-1 SCCs are all filtered out of the cycle groups. -/
theorem cgLoop_all_singletons (g : GraphAnalyzer) :
    ∀ (sccs : List (List String)) (acc : List CycleGroup),
      (∀ scc ∈ sccs, scc.length < 2) → cgLoop g acc sccs = some acc := by
  intro sccs
  induction sccs with
  | nil => intro acc _; rfl
  | cons scc rest ih =>
    intro acc h
    have hstep : cgLoop g acc (scc :: rest) =
        if scc.length < 2 then cgLoop g acc rest
        else match findBackEdges g scc with
          | none => none
          | some be => cgLoop g (acc ++ [⟨scc, be⟩]) rest := rfl
    rw [hstep, if_pos (h scc (by simp))]
    exact ih acc fun s hs => h s (by simp [hs])

/-! ### C10 -/

/-- C10: for every successful run on a graph whose only cycles are self-loops
— some listed node carries a self-loop edge, and every Tarjan component has
size 1 — the output reports `graph_type = "CYCLIC"` yet an empty
`detected_cycles`, absent token/cost/latency ranges, headline totals equal to
the plain single-pass sums over the breakdown (tokens/input/output exactly,
cost and latency under the documented 8- resp. 3-digit rounding), and a
sensitivity readout with `min = avg = max` for both cost and latency. -/
theorem C10_self_loops_only (env : Env) (nodes : List NodeConfig)
    (edges : List EdgeConfig) (rl : ℤ) (rpd : Option ℤ) (li : Option ℚ)
    (r : WorkflowEstimation)
    (hsl : ∃ e ∈ edges, e.target = e.source ∧
      e.source ∈ nodes.map (fun n : NodeConfig => n.id))
    (hscc : ∀ sccs, computeSccs (ewAnalyzer nodes edges) = some sccs →
      ∀ scc ∈ sccs, scc.length = 1)
    (h : estimateWorkflow env nodes edges rl rpd li = some r) :
    r.graph_type = "CYCLIC" ∧ r.detected_cycles = [] ∧
    r.token_range = none ∧ r.cost_range = none ∧ r.latency_range = none ∧
    r.total_tokens = (r.breakdown.map (fun b : NodeEstimation => b.tokens)).sum ∧
    r.total_input_tokens =
      (r.breakdown.map (fun b : NodeEstimation => b.input_tokens)).sum ∧
    r.total_output_tokens =
      (r.breakdown.map (fun b : NodeEstimation => b.output_tokens)).sum ∧
    r.total_cost = pyRound ((r.breakdown.map (fun b : NodeEstimation => b.cost)).sum) 8 ∧
    r.total_latency =
      pyRound ((r.breakdown.map (fun b : NodeEstimation => b.latency)).sum) 3 ∧
    ∀ s, r.sensitivity = some s →
      s.cost_min = s.cost_avg ∧ s.cost_avg = s.cost_max ∧
      s.latency_min = s.latency_avg ∧ s.latency_avg = s.latency_max := by
  rcases estimateWorkflow_some_inv env nodes edges rl rpd li r h with
    ⟨groups, ic, cp, steps, hg, hic, hcp, hsteps, hr⟩
  have hgroups : groups = [] := by
    have hg' : (match computeSccs (ewAnalyzer nodes edges) with
        | none => none
        | some sccs => cgLoop (ewAnalyzer nodes edges) [] sccs) = some groups := hg
    cases hsccs : computeSccs (ewAnalyzer nodes edges) with
    | none => rw [hsccs] at hg'; exact absurd hg' (by simp)
    | some sccs =>
      rw [hsccs] at hg'
      have hg'' : cgLoop (ewAnalyzer nodes edges) [] sccs = some groups := hg'
      rw [cgLoop_all_singletons (ewAnalyzer nodes edges) sccs []
        (fun s hs => by rw [hscc sccs hsccs s hs]; decide)] at hg''
      exact (Option.some.inj hg'').symm
  rcases hsl with ⟨e, hemem, hloop, hsrc⟩
  have hself : e.source ∈ adjGet (ewAnalyzer nodes edges) e.source := by
    have hm := mkAnalyzer_adj_mem (nodes.map (fun n : NodeConfig => n.id)) edges e hemem
    rw [hloop] at hm
    exact hm
  have hict : ic = true := by
    cases ic with
    | true => rfl
    | false =>
      exact absurd hic (isCyclic_self_loop (nodes.map (fun n : NodeConfig => n.id))
        edges e.source hsrc hself)
  subst hgroups
  subst hict
  subst hr
  have hbd : (ewAssemble env nodes edges rl rpd li [] true cp steps).breakdown =
      computeBottleneckShares (ewBreakdown0 env nodes edges [])
        (pyRound (((ewBreakdown0 env nodes edges []).map
          (fun b : NodeEstimation => b.cost)).sum) 8)
        (pyRound (((ewBreakdown0 env nodes edges []).map
          (fun b : NodeEstimation => b.latency)).sum) 3) := rfl
  refine ⟨rfl, rfl, rfl, rfl, rfl, ?_, ?_, ?_, ?_, ?_, ?_⟩
  · rw [hbd, map_eq_of_core_eq nodeCore (computeBottleneckShares_core _ _ _)
      (fun b : NodeEstimation => b.tokens) (fun b => rfl)]
    rfl
  · rw [hbd, map_eq_of_core_eq nodeCore (computeBottleneckShares_core _ _ _)
      (fun b : NodeEstimation => b.input_tokens) (fun b => rfl)]
    rfl
  · rw [hbd, map_eq_of_core_eq nodeCore (computeBottleneckShares_core _ _ _)
      (fun b : NodeEstimation => b.output_tokens) (fun b => rfl)]
    rfl
  · rw [hbd, map_eq_of_core_eq nodeCore (computeBottleneckShares_core _ _ _)
      (fun b : NodeEstimation => b.cost) (fun b => rfl)]
    rfl
  · rw [hbd, map_eq_of_core_eq nodeCore (computeBottleneckShares_core _ _ _)
      (fun b : NodeEstimation => b.latency) (fun b => rfl)]
    rfl
  · intro s hs
    have h1 := Option.some.inj
      ((ewAssemble_sensitivity env nodes edges rl rpd li [] true cp steps).symm.trans hs)
    rw [← h1]
    exact ⟨rfl, rfl, rfl, rfl⟩

/-- Concrete instance of C10: one agent `A` with the single self-loop edge
`A → A` under recursion limit 25. -/
theorem C10_self_loops_only_witness :
    estimateWorkflow scEnv [agA] [⟨"A", "A"⟩] 25 none none = some c10W ∧
    c10W.graph_type = "CYCLIC" ∧ c10W.detected_cycles = [] ∧
    c10W.token_range = none ∧ c10W.cost_range = none ∧ c10W.latency_range = none ∧
    c10W.total_tokens = (c10W.breakdown.map (fun b : NodeEstimation => b.tokens)).sum ∧
    c10W.total_input_tokens =
      (c10W.breakdown.map (fun b : NodeEstimation => b.input_tokens)).sum ∧
    c10W.total_output_tokens =
      (c10W.breakdown.map (fun b : NodeEstimation => b.output_tokens)).sum ∧
    c10W.total_cost =
      pyRound ((c10W.breakdown.map (fun b : NodeEstimation => b.cost)).sum) 8 ∧
    c10W.total_latency =
      pyRound ((c10W.breakdown.map (fun b : NodeEstimation => b.latency)).sum) 3 ∧
    ∀ s, c10W.sensitivity = some s →
      s.cost_min = s.cost_avg ∧ s.cost_avg = s.cost_max ∧
      s.latency_min = s.latency_avg ∧ s.latency_avg = s.latency_max := by
  have hglue : estimateWorkflow scEnv [agA] [⟨"A", "A"⟩] 25 none none = some c10W := by
    have h1 : cycleGroups (ewAnalyzer [agA] [⟨"A", "A"⟩]) = some [] := by decide
    have h2 : isCyclic (ewAnalyzer [agA] [⟨"A", "A"⟩]) = some true := by decide
    have h4 : weightedCriticalPath (ewAnalyzer [agA] [⟨"A", "A"⟩])
        (ewLatencyMap scEnv [agA] [⟨"A", "A"⟩] 25 none [] true) = some ["A"] := by decide
    have h5 : computeParallelSteps (ewAnalyzer [agA] [⟨"A", "A"⟩]) =
        some [["A"]] := by decide
    rw [estimateWorkflow]
    simp only [h1, h2, h4, h5]
    rfl
  have hmain := C10_self_loops_only scEnv [agA] [⟨"A", "A"⟩] 25 none none c10W
    ⟨⟨"A", "A"⟩, by decide, rfl, by decide⟩
    (by
      intro sccs hs
      have hval : computeSccs (ewAnalyzer [agA] [⟨"A", "A"⟩]) = some [["A"]] := by decide
      rw [hval] at hs
      have hs' := Option.some.inj hs
      subst hs'
      simp)
    hglue
  exact ⟨hglue, hmain⟩

/-! ### Kahn's algorithm (C6): dictionary shape lemmas -/

/-- Membership in a keyed pair map. -/
theorem dmem_pairs (ids : List String) (f : String → ℤ) (k : String) :
    dmem (ids.map (fun v => (v, f v))) k = ids.contains k := by
  induction ids with
  | nil => rfl
  | cons a l ih =>
    rw [List.map_cons, dmem, find?_key_cons]
    by_cases h : a = k
    · subst h
      simp
    · rw [if_neg (by simpa using h)]
      rw [dmem] at ih
      rw [ih]
      simp only [List.contains_cons]
      rw [show (k == a) = false from by simpa using fun he => h he.symm]
      simp

/-- Lookup in a keyed pair map (any occurrence yields the same value). -/
theorem dget_pairs (ids : List String) (f : String → ℤ) (k : String) (hk : k ∈ ids) :
    dget (ids.map (fun v => (v, f v))) k = some (f k) := by
  induction ids with
  | nil => cases hk
  | cons a l ih =>
    rw [List.map_cons, dget_cons]
    by_cases h : a = k
    · subst h
      simp
    · rw [if_neg (by simpa using h)]
      rcases List.mem_cons.mp hk with h1 | h1
      · exact absurd h1.symm h
      · exact ih h1

/-- Lookup in a keyed pair map at an absent key. -/
theorem dget_pairs_not_mem (ids : List String) (f : String → ℤ) (k : String)
    (hk : k ∉ ids) : dget (ids.map (fun v => (v, f v))) k = none := by
  induction ids with
  | nil => rfl
  | cons a l ih =>
    have hak : ¬a = k := fun h => hk (List.mem_cons.mpr (Or.inl h.symm))
    rw [List.map_cons, dget_cons, if_neg (by simpa using hak)]
    exact ih (fun h => hk (List.mem_cons_of_mem a h))

/-- Overwriting one key of a keyed pair map. -/
theorem dset_pairs (ids : List String) (f : String → ℤ) (k : String) (x : ℤ)
    (hk : k ∈ ids) :
    dset (ids.map (fun v => (v, f v))) k x =
      ids.map (fun v => (v, if v = k then x else f v)) := by
  rw [dset, if_pos (by rw [dmem_pairs]; simpa using hk), List.map_map]
  refine List.map_congr_left ?_
  intro v _
  by_cases h : v = k
  · subst h
    simp
  · simp [h]

/-- Project the first component out of the init fold of `mkAnalyzer`. -/
theorem foldl_pair_fst {α β γ : Type} (l : List γ) (F : α × β → γ → α × β)
    (G : α → γ → α) (hFG : ∀ p e, (F p e).1 = G p.1 e) :
    ∀ st, (l.foldl F st).1 = l.foldl G st.1 := by
  induction l with
  | nil => intro st; rfl
  | cons e rest ih =>
    intro st
    rw [List.foldl_cons, List.foldl_cons, ih, hFG]

/-- Project the second component out of the init fold of `mkAnalyzer`. -/
theorem foldl_pair_snd {α β γ : Type} (l : List γ) (F : α × β → γ → α × β)
    (G : β → γ → β) (hFG : ∀ p e, (F p e).2 = G p.2 e) :
    ∀ st, (l.foldl F st).2 = l.foldl G st.2 := by
  induction l with
  | nil => intro st; rfl
  | cons e rest ih =>
    intro st
    rw [List.foldl_cons, List.foldl_cons, ih, hFG]

/-- The stored adjacency list after one `adjAdd`. -/
theorem adjAdd_getD (adj : PyDict (List String)) (s t u : String) :
    dgetD (adjAdd adj s t) u [] =
      if s = u then dgetD adj u [] ++ [t] else dgetD adj u [] := by
  rw [adjAdd]
  cases hd : dget adj s with
  | some l =>
    by_cases hsu : s = u
    · subst hsu
      rw [if_pos rfl, dgetD, dget_dset, if_pos rfl, dgetD, hd]
      rfl
    · rw [if_neg hsu, dgetD, dget_dset, if_neg (fun h => hsu h.symm)]
      rfl
  | none =>
    have hf : List.find? (fun p => p.1 == s) adj = none := by
      cases hfa : List.find? (fun p => p.1 == s) adj with
      | none => rfl
      | some x => rw [dget, hfa] at hd; exact absurd hd (by simp)
    by_cases hsu : s = u
    · subst hsu
      rw [if_pos rfl, dgetD, dget, List.find?_append, hf, dgetD, dget, hf]
      simp [find?_key_cons]
    · rw [if_neg hsu, dgetD, dget, List.find?_append]
      cases hfu : List.find? (fun p => p.1 == u) adj with
      | some x =>
        rw [dgetD, dget, hfu]
        rfl
      | none =>
        rw [dgetD, dget, hfu]
        simp [find?_key_cons, hsu]

/-- A fold of `adjAdd`s stores, under each key, the targets of its edges in
order. -/
theorem foldl_adjAdd_getD (edges : List EdgeConfig) :
    ∀ (adj : PyDict (List String)) (u : String),
      dgetD (edges.foldl (fun a e => adjAdd a e.source e.target) adj) u [] =
        dgetD adj u [] ++ (edges.filter (fun e => e.source == u)).map (·.target) := by
  induction edges with
  | nil => intro adj u; simp
  | cons e rest ih =>
    intro adj u
    rw [List.foldl_cons, ih, adjAdd_getD]
    by_cases hsu : e.source = u
    · rw [if_pos hsu, List.filter_cons_of_pos (by simpa using hsu)]
      simp
    · rw [if_neg hsu, List.filter_cons_of_neg (by simpa using hsu)]

/-- `self.adj.get(u, [])` on the built analyzer: the targets of `u`'s
out-edges in input order. -/
theorem adjGet_mkAnalyzer (ids : List String) (edges : List EdgeConfig) (u : String) :
    adjGet (mkAnalyzer ids edges) u =
      (edges.filter (fun e => e.source == u)).map (·.target) := by
  have h1 : (mkAnalyzer ids edges).adj =
      edges.foldl (fun a e => adjAdd a e.source e.target) [] :=
    foldl_pair_fst edges _ (fun a e => adjAdd a e.source e.target) (fun p e => rfl)
      ([], ids.foldl (fun d nid => dset d nid 0) [])
  show dgetD (mkAnalyzer ids edges).adj u [] = _
  rw [h1, foldl_adjAdd_getD]
  rfl

/-- One in-degree increment on a keyed pair map. -/
theorem indegStep_pairs (ids : List String) (f : String → ℤ) (t : String)
    (ht : t ∈ ids) :
    dset (dsetD (ids.map (fun v => (v, f v))) t 0) t
        (dgetD (dsetD (ids.map (fun v => (v, f v))) t 0) t 0 + 1) =
      ids.map (fun v => (v, if v = t then f v + 1 else f v)) := by
  have hmem : dmem (ids.map (fun v => (v, f v))) t = true := by
    rw [dmem_pairs]
    simpa using ht
  rw [dsetD, if_pos hmem, dgetD, dget_pairs ids f t ht]
  show dset (ids.map (fun v => (v, f v))) t (f t + 1) = _
  rw [dset_pairs ids f t (f t + 1) ht]
  refine List.map_congr_left ?_
  intro v _
  by_cases h : v = t
  · subst h
    simp
  · simp [h]

/-- The in-degree fold counts edge targets. -/
theorem foldl_indeg_pairs (ids : List String) :
    ∀ (es : List EdgeConfig) (f : String → ℤ),
      (∀ e ∈ es, e.target ∈ ids) →
      es.foldl (fun d e =>
          dset (dsetD d e.target 0) e.target (dgetD (dsetD d e.target 0) e.target 0 + 1))
        (ids.map (fun v => (v, f v))) =
      ids.map (fun v => (v, f v + (es.countP (fun e => e.target == v) : ℤ))) := by
  intro es
  induction es with
  | nil =>
    intro f _
    refine (List.map_congr_left ?_).symm
    intro v _
    simp
  | cons e rest ih =>
    intro f hcl
    rw [List.foldl_cons, indegStep_pairs ids f e.target (hcl e (by simp))]
    rw [ih (fun v => if v = e.target then f v + 1 else f v)
      (fun e' he' => hcl e' (by simp [he']))]
    refine List.map_congr_left ?_
    intro v _
    by_cases h : v = e.target
    · subst h
      rw [if_pos rfl, List.countP_cons_of_pos _ _ (by simp)]
      push_cast
      ring_nf
    · rw [if_neg h, List.countP_cons_of_neg _ _
        (by simpa using fun he => h he.symm)]

/-- The built `in_degree` dict: the listed nodes in order, each with its
incoming edge count. -/
theorem in_degree_mkAnalyzer (ids : List String) (edges : List EdgeConfig)
    (hnd : ids.Nodup) (hcl : ∀ e ∈ edges, e.target ∈ ids) :
    (mkAnalyzer ids edges).in_degree =
      ids.map (fun v => (v, remCount edges [] v)) := by
  have h2 : (mkAnalyzer ids edges).in_degree =
      edges.foldl (fun d e =>
        dset (dsetD d e.target 0) e.target (dgetD (dsetD d e.target 0) e.target 0 + 1))
        (ids.foldl (fun d nid => dset d nid 0) []) :=
    foldl_pair_snd edges _ _ (fun p e => rfl)
      ([], ids.foldl (fun d nid => dset d nid 0) [])
  rw [h2, foldl_dset_const ids 0 hnd,
    foldl_indeg_pairs ids edges (fun _ => 0) hcl]
  refine List.map_congr_left ?_
  intro v _
  rw [remCount]
  refine congrArg _ ?_
  rw [show ((0 : ℤ) + (edges.countP (fun e => e.target == v) : ℤ)) =
    (edges.countP (fun e => e.target == v) : ℤ) from by ring]
  refine congrArg _ ?_
  refine List.countP_congr ?_
  intro e _
  simp

/-- The initial Kahn queue: the zero-in-degree nodes in input order. -/
theorem kahn_initial_queue (ids : List String) (edges : List EdgeConfig)
    (hnd : ids.Nodup) (hcl : ∀ e ∈ edges, e.target ∈ ids) :
    (((mkAnalyzer ids edges).in_degree.filter (fun p => p.2 == 0)).map (·.1)) =
      ids.filter (fun v => remCount edges [] v == 0) := by
  rw [in_degree_mkAnalyzer ids edges hnd hcl, List.filter_map, List.map_map]
  refine Eq.trans (List.map_congr_left (fun v _ => rfl)) (List.map_id _)

/-- Splitting the unprocessed-edge count at a newly emitted node. -/
theorem remCount_append_single (edges : List EdgeConfig) (L : List String)
    (u v : String) (hu : u ∉ L) :
    remCount edges L v =
      remCount edges (L ++ [u]) v +
        (edges.countP (fun e => e.target == v && e.source == u) : ℤ) := by
  induction edges with
  | nil => simp [remCount]
  | cons e rest ih =>
    simp only [remCount, List.countP_cons] at ih ⊢
    push_cast at ih ⊢
    by_cases ht : e.target = v
    · by_cases hs : e.source = u
      · have h1 : (e.target == v && !(L.contains e.source)) = true := by
          simp [ht, hs, hu]
        have h2 : (e.target == v && !((L ++ [u]).contains e.source)) = false := by
          simp [ht, hs]
        have h3 : (e.target == v && e.source == u) = true := by simp [ht, hs]
        rw [h1, h2, h3]
        simp only [eq_self_iff_true, if_true, Bool.false_eq_true, if_false]
        omega
      · have h3 : (e.target == v && e.source == u) = false := by simp [hs]
        by_cases hsl : e.source ∈ L
        · have h1 : (e.target == v && !(L.contains e.source)) = false := by
            simp [hsl]
          have h2 : (e.target == v && !((L ++ [u]).contains e.source)) = false := by
            simp [hsl]
          rw [h1, h2, h3]
          simp only [eq_self_iff_true, if_true, Bool.false_eq_true, if_false]
          omega
        · have h1 : (e.target == v && !(L.contains e.source)) = true := by
            simp [ht, hsl]
          have h2 : (e.target == v && !((L ++ [u]).contains e.source)) = true := by
            simp [ht, hsl, hs]
          rw [h1, h2, h3]
          simp only [eq_self_iff_true, if_true, Bool.false_eq_true, if_false]
          omega
    · have h1 : (e.target == v && !(L.contains e.source)) = false := by simp [ht]
      have h2 : (e.target == v && !((L ++ [u]).contains e.source)) = false := by
        simp [ht]
      have h3 : (e.target == v && e.source == u) = false := by simp [ht]
      rw [h1, h2, h3]
      simp only [eq_self_iff_true, if_true, Bool.false_eq_true, if_false]
      omega

/-- No unprocessed in-edges means every in-edge source was emitted. -/
theorem remCount_eq_zero_iff (edges : List EdgeConfig) (L : List String)
    (v : String) :
    remCount edges L v = 0 ↔ ∀ e ∈ edges, e.target = v → e.source ∈ L := by
  rw [remCount, Nat.cast_eq_zero, List.countP_eq_zero]
  constructor
  · intro h e he ht
    have := h e he
    simp [ht] at this
    exact this
  · intro h e he
    intro hcon
    have hsplit := (Bool.and_eq_true _ _).mp hcon
    have h1 : e.target = v := by simpa using hsplit.1
    have h2 : L.contains e.source = false := by simpa using hsplit.2
    have h3 : L.contains e.source = true := by simpa using h e he h1
    rw [h3] at h2
    exact absurd h2 (by simp)

/-- Counting a target among a node's out-neighbours. -/
theorem adj_count (edges : List EdgeConfig) (u v : String) :
    (((edges.filter (fun e => e.source == u)).map (·.target)).count v : ℤ) =
      (edges.countP (fun e => e.target == v && e.source == u) : ℤ) := by
  induction edges with
  | nil => rfl
  | cons e rest ih =>
    by_cases hs : e.source = u
    · rw [List.filter_cons_of_pos (by simpa using hs), List.map_cons]
      by_cases ht : e.target = v
      · rw [List.count_cons, List.countP_cons_of_pos _ _ (by simp [ht, hs])]
        rw [show (e.target == v) = true from by simpa using ht]
        simp only [eq_self_iff_true, if_true]
        push_cast
        omega
      · rw [List.count_cons, List.countP_cons_of_neg _ _ (by simp [ht])]
        rw [show (e.target == v) = false from by simpa using ht]
        simp only [Bool.false_eq_true, if_false]
        push_cast
        omega
    · rw [List.filter_cons_of_neg (by simpa using hs),
        List.countP_cons_of_neg _ _ (by simp [hs])]
      exact ih

/-- The inner Kahn loop on a keyed pair map: it subtracts the neighbour
multiplicities and collects, without duplicates, exactly the nodes whose count
just reached zero. -/
theorem processNbrs_spec (ids : List String) :
    ∀ (ts : List String) (f : String → ℤ),
      (∀ v ∈ ts, v ∈ ids) →
      (∀ v, (ts.count v : ℤ) ≤ f v) →
      (processNbrs (ids.map (fun v => (v, f v))) ts).1 =
          ids.map (fun v => (v, f v - (ts.count v : ℤ))) ∧
      (processNbrs (ids.map (fun v => (v, f v))) ts).2.Nodup ∧
      ∀ w, w ∈ (processNbrs (ids.map (fun v => (v, f v))) ts).2 ↔
        (w ∈ ts ∧ f w = (ts.count w : ℤ)) := by
  intro ts
  induction ts with
  | nil =>
    intro f _ _
    refine ⟨?_, List.nodup_nil, ?_⟩
    · show ids.map (fun v => (v, f v)) = _
      refine List.map_congr_left ?_
      intro v _
      simp
    · intro w
      show w ∈ ([] : List String) ↔ _
      simp
  | cons n rest ih =>
    intro f hmem hle
    have hn : n ∈ ids := hmem n (by simp)
    have hdg : dget (ids.map (fun v => (v, f v))) n = some (f n) := dget_pairs ids f n hn
    have hds : decrStep (ids.map (fun v => (v, f v))) n =
        (dset (ids.map (fun v => (v, f v))) n (f n - 1), f n - 1 == 0) := by
      show (match dget (ids.map (fun v => (v, f v))) n with
            | none => (ids.map (fun v => (v, f v)), false)
            | some x => (dset (ids.map (fun v => (v, f v))) n (x - 1), x - 1 == 0)) = _
      rw [hdg]
    have hds1 : (decrStep (ids.map (fun v => (v, f v))) n).1 =
        dset (ids.map (fun v => (v, f v))) n (f n - 1) := by rw [hds]
    have hds2 : (decrStep (ids.map (fun v => (v, f v))) n).2 = (f n - 1 == 0) := by
      rw [hds]
    have hdsetEq : dset (ids.map (fun v => (v, f v))) n (f n - 1) =
        ids.map (fun v => (v, if v = n then f n - 1 else f v)) :=
      dset_pairs ids f n (f n - 1) hn
    have hmem' : ∀ v ∈ rest, v ∈ ids := fun v hv => hmem v (by simp [hv])
    have hle' : ∀ v, (rest.count v : ℤ) ≤ (if v = n then f n - 1 else f v) := by
      intro v
      by_cases h : v = n
      · subst h
        rw [if_pos rfl]
        have h1 := hle v
        rw [List.count_cons_self] at h1
        push_cast at h1
        omega
      · rw [if_neg h]
        have h1 := hle v
        rw [List.count_cons_of_ne h] at h1
        exact h1
    have ihs := ih (fun w => if w = n then f n - 1 else f w) hmem' hle'
    simp only [] at ihs
    have hfold : processNbrs (ids.map (fun v => (v, f v))) (n :: rest) =
        ((processNbrs (decrStep (ids.map (fun v => (v, f v))) n).1 rest).1,
         if (decrStep (ids.map (fun v => (v, f v))) n).2 then
           n :: (processNbrs (decrStep (ids.map (fun v => (v, f v))) n).1 rest).2
         else (processNbrs (decrStep (ids.map (fun v => (v, f v))) n).1 rest).2) := rfl
    have h1 : (processNbrs (ids.map (fun v => (v, f v))) (n :: rest)).1 =
        (processNbrs (dset (ids.map (fun v => (v, f v))) n (f n - 1)) rest).1 := by
      rw [hfold, hds1]
    have h2 : (processNbrs (ids.map (fun v => (v, f v))) (n :: rest)).2 =
        if (f n - 1 == 0) then
          n :: (processNbrs (dset (ids.map (fun v => (v, f v))) n (f n - 1)) rest).2
        else (processNbrs (dset (ids.map (fun v => (v, f v))) n (f n - 1)) rest).2 := by
      rw [hfold, hds1, hds2]
    refine ⟨?_, ?_, ?_⟩
    · rw [h1, hdsetEq, ihs.1]
      refine List.map_congr_left ?_
      intro v _
      by_cases h : v = n
      · subst h
        rw [if_pos rfl, List.count_cons_self]
        push_cast
        ring_nf
      · rw [if_neg h, List.count_cons_of_ne h]
    · rw [h2, hdsetEq]
      by_cases hz : f n - 1 = 0
      · rw [if_pos (by simpa using hz)]
        refine List.nodup_cons.mpr ⟨?_, ihs.2.1⟩
        intro hin
        have := (ihs.2.2 n).mp hin
        rw [if_pos rfl, hz] at this
        have hc : rest.count n = 0 := by
          have := this.2.symm
          push_cast at this
          omega
        exact absurd this.1 (List.count_eq_zero.mp hc)
      · rw [if_neg (by simpa using hz)]
        exact ihs.2.1
    · intro w
      rw [h2, hdsetEq]
      by_cases hz : f n - 1 = 0
      · rw [if_pos (by simpa using hz)]
        constructor
        · intro hw
          rcases List.mem_cons.mp hw with hwn | hwq
          · subst hwn
            refine ⟨by simp, ?_⟩
            have h3 := hle w
            rw [List.count_cons_self] at h3 ⊢
            push_cast at h3 ⊢
            omega
          · have := (ihs.2.2 w).mp hwq
            by_cases hwn : w = n
            · subst hwn
              rw [if_pos rfl] at this
              refine ⟨by simp, ?_⟩
              rw [List.count_cons_self]
              push_cast
              omega
            · rw [if_neg hwn] at this
              exact ⟨List.mem_cons_of_mem n this.1,
                by rw [List.count_cons_of_ne hwn]; exact this.2⟩
        · rintro ⟨hwm, hwc⟩
          by_cases hwn : w = n
          · subst hwn
            exact List.mem_cons_self _ _
          · have hwr : w ∈ rest := by
              rcases List.mem_cons.mp hwm with h3 | h3
              · exact absurd h3 hwn
              · exact h3
            refine List.mem_cons_of_mem n ((ihs.2.2 w).mpr ⟨hwr, ?_⟩)
            rw [if_neg hwn]
            rw [List.count_cons_of_ne hwn] at hwc
            exact hwc
      · rw [if_neg (by simpa using hz)]
        by_cases hwn : w = n
        · subst hwn
          rw [ihs.2.2 w, if_pos rfl]
          constructor
          · rintro ⟨hwr, hwc⟩
            refine ⟨by simp, ?_⟩
            rw [List.count_cons_self]
            push_cast
            omega
          · rintro ⟨_, hwc⟩
            rw [List.count_cons_self] at hwc
            push_cast at hwc
            have hwr : w ∈ rest := by
              by_contra hno
              have := List.count_eq_zero.mpr hno
              omega
            exact ⟨hwr, by omega⟩
        · rw [ihs.2.2 w, if_neg hwn]
          constructor
          · rintro ⟨hwr, hwc⟩
            exact ⟨List.mem_cons_of_mem n hwr,
              by rw [List.count_cons_of_ne hwn]; exact hwc⟩
          · rintro ⟨hwm, hwc⟩
            have hwr : w ∈ rest := by
              rcases List.mem_cons.mp hwm with h3 | h3
              · exact absurd h3 hwn
              · exact h3
            rw [List.count_cons_of_ne hwn] at hwc
            exact ⟨hwr, hwc⟩

/-- The unprocessed-edge count is a count. -/
theorem remCount_nonneg (edges : List EdgeConfig) (L : List String) (v : String) :
    0 ≤ remCount edges L v := by
  rw [remCount]
  positivity

/-- The neighbour-multiplicity count of an unemitted node is bounded by its
unprocessed-edge count. -/
theorem adj_count_le_remCount (edges : List EdgeConfig) (L : List String)
    (u v : String) (hu : u ∉ L) :
    ((((edges.filter (fun e => e.source == u)).map (·.target)).count v : ℕ) : ℤ) ≤
      remCount edges L v := by
  rw [adj_count, remCount]
  have h : List.countP (fun e => e.target == v && e.source == u) edges ≤
      List.countP (fun e => e.target == v && !(L.contains e.source)) edges := by
    refine List.countP_mono_left ?_
    intro e _ hp
    have hsplit := (Bool.and_eq_true _ _).mp hp
    have h1 : e.target = v := by simpa using hsplit.1
    have h2 : e.source = u := by simpa using hsplit.2
    simp [h1, h2, hu]
  exact_mod_cast h

/-- The `while queue:` loop of `topological_order`, under its invariant: the
emitted prefix `L` and pending queue `q` are duplicate-free listed nodes, a
listed node has no unprocessed in-edges exactly when it was emitted or queued,
and every emitted target follows its sources.  With enough fuel the loop
completes, and the final order satisfies the same invariant with an empty
queue. -/
theorem kahnLoop_spec (ids : List String) (edges : List EdgeConfig)
    (hnd : ids.Nodup)
    (hcl : ∀ e ∈ edges, e.source ∈ ids ∧ e.target ∈ ids) :
    ∀ (fuel : ℕ) (L q : List String),
      (L ++ q).Nodup →
      (∀ v ∈ L ++ q, v ∈ ids) →
      (∀ v ∈ ids, remCount edges L v = 0 ↔ v ∈ L ++ q) →
      (∀ e ∈ edges, e.target ∈ L →
        ∃ l1 l2, L = l1 ++ l2 ∧ e.source ∈ l1 ∧ e.target ∈ l2) →
      ids.length + 1 ≤ fuel + L.length →
      ∃ Lf, kahnLoop (mkAnalyzer ids edges) fuel
          (ids.map (fun v => (v, remCount edges L v))) q L = some Lf ∧
        Lf.Nodup ∧ (∀ v ∈ Lf, v ∈ ids) ∧
        (∀ v ∈ ids, remCount edges Lf v = 0 ↔ v ∈ Lf) ∧
        (∀ e ∈ edges, e.target ∈ Lf →
          ∃ l1 l2, Lf = l1 ++ l2 ∧ e.source ∈ l1 ∧ e.target ∈ l2) := by
  intro fuel
  induction fuel with
  | zero =>
    intro L q hnodup hsub hiff hord hfuel
    cases q with
    | nil =>
      exact ⟨L, rfl, by simpa using hnodup, by simpa using hsub,
        by simpa using hiff, hord⟩
    | cons u q' =>
      exfalso
      have hlen : (L ++ u :: q').length ≤ ids.length :=
        (hnodup.subperm hsub).length_le
      rw [List.length_append, List.length_cons] at hlen
      omega
  | succ f ih =>
    intro L q hnodup hsub hiff hord hfuel
    cases q with
    | nil =>
      exact ⟨L, rfl, by simpa using hnodup, by simpa using hsub,
        by simpa using hiff, hord⟩
    | cons u q' =>
      have hu_ids : u ∈ ids := hsub u (by simp)
      have hndp := List.nodup_append.mp hnodup
      have hu_notL : u ∉ L := fun h => hndp.2.2 h (by simp)
      have hmem_ts : ∀ v ∈ (edges.filter (fun e => e.source == u)).map (·.target),
          v ∈ ids := by
        intro v hv
        rcases List.mem_map.mp hv with ⟨e, hef, hev⟩
        rcases List.mem_filter.mp hef with ⟨he, _⟩
        exact hev ▸ (hcl e he).2
      have hle_ts : ∀ v,
          ((((edges.filter (fun e => e.source == u)).map (·.target)).count v : ℕ) : ℤ) ≤
            remCount edges L v :=
        fun v => adj_count_le_remCount edges L u v hu_notL
      have hPN := processNbrs_spec ids
        ((edges.filter (fun e => e.source == u)).map (·.target))
        (remCount edges L) hmem_ts hle_ts
      have hd' : ids.map (fun v => (v, remCount edges L v -
            ((((edges.filter (fun e => e.source == u)).map (·.target)).count v : ℕ) : ℤ))) =
          ids.map (fun v => (v, remCount edges (L ++ [u]) v)) := by
        refine List.map_congr_left ?_
        intro v _
        rw [adj_count, remCount_append_single edges L u v hu_notL]
        ring_nf
      have hfresh : ∀ w ∈ (processNbrs (ids.map (fun v => (v, remCount edges L v)))
          ((edges.filter (fun e => e.source == u)).map (·.target))).2,
          w ∉ L ++ u :: q' := by
        intro w hw hmem
        have hspec := (hPN.2.2 w).mp hw
        have hw_ids : w ∈ ids := hmem_ts w hspec.1
        have hzero : remCount edges L w = 0 := (hiff w hw_ids).mpr hmem
        have hpos : 0 < ((edges.filter (fun e => e.source == u)).map (·.target)).count w :=
          List.count_pos_iff.mpr hspec.1
        have := hspec.2
        rw [hzero] at this
        omega
      have hyp1 : ((L ++ [u]) ++ (q' ++ (processNbrs
          (ids.map (fun v => (v, remCount edges L v)))
          ((edges.filter (fun e => e.source == u)).map (·.target))).2)).Nodup := by
        rw [show ((L ++ [u]) ++ (q' ++ (processNbrs
            (ids.map (fun v => (v, remCount edges L v)))
            ((edges.filter (fun e => e.source == u)).map (·.target))).2)) =
          ((L ++ u :: q') ++ (processNbrs
            (ids.map (fun v => (v, remCount edges L v)))
            ((edges.filter (fun e => e.source == u)).map (·.target))).2) from by
          simp]
        refine List.nodup_append.mpr ⟨hnodup, hPN.2.1, ?_⟩
        intro a ha haq
        exact hfresh a haq ha
      have hyp2 : ∀ v ∈ (L ++ [u]) ++ (q' ++ (processNbrs
          (ids.map (fun v => (v, remCount edges L v)))
          ((edges.filter (fun e => e.source == u)).map (·.target))).2), v ∈ ids := by
        intro v hv
        rcases List.mem_append.mp hv with hv1 | hv1
        · rcases List.mem_append.mp hv1 with hv2 | hv2
          · exact hsub v (by simp [hv2])
          · have hvu : v = u := by simpa using hv2
            exact hvu ▸ hu_ids
        · rcases List.mem_append.mp hv1 with hv2 | hv2
          · exact hsub v (by simp [hv2])
          · exact hmem_ts v ((hPN.2.2 v).mp hv2).1
      have hyp3 : ∀ v ∈ ids, remCount edges (L ++ [u]) v = 0 ↔
          v ∈ (L ++ [u]) ++ (q' ++ (processNbrs
            (ids.map (fun v => (v, remCount edges L v)))
            ((edges.filter (fun e => e.source == u)).map (·.target))).2) := by
        intro v hvids
        have hsplit := remCount_append_single edges L u v hu_notL
        have hcnt := adj_count edges u v
        have hnn1 := remCount_nonneg edges (L ++ [u]) v
        constructor
        · intro hz
          by_cases hz0 : remCount edges L v = 0
          · have hv_old : v ∈ L ++ u :: q' := (hiff v hvids).mp hz0
            rcases List.mem_append.mp hv_old with hv | hv
            · exact List.mem_append_left _ (List.mem_append_left _ hv)
            · rcases List.mem_cons.mp hv with hv2 | hv2
              · exact List.mem_append_left _ (List.mem_append_right _ (by simp [hv2]))
              · exact List.mem_append_right _ (List.mem_append_left _ hv2)
          · have hveq : remCount edges L v =
                ((((edges.filter (fun e => e.source == u)).map (·.target)).count v : ℕ) : ℤ) := by
              rw [hcnt]
              omega
            have hvpos : 0 < ((edges.filter (fun e => e.source == u)).map (·.target)).count v := by
              by_contra hno
              push_neg at hno
              have hc0 : ((edges.filter (fun e => e.source == u)).map (·.target)).count v = 0 :=
                Nat.le_zero.mp hno
              rw [hc0] at hveq
              simp at hveq
              exact hz0 hveq
            have hvts : v ∈ (edges.filter (fun e => e.source == u)).map (·.target) :=
              List.count_pos_iff.mp hvpos
            have hvq2 := (hPN.2.2 v).mpr ⟨hvts, hveq⟩
            simp only [List.mem_append]
            exact Or.inr (Or.inr hvq2)
        · intro hv
          simp only [List.mem_append, List.mem_cons] at hv
          rcases hv with (hv | (hv | hv)) | (hv | hv)
          · have : remCount edges L v = 0 := (hiff v hvids).mpr (by simp [hv])
            omega
          · have : remCount edges L v = 0 := (hiff v hvids).mpr (by simp [hv])
            omega
          · exact absurd hv (by simp)
          · have : remCount edges L v = 0 := (hiff v hvids).mpr (by simp [hv])
            omega
          · have hspec := (hPN.2.2 v).mp hv
            have := hspec.2
            omega
      have hyp4 : ∀ e ∈ edges, e.target ∈ L ++ [u] →
          ∃ l1 l2, L ++ [u] = l1 ++ l2 ∧ e.source ∈ l1 ∧ e.target ∈ l2 := by
        intro e he ht
        rcases List.mem_append.mp ht with htL | htu
        · rcases hord e he htL with ⟨l1, l2, hL, hs, ht2⟩
          exact ⟨l1, l2 ++ [u], by rw [hL, List.append_assoc], hs,
            List.mem_append_left _ ht2⟩
        · have htu' : e.target = u := by simpa using htu
          have hz : remCount edges L u = 0 := (hiff u hu_ids).mpr (by simp)
          have hsrc : e.source ∈ L :=
            (remCount_eq_zero_iff edges L u).mp hz e he htu'
          exact ⟨L, [u], rfl, hsrc, by simp [htu']⟩
      have hyp5 : ids.length + 1 ≤ f + (L ++ [u]).length := by
        rw [List.length_append, List.length_singleton]
        omega
      rcases ih (L ++ [u]) (q' ++ (processNbrs
          (ids.map (fun v => (v, remCount edges L v)))
          ((edges.filter (fun e => e.source == u)).map (·.target))).2)
        hyp1 hyp2 hyp3 hyp4 hyp5 with ⟨Lf, hLf, hp1, hp2, hp3, hp4⟩
      refine ⟨Lf, ?_, hp1, hp2, hp3, hp4⟩
      have hstep : kahnLoop (mkAnalyzer ids edges) (f + 1)
          (ids.map (fun v => (v, remCount edges L v))) (u :: q') L =
          kahnLoop (mkAnalyzer ids edges) f
            (processNbrs (ids.map (fun v => (v, remCount edges L v)))
              (adjGet (mkAnalyzer ids edges) u)).1
            (q' ++ (processNbrs (ids.map (fun v => (v, remCount edges L v)))
              (adjGet (mkAnalyzer ids edges) u)).2)
            (L ++ [u]) := rfl
      rw [hstep, adjGet_mkAnalyzer ids edges u, hPN.1, hd']
      exact hLf

/-- Running `topological_order` to the end: the consumed order satisfies the
loop invariant with an empty queue, and the result applies the length check. -/
theorem topologicalOrder_final (ids : List String) (edges : List EdgeConfig)
    (hnd : ids.Nodup)
    (hcl : ∀ e ∈ edges, e.source ∈ ids ∧ e.target ∈ ids) :
    ∃ Lf, Lf.Nodup ∧ (∀ v ∈ Lf, v ∈ ids) ∧
      (∀ v ∈ ids, remCount edges Lf v = 0 ↔ v ∈ Lf) ∧
      (∀ e ∈ edges, e.target ∈ Lf →
        ∃ l1 l2, Lf = l1 ++ l2 ∧ e.source ∈ l1 ∧ e.target ∈ l2) ∧
      topologicalOrder (mkAnalyzer ids edges) =
        (if Lf.length == ids.length then Lf else []) := by
  have hq0nd : (ids.filter (fun v => remCount edges [] v == 0)).Nodup :=
    hnd.filter _
  have hinit := kahnLoop_spec ids edges hnd hcl
    (kahnFuel (mkAnalyzer ids edges)) []
    (ids.filter (fun v => remCount edges [] v == 0))
    (by simpa using hq0nd)
    (by
      intro v hv
      simp only [List.nil_append] at hv
      exact (List.mem_filter.mp hv).1)
    (by
      intro v hv
      simp only [List.nil_append]
      rw [List.mem_filter]
      constructor
      · intro hz
        exact ⟨hv, by simpa using hz⟩
      · intro hm
        simpa using hm.2)
    (by
      intro e _ ht
      exact absurd ht (by simp))
    (by
      show ids.length + 1 ≤ ids.length + 2 * edges.length + 1 + ([] : List String).length
      simp only [List.length_nil]
      omega)
  rcases hinit with ⟨Lf, hkahn, hp1, hp2, hp3, hp4⟩
  refine ⟨Lf, hp1, hp2, hp3, hp4, ?_⟩
  have hqueue := kahn_initial_queue ids edges hnd (fun e he => (hcl e he).2)
  have hindeg := in_degree_mkAnalyzer ids edges hnd (fun e he => (hcl e he).2)
  show (match kahnLoop (mkAnalyzer ids edges) (kahnFuel (mkAnalyzer ids edges))
      ((mkAnalyzer ids edges).in_degree)
      (((mkAnalyzer ids edges).in_degree.filter (fun p => p.2 == 0)).map (·.1)) [] with
    | none => []
    | some order =>
      if order.length == (mkAnalyzer ids edges).node_ids.length then order else []) = _
  rw [hqueue, hindeg, hkahn,
    show (mkAnalyzer ids edges).node_ids = ids from rfl]

/-- A nonempty list of nodes has one of minimal rank. -/
theorem exists_rank_min (rank : String → ℕ) :
    ∀ (R : List String), R ≠ [] → ∃ v ∈ R, ∀ w ∈ R, rank v ≤ rank w := by
  intro R
  induction R with
  | nil => intro h; exact absurd rfl h
  | cons a rest ih =>
    intro _
    by_cases hre : rest = []
    · subst hre
      refine ⟨a, by simp, ?_⟩
      intro w hw
      rcases List.mem_cons.mp hw with h | h
      · subst h
        exact le_refl _
      · exact absurd h (by simp)
    · rcases ih hre with ⟨v, hv, hmin⟩
      by_cases hav : rank a ≤ rank v
      · refine ⟨a, by simp, ?_⟩
        intro w hw
        rcases List.mem_cons.mp hw with h | h
        · subst h
          exact le_refl _
        · exact le_trans hav (hmin w h)
      · refine ⟨v, by simp [hv], ?_⟩
        intro w hw
        rcases List.mem_cons.mp hw with h | h
        · subst h
          omega
        · exact hmin w h

/-! ### C6 -/

/-- C6: on inputs whose edges connect listed (duplicate-free) node ids,
`topological_order` returns, for an acyclic graph — one admitting a rank
function that increases along every edge — an ordering of all the nodes in
which every edge's source appears strictly before its target, and for a
cyclic graph the empty list. -/
theorem C6_topological_order (ids : List String) (edges : List EdgeConfig)
    (hnd : ids.Nodup)
    (hcl : ∀ e ∈ edges, e.source ∈ ids ∧ e.target ∈ ids) :
    ((∃ rank : String → ℕ, ∀ e ∈ edges, rank e.source < rank e.target) →
      (topologicalOrder (mkAnalyzer ids edges)).length = ids.length ∧
      ∀ e ∈ edges,
        (topologicalOrder (mkAnalyzer ids edges)).indexOf e.source <
          (topologicalOrder (mkAnalyzer ids edges)).indexOf e.target) ∧
    ((¬∃ rank : String → ℕ, ∀ e ∈ edges, rank e.source < rank e.target) →
      topologicalOrder (mkAnalyzer ids edges) = []) := by
  obtain ⟨Lf, hnodup, hsub, hiff, hord, hto⟩ := topologicalOrder_final ids edges hnd hcl
  have hperm_of_len : Lf.length = ids.length → ∀ v ∈ ids, v ∈ Lf := by
    intro hlen v hv
    have hsp : List.Subperm Lf ids := hnodup.subperm hsub
    have hperm : Lf.Perm ids := hsp.perm_of_length_le (by omega)
    exact hperm.mem_iff.mpr hv
  have hidx : ∀ e ∈ edges, e.target ∈ Lf →
      Lf.indexOf e.source < Lf.indexOf e.target := by
    intro e he ht
    rcases hord e he ht with ⟨l1, l2, hL, hs, ht2⟩
    have hnd2 : (l1 ++ l2).Nodup := hL ▸ hnodup
    have ht1 : e.target ∉ l1 := fun hin => (List.nodup_append.mp hnd2).2.2 hin ht2
    rw [hL, List.indexOf_append_of_mem hs, List.indexOf_append_of_not_mem ht1]
    have h1 : l1.indexOf e.source < l1.length := List.indexOf_lt_length.mpr hs
    omega
  have hcomplete : (∃ rank : String → ℕ, ∀ e ∈ edges, rank e.source < rank e.target) →
      Lf.length = ids.length := by
    rintro ⟨rank, hrank⟩
    by_contra hne
    have hRne : ids.filter (fun v => !(Lf.contains v)) ≠ [] := by
      intro hR
      have hsubid : ∀ v ∈ ids, v ∈ Lf := by
        intro v hv
        by_contra hvn
        have hmem : v ∈ ids.filter (fun v => !(Lf.contains v)) :=
          List.mem_filter.mpr ⟨hv, by simp [hvn]⟩
        rw [hR] at hmem
        cases hmem
      have h1 : List.Subperm ids Lf := hnd.subperm hsubid
      have h2 : List.Subperm Lf ids := hnodup.subperm hsub
      exact hne (le_antisymm h2.length_le h1.length_le)
    have hRstep : ∀ v ∈ ids.filter (fun v => !(Lf.contains v)),
        ∃ e ∈ edges, e.target = v ∧
          e.source ∈ ids.filter (fun v => !(Lf.contains v)) := by
      intro v hv
      rcases List.mem_filter.mp hv with ⟨hvids, hvn⟩
      have hvnot : v ∉ Lf := by simpa using hvn
      have hrem : remCount edges Lf v ≠ 0 := fun h0 => hvnot ((hiff v hvids).mp h0)
      have hnall : ¬∀ e ∈ edges, e.target = v → e.source ∈ Lf :=
        fun hall => hrem ((remCount_eq_zero_iff edges Lf v).mpr hall)
      push_neg at hnall
      rcases hnall with ⟨e, he, het, hes⟩
      exact ⟨e, he, het, List.mem_filter.mpr ⟨(hcl e he).1, by simp [hes]⟩⟩
    rcases exists_rank_min rank (ids.filter (fun v => !(Lf.contains v))) hRne with
      ⟨v, hvR, hvMin⟩
    rcases hRstep v hvR with ⟨e, he, het, hesR⟩
    have h1 := hrank e he
    have h2 := hvMin e.source hesR
    rw [het] at h1
    omega
  constructor
  · intro hacyc
    have hlen := hcomplete hacyc
    have hmem_ids : ∀ v ∈ ids, v ∈ Lf := hperm_of_len hlen
    have htop : topologicalOrder (mkAnalyzer ids edges) = Lf := by
      rw [hto, if_pos (by simpa using hlen)]
    rw [htop]
    refine ⟨hlen, ?_⟩
    intro e he
    exact hidx e he (hmem_ids e.target (hcl e he).2)
  · intro hcyc
    by_cases hlen : Lf.length = ids.length
    · exact absurd ⟨fun v => Lf.indexOf v, fun e he =>
        hidx e he (hperm_of_len hlen e.target (hcl e he).2)⟩ hcyc
    · rw [hto, if_neg (by simpa using hlen)]

/-- Concrete instances of C6: the acyclic chain `A → B` yields the full
edge-respecting order, and the two-cycle `A → B → A` yields `[]`. -/
theorem C6_topological_order_witness :
    (["A", "B"] : List String).Nodup ∧
    (∀ e ∈ ([⟨"A", "B"⟩] : List EdgeConfig),
      e.source ∈ (["A", "B"] : List String) ∧ e.target ∈ (["A", "B"] : List String)) ∧
    topologicalOrder (mkAnalyzer ["A", "B"] [⟨"A", "B"⟩]) = ["A", "B"] ∧
    (topologicalOrder (mkAnalyzer ["A", "B"] [⟨"A", "B"⟩])).length =
      (["A", "B"] : List String).length ∧
    (topologicalOrder (mkAnalyzer ["A", "B"] [⟨"A", "B"⟩])).indexOf "A" <
      (topologicalOrder (mkAnalyzer ["A", "B"] [⟨"A", "B"⟩])).indexOf "B" ∧
    topologicalOrder (mkAnalyzer ["A", "B"] edC) = [] := by
  have hmain := C6_topological_order ["A", "B"] [⟨"A", "B"⟩] (by decide) (by decide)
  have hacyc : ∃ rank : String → ℕ, ∀ e ∈ ([⟨"A", "B"⟩] : List EdgeConfig),
      rank e.source < rank e.target :=
    ⟨fun s => if s = "B" then 1 else 0, by decide⟩
  have h1 := hmain.1 hacyc
  have hmain2 := C6_topological_order ["A", "B"] edC (by decide) (by decide)
  have hcyc : ¬∃ rank : String → ℕ, ∀ e ∈ edC,
      rank e.source < rank e.target := by
    rintro ⟨rank, hr⟩
    have ha := hr ⟨"A", "B"⟩ (by simp [edC])
    have hb := hr ⟨"B", "A"⟩ (by simp [edC])
    simp only at ha hb
    omega
  refine ⟨by decide, by decide, by decide, h1.1, ?_, hmain2.2 hcyc⟩
  exact h1.2 ⟨"A", "B"⟩ (by simp)

/-! ### Tarjan's algorithm (C2): supporting lemmas -/

/-- Membership in a dict is having a value. -/
theorem dmem_dget {α : Type} (d : PyDict α) (k : String) :
    dmem d k = true ↔ ∃ x, dget d k = some x := by
  rw [dmem, dget]
  cases List.find? (fun p => p.1 == k) d with
  | none => simp
  | some p => simp

/-- `set.add` membership. -/
theorem setAdd_mem (s : List String) (x y : String) :
    y ∈ setAdd s x ↔ (y ∈ s ∨ y = x) := by
  rw [setAdd]
  by_cases h : s.contains x
  · rw [if_pos h]
    constructor
    · exact Or.inl
    · intro hy
      rcases hy with hy | hy
      · exact hy
      · exact hy ▸ (by simpa using h)
  · rw [if_neg h]
    simp

/-- `set.add` keeps the set duplicate-free. -/
theorem setAdd_nodup (s : List String) (x : String) (h : s.Nodup) :
    (setAdd s x).Nodup := by
  rw [setAdd]
  by_cases hc : s.contains x
  · rw [if_pos hc]
    exact h
  · rw [if_neg hc]
    rw [List.nodup_append]
    refine ⟨h, by simp, ?_⟩
    intro a ha hax
    have hax' : a = x := by simpa using hax
    subst hax'
    exact hc (by simpa using ha)

/-- The component-popping loop splits the stack at the first occurrence of
`v`. -/
theorem popUntil_split (v : String) :
    ∀ (l1 l2 : List String), v ∉ l1 →
      popUntil (l1 ++ v :: l2) v = (l1 ++ [v], l2) := by
  intro l1
  induction l1 with
  | nil =>
    intro l2 _
    show popUntil (v :: l2) v = ([v], l2)
    rw [popUntil]
    simp
  | cons a rest ih =>
    intro l2 hv
    have hav : ¬(a == v) = true := by
      simp only [beq_iff_eq]
      intro h
      exact hv (by simp [h])
    show popUntil (a :: (rest ++ v :: l2)) v = (a :: rest ++ [v], l2)
    rw [popUntil]
    rw [if_neg hav]
    rw [ih l2 (fun h => hv (by simp [h]))]
    rfl

/-- Erasing a batch of nodes from a duplicate-free set: still duplicate-free,
and exactly the non-erased members remain. -/
theorem foldl_erase_spec (p1 : List String) :
    ∀ (s : List String), s.Nodup →
      (p1.foldl (fun s w => s.erase w) s).Nodup ∧
      ∀ y, y ∈ p1.foldl (fun s w => s.erase w) s ↔ (y ∈ s ∧ y ∉ p1) := by
  induction p1 with
  | nil =>
    intro s hs
    exact ⟨hs, fun y => by simp⟩
  | cons w rest ih =>
    intro s hs
    rw [List.foldl_cons]
    rcases ih (s.erase w) (hs.erase w) with ⟨h1, h2⟩
    refine ⟨h1, ?_⟩
    intro y
    rw [h2 y, hs.mem_erase_iff]
    constructor
    · rintro ⟨⟨hyw, hys⟩, hyr⟩
      exact ⟨hys, by simp [hyw, hyr]⟩
    · rintro ⟨hys, hyn⟩
      simp only [List.mem_cons, not_or] at hyn
      exact ⟨⟨hyn.1, hys⟩, hyn.2⟩

/-- `SPost` is reflexive. -/
theorem SPost_refl (ids : List String) (c0 : ℕ) (x : String) (st : TarjanSt)
    (hInv : TInv ids st)
    (hbound : ∀ y ∈ st.onStack, ∃ iy, dget st.index y = some iy ∧ c0 ≤ iy) :
    SPost ids c0 x st st :=
  ⟨hInv, fun _ _ h => h, le_refl _, hbound, ⟨[], rfl⟩, fun _ _ _ => rfl⟩

/-- `SPost` composes. -/
theorem SPost_trans (ids : List String) (c0 : ℕ) (x : String)
    (st1 st2 st3 : TarjanSt) (h12 : SPost ids c0 x st1 st2)
    (h23 : SPost ids c0 x st2 st3) : SPost ids c0 x st1 st3 := by
  obtain ⟨hI2, hidx2, hc2, hos2, ⟨p2, hp2⟩, hlow2⟩ := h12
  obtain ⟨hI3, hidx3, hc3, hos3, ⟨p3, hp3⟩, hlow3⟩ := h23
  refine ⟨hI3, fun y i h => hidx3 y i (hidx2 y i h), le_trans hc2 hc3, hos3,
    ⟨p3 ++ p2, by rw [hp3, hp2, List.append_assoc]⟩, ?_⟩
  intro y hy hyx
  have hy2 : dmem st2.index y = true := by
    rcases (dmem_dget st1.index y).mp hy with ⟨i, hi⟩
    exact (dmem_dget st2.index y).mpr ⟨i, hidx2 y i hi⟩
  rw [hlow3 y hy2 hyx, hlow2 y hy hyx]

/-- The neighbour loop of `strongconnect`: given the recursive call's
contract, a completed scan establishes `SPost` and keeps the root's lowlink
between `c0` and its entry value. -/
theorem sconnectNbrs_spec (ids : List String)
    (sc : TarjanSt → String → Option TarjanSt)
    (hsc : ∀ st w st2 c0, TInv ids st → w ∈ ids → dmem st.index w = false →
      c0 ≤ st.counter →
      (∀ y ∈ st.onStack, ∃ iy, dget st.index y = some iy ∧ c0 ≤ iy) →
      sc st w = some st2 →
      SPost ids c0 w st st2 ∧ dmem st2.index w = true ∧
        ∃ lw, dget st2.lowlink w = some lw ∧ c0 ≤ lw) :
    ∀ (ws : List String) (st : TarjanSt) (v : String) (c0 lv0 : ℕ)
      (st2 : TarjanSt),
      TInv ids st → (∀ w ∈ ws, w ∈ ids) → dmem st.index v = true →
      c0 ≤ st.counter →
      (∀ y ∈ st.onStack, ∃ iy, dget st.index y = some iy ∧ c0 ≤ iy) →
      dget st.lowlink v = some lv0 → c0 ≤ lv0 →
      sconnectNbrs sc st v ws = some st2 →
      SPost ids c0 v st st2 ∧
        ∃ lv, dget st2.lowlink v = some lv ∧ c0 ≤ lv ∧ lv ≤ lv0 := by
  intro ws
  induction ws with
  | nil =>
    intro st v c0 lv0 st2 hInv _ _ hc0 hbound hlv0 hc0lv0 h
    have h' : (some st : Option TarjanSt) = some st2 := h
    injection h' with h1
    subst h1
    exact ⟨SPost_refl ids c0 v st hInv hbound, lv0, hlv0, hc0lv0, le_refl _⟩
  | cons w rest ih =>
    intro st v c0 lv0 st2 hInv hws hvmem hc0 hbound hlv0 hc0lv0 h
    have hstep : sconnectNbrs sc st v (w :: rest) =
        (if dmem st.index w then
          if st.onStack.contains w then
            match dget st.lowlink v, dget st.index w with
            | some lv, some iw =>
              sconnectNbrs sc { st with lowlink := dset st.lowlink v (min lv iw) } v rest
            | _, _ => none
          else sconnectNbrs sc st v rest
        else
          match sc st w with
          | none => none
          | some stc =>
            match dget stc.lowlink v, dget stc.lowlink w with
            | some lv, some lw =>
              sconnectNbrs sc { stc with lowlink := dset stc.lowlink v (min lv lw) } v rest
            | _, _ => none) := rfl
    rw [hstep] at h
    by_cases hw : dmem st.index w = true
    · rw [if_pos hw] at h
      by_cases hos : w ∈ st.onStack
      · rw [if_pos (by simpa using hos)] at h
        rcases (dmem_dget st.index w).mp hw with ⟨iw, hiw⟩
        rw [hlv0, hiw] at h
        have h2 : sconnectNbrs sc
            { st with lowlink := dset st.lowlink v (min lv0 iw) } v rest = some st2 := h
        have hc0iw : c0 ≤ iw := by
          rcases hbound w hos with ⟨iy, hiy, hciy⟩
          have : iy = iw := by
            have := hiy.symm.trans hiw
            exact Option.some.inj this
          omega
        have hstepPost : SPost ids c0 v st
            { st with lowlink := dset st.lowlink v (min lv0 iw) } := by
          refine ⟨hInv, fun _ _ hh => hh, le_refl _, hbound, ⟨[], rfl⟩, ?_⟩
          intro y _ hyv
          show dget (dset st.lowlink v (min lv0 iw)) y = dget st.lowlink y
          rw [dget_dset, if_neg hyv]
        rcases ih { st with lowlink := dset st.lowlink v (min lv0 iw) } v c0
            (min lv0 iw) st2 hInv (fun x hx => hws x (by simp [hx])) hvmem hc0
            hbound (by show dget (dset st.lowlink v (min lv0 iw)) v = _
                       rw [dget_dset, if_pos rfl])
            (le_min hc0lv0 hc0iw) h2 with ⟨hpost, lv, hlv, hlvc, hlvle⟩
        exact ⟨SPost_trans ids c0 v _ _ _ hstepPost hpost, lv, hlv, hlvc,
          le_trans hlvle (min_le_left _ _)⟩
      · rw [if_neg (by simpa using hos)] at h
        exact ih st v c0 lv0 st2 hInv (fun x hx => hws x (by simp [hx])) hvmem hc0
          hbound hlv0 hc0lv0 h
    · rw [if_neg hw] at h
      cases hc : sc st w with
      | none => rw [hc] at h; exact absurd h (by simp)
      | some stc =>
        rw [hc] at h
        have hw' : dmem st.index w = false := by
          cases hww : dmem st.index w
          · rfl
          · exact absurd hww hw
        rcases hsc st w stc c0 hInv (hws w (by simp)) hw' hc0 hbound hc with
          ⟨hpostw, hwidx, lw, hlw, hlwc⟩
        obtain ⟨hIc, hidxc, hcc, hosc, hstkc, hlowc⟩ := hpostw
        have hvw : v ≠ w := fun hh => by
          rw [hh] at hvmem
          rw [hvmem] at hw'
          exact absurd hw' (by simp)
        have hlvc0' : dget stc.lowlink v = some lv0 := by
          rw [hlowc v hvmem hvw]
          exact hlv0
        have h1 : (match dget stc.lowlink v, dget stc.lowlink w with
            | some lv, some lw =>
              sconnectNbrs sc { stc with lowlink := dset stc.lowlink v (min lv lw) } v rest
            | _, _ => none) = some st2 := h
        rw [hlvc0', hlw] at h1
        have h2 : sconnectNbrs sc
            { stc with lowlink := dset stc.lowlink v (min lv0 lw) } v rest =
            some st2 := h1
        have hpostv : SPost ids c0 v st stc := by
          refine ⟨hIc, hidxc, hcc, hosc, hstkc, ?_⟩
          intro y hy hyv
          have hyw : y ≠ w := fun hh => by
            rw [hh] at hy
            rw [hy] at hw'
            exact absurd hw' (by simp)
          exact hlowc y hy hyw
        have hstepPost : SPost ids c0 v stc
            { stc with lowlink := dset stc.lowlink v (min lv0 lw) } := by
          refine ⟨hIc, fun _ _ hh => hh, le_refl _, hosc, ⟨[], rfl⟩, ?_⟩
          intro y _ hyv
          show dget (dset stc.lowlink v (min lv0 lw)) y = dget stc.lowlink y
          rw [dget_dset, if_neg hyv]
        have hvmemc : dmem stc.index v = true := by
          rcases (dmem_dget st.index v).mp hvmem with ⟨i, hi⟩
          exact (dmem_dget stc.index v).mpr ⟨i, hidxc v i hi⟩
        rcases ih { stc with lowlink := dset stc.lowlink v (min lv0 lw) } v c0
            (min lv0 lw) st2 hIc (fun x hx => hws x (by simp [hx])) hvmemc
            (le_trans hc0 hcc) hosc
            (by show dget (dset stc.lowlink v (min lv0 lw)) v = _
                rw [dget_dset, if_pos rfl])
            (le_min hc0lv0 hlwc) h2 with ⟨hpost, lv, hlv, hlvc, hlvle⟩
        exact ⟨SPost_trans ids c0 v _ _ _
            (SPost_trans ids c0 v _ _ _ hpostv hstepPost) hpost,
          lv, hlv, hlvc, le_trans hlvle (min_le_left _ _)⟩

/-- The entry block of `strongconnect` maintains the invariant and records
the fresh index. -/
theorem tarjanPush_facts (ids : List String) (st : TarjanSt) (v : String) (c0 : ℕ)
    (hInv : TInv ids st) (hvids : v ∈ ids) (hvmem : dmem st.index v = false)
    (hc0 : c0 ≤ st.counter)
    (hbound : ∀ y ∈ st.onStack, ∃ iy, dget st.index y = some iy ∧ c0 ≤ iy) :
    TInv ids (tarjanPush st v) ∧ SPost ids c0 v st (tarjanPush st v) ∧
    dget (tarjanPush st v).index v = some st.counter ∧
    dget (tarjanPush st v).lowlink v = some st.counter ∧
    (∀ y ∈ (tarjanPush st v).onStack,
      ∃ iy, dget (tarjanPush st v).index y = some iy ∧ c0 ≤ iy) := by
  obtain ⟨hI1, hI2, hI3, hI4, hI5⟩ := hInv
  have hvstack : v ∉ st.stack := fun hh => by
    have h := (hI5 v).mpr (Or.inr hh)
    rw [hvmem] at h
    exact absurd h (by simp)
  have hvflat : v ∉ st.result.flatten := fun hh => by
    have h := (hI5 v).mpr (Or.inl hh)
    rw [hvmem] at h
    exact absurd h (by simp)
  have hvonstack : v ∉ st.onStack := fun hh => hvstack ((hI3 v).mpr hh)
  have hnewget : ∀ y, dget (tarjanPush st v).index y =
      (if y = v then some st.counter else dget st.index y) := by
    intro y
    show dget (dset st.index v st.counter) y = _
    rw [dget_dset]
  have hnewmem : ∀ y, dmem (tarjanPush st v).index y = true ↔
      (y = v ∨ dmem st.index y = true) := by
    intro y
    rw [dmem_dget, dmem_dget, hnewget y]
    by_cases hy : y = v
    · simp [hy]
    · simp [hy]
  have hne_of_idx : ∀ y, dmem st.index y = true → y ≠ v := by
    intro y hy hh
    rw [hh, hvmem] at hy
    exact absurd hy (by simp)
  have hT : TInv ids (tarjanPush st v) := by
    refine ⟨?_, ?_, ?_, ?_, ?_⟩
    · intro y hy
      rcases (hnewmem y).mp hy with hy1 | hy1
      · exact hy1 ▸ hvids
      · exact hI1 y hy1
    · exact setAdd_nodup st.onStack v hI2
    · intro y
      show y ∈ v :: st.stack ↔ y ∈ setAdd st.onStack v
      rw [List.mem_cons, setAdd_mem, ← hI3 y]
      tauto
    · show (st.result.flatten ++ v :: st.stack).Nodup
      rw [List.nodup_middle, List.nodup_cons]
      refine ⟨?_, hI4⟩
      rw [List.mem_append]
      rintro (hh | hh)
      · exact hvflat hh
      · exact hvstack hh
    · intro y
      rw [hnewmem y]
      show _ ↔ (y ∈ st.result.flatten ∨ y ∈ v :: st.stack)
      rw [List.mem_cons, hI5 y]
      tauto
  have hbound' : ∀ y ∈ (tarjanPush st v).onStack,
      ∃ iy, dget (tarjanPush st v).index y = some iy ∧ c0 ≤ iy := by
    intro y hy
    rcases (setAdd_mem st.onStack v y).mp hy with hy1 | hy1
    · rcases hbound y hy1 with ⟨iy, hiy, hciy⟩
      have hyv : y ≠ v := fun hh => hvonstack (hh ▸ hy1)
      exact ⟨iy, by rw [hnewget y, if_neg hyv]; exact hiy, hciy⟩
    · exact ⟨st.counter, by rw [hnewget y, if_pos hy1], hc0⟩
  refine ⟨hT, ⟨hT, ?_, Nat.le_succ _, hbound', ⟨[v], rfl⟩, ?_⟩, ?_, ?_, hbound'⟩
  · intro y i hyi
    have hyv : y ≠ v :=
      hne_of_idx y ((dmem_dget st.index y).mpr ⟨i, hyi⟩)
    rw [hnewget y, if_neg hyv]
    exact hyi
  · intro y hy hyv
    show dget (dset st.lowlink v st.counter) y = dget st.lowlink y
    rw [dget_dset, if_neg hyv]
  · rw [hnewget v, if_pos rfl]
  · show dget (dset st.lowlink v st.counter) v = some st.counter
    rw [dget_dset, if_pos rfl]

/-- The root-popping block of `strongconnect` turns `v`'s stack segment into
a delivered component and restores the caller's stack. -/
theorem tarjanPop_facts (ids : List String) (c0 : ℕ) (stt : TarjanSt) (v : String)
    (hInv : TInv ids stt)
    (hbound : ∀ y ∈ stt.onStack, ∃ iy, dget stt.index y = some iy ∧ c0 ≤ iy)
    (base pre : List String) (hstack : stt.stack = pre ++ v :: base) :
    TInv ids (tarjanPop stt v) ∧
    (tarjanPop stt v).stack = base ∧
    (tarjanPop stt v).index = stt.index ∧
    (tarjanPop stt v).lowlink = stt.lowlink ∧
    (tarjanPop stt v).counter = stt.counter ∧
    (∀ y ∈ (tarjanPop stt v).onStack,
      ∃ iy, dget (tarjanPop stt v).index y = some iy ∧ c0 ≤ iy) := by
  obtain ⟨hI1, hI2, hI3, hI4, hI5⟩ := hInv
  have hstknd : stt.stack.Nodup := (List.nodup_append.mp hI4).2.1
  have hstknd' : (pre ++ v :: base).Nodup := hstack ▸ hstknd
  have hvpre : v ∉ pre := by
    have hmid := List.nodup_middle.mp hstknd'
    intro hh
    exact (List.nodup_cons.mp hmid).1 (List.mem_append_left _ hh)
  have hPU : popUntil stt.stack v = (pre ++ [v], base) := by
    rw [hstack]
    exact popUntil_split v pre base hvpre
  have hfe := foldl_erase_spec (pre ++ [v]) stt.onStack hI2
  have hos_eq : (tarjanPop stt v).onStack =
      (pre ++ [v]).foldl (fun s w => s.erase w) stt.onStack := by
    show (popUntil stt.stack v).1.foldl (fun s w => s.erase w) stt.onStack = _
    rw [hPU]
  have hstk_eq : (tarjanPop stt v).stack = base := by
    show (popUntil stt.stack v).2 = base
    rw [hPU]
  have hres_eq : (tarjanPop stt v).result = stt.result ++ [pre ++ [v]] := by
    show stt.result ++ [(popUntil stt.stack v).1] = _
    rw [hPU]
  have hdisj := List.nodup_append.mp (hstack ▸ hstknd : (pre ++ v :: base).Nodup)
  have hbase_not : ∀ y ∈ base, y ∉ pre ++ [v] := by
    intro y hy hcon
    rcases List.mem_append.mp hcon with hc1 | hc1
    · exact hdisj.2.2 hc1 (List.mem_cons_of_mem v hy)
    · have hyv : y = v := by simpa using hc1
      subst hyv
      exact (List.nodup_cons.mp hdisj.2.1).1 hy
  have hmem_new : ∀ y, y ∈ (tarjanPop stt v).onStack ↔
      (y ∈ stt.onStack ∧ y ∉ pre ++ [v]) := by
    intro y
    rw [hos_eq]
    exact hfe.2 y
  have hT : TInv ids (tarjanPop stt v) := by
    refine ⟨?_, ?_, ?_, ?_, ?_⟩
    · intro y hy
      exact hI1 y hy
    · rw [hos_eq]
      exact hfe.1
    · intro y
      rw [hstk_eq, hmem_new y, ← hI3 y, hstack]
      constructor
      · intro hy
        exact ⟨by simp [hy], hbase_not y hy⟩
      · rintro ⟨hy1, hy2⟩
        simp only [List.mem_append, List.mem_cons] at hy1
        rcases hy1 with hy1 | (hy1 | hy1)
        · exact absurd (List.mem_append_left _ hy1) hy2
        · exact absurd (by simp [hy1] : y ∈ pre ++ [v]) hy2
        · exact hy1
    · rw [hres_eq, hstk_eq]
      have heq : (stt.result ++ [pre ++ [v]]).flatten ++ base =
          stt.result.flatten ++ (pre ++ v :: base) := by
        simp
      rw [heq, ← hstack]
      exact hI4
    · intro y
      have hidx' : dmem (tarjanPop stt v).index y = dmem stt.index y := rfl
      rw [hidx', hres_eq, hstk_eq, hI5 y, hstack]
      simp only [List.flatten_append, List.mem_append, List.mem_flatten,
        List.mem_cons, List.mem_singleton]
      constructor
      · rintro (hy | hy)
        · exact Or.inl (Or.inl hy)
        · rcases hy with hy | (hy | hy)
          · exact Or.inl (Or.inr ⟨pre ++ [v], by simp, by simp [hy]⟩)
          · exact Or.inl (Or.inr ⟨pre ++ [v], by simp, by simp [hy]⟩)
          · exact Or.inr hy
      · rintro (hy | hy)
        · rcases hy with hy | hy
          · exact Or.inl hy
          · rcases hy with ⟨l, hl, hyl⟩
            have hl' : l = pre ++ [v] := by simpa using hl
            subst hl'
            rcases List.mem_append.mp hyl with hy1 | hy1
            · exact Or.inr (Or.inl hy1)
            · exact Or.inr (Or.inr (Or.inl (by simpa using hy1)))
        · exact Or.inr (Or.inr (Or.inr hy))
  refine ⟨hT, hstk_eq, rfl, rfl, rfl, ?_⟩
  intro y hy
  exact hbound y ((hmem_new y).mp hy).1

/-- `strongconnect(v)` on an unindexed listed node: the invariant is
maintained, `v` gets indexed, its lowlink lands between `c0` and its fresh
index, and whenever the lowlink equals the fresh index the caller's stack is
restored (the root pops exactly its own segment). -/
theorem sconnect_spec (ids : List String) (g : GraphAnalyzer)
    (hadj : ∀ u, ∀ w ∈ adjGet g u, w ∈ ids) :
    ∀ (f : ℕ) (st : TarjanSt) (v : String) (c0 : ℕ) (st2 : TarjanSt),
      TInv ids st → v ∈ ids → dmem st.index v = false →
      c0 ≤ st.counter →
      (∀ y ∈ st.onStack, ∃ iy, dget st.index y = some iy ∧ c0 ≤ iy) →
      sconnect g f st v = some st2 →
      SPost ids c0 v st st2 ∧ dmem st2.index v = true ∧
        ∃ lv, dget st2.lowlink v = some lv ∧ c0 ≤ lv ∧ lv ≤ st.counter ∧
          (lv = st.counter → st2.stack = st.stack) := by
  intro f
  induction f with
  | zero =>
    intro st v c0 st2 _ _ _ _ _ h
    exact absurd h (by simp [sconnect])
  | succ f ihf =>
    intro st v c0 st2 hInv hvids hvmem hc0 hbound h
    obtain ⟨hT1, hS1, hIdx1, hLow1, hBound1⟩ :=
      tarjanPush_facts ids st v c0 hInv hvids hvmem hc0 hbound
    have hstep : sconnect g (f + 1) st v =
        (match sconnectNbrs (sconnect g f) (tarjanPush st v) v (adjGet g v) with
        | none => none
        | some stt =>
          match dget stt.lowlink v, dget stt.index v with
          | some lv, some iv =>
            if lv == iv then some (tarjanPop stt v) else some stt
          | _, _ => none) := rfl
    rw [hstep] at h
    cases hloop : sconnectNbrs (sconnect g f) (tarjanPush st v) v (adjGet g v) with
    | none => rw [hloop] at h; exact absurd h (by simp)
    | some stt =>
      rw [hloop] at h
      have hsc : ∀ st' w st2' c0', TInv ids st' → w ∈ ids →
          dmem st'.index w = false → c0' ≤ st'.counter →
          (∀ y ∈ st'.onStack, ∃ iy, dget st'.index y = some iy ∧ c0' ≤ iy) →
          sconnect g f st' w = some st2' →
          SPost ids c0' w st' st2' ∧ dmem st2'.index w = true ∧
            ∃ lw, dget st2'.lowlink w = some lw ∧ c0' ≤ lw := by
        intro st' w st2' c0' h1 h2 h3 h4 h5 h6
        rcases ihf st' w c0' st2' h1 h2 h3 h4 h5 h6 with ⟨ha, hb, lw, hl1, hl2, _, _⟩
        exact ⟨ha, hb, lw, hl1, hl2⟩
      have hvmem1 : dmem (tarjanPush st v).index v = true :=
        (dmem_dget _ v).mpr ⟨st.counter, hIdx1⟩
      rcases sconnectNbrs_spec ids (sconnect g f) hsc (adjGet g v) (tarjanPush st v)
          v c0 st.counter stt hT1 (hadj v) hvmem1 (le_trans hc0 (Nat.le_succ _))
          hBound1 hLow1 hc0 hloop
          with ⟨hpostL, lv, hlv, hlvc0, hlvle⟩
      obtain ⟨hTt, hidxt, hct, hosbt, ⟨pre, hpre⟩, hlowpt⟩ := hpostL
      obtain ⟨_, hidxPush, _, _, _, hlowPush⟩ := hS1
      have hividx : dget stt.index v = some st.counter := hidxt v st.counter hIdx1
      have h1 : (match dget stt.lowlink v, dget stt.index v with
          | some lv, some iv => if lv == iv then some (tarjanPop stt v) else some stt
          | _, _ => none) = some st2 := h
      rw [hlv, hividx] at h1
      have h2 : (if (lv == st.counter) then some (tarjanPop stt v) else some stt) =
          some st2 := h1
      by_cases hbr : lv = st.counter
      · rw [if_pos (by simpa using hbr)] at h2
        injection h2 with h3
        subst h3
        have hstk : stt.stack = pre ++ v :: st.stack := by
          rw [hpre]
          rfl
        obtain ⟨hTpop, hstkpop, hidxpop, hlowpop, hcpop, hbpop⟩ :=
          tarjanPop_facts ids c0 stt v hTt hosbt st.stack pre hstk
        refine ⟨⟨hTpop, ?_, ?_, hbpop, ?_, ?_⟩, ?_, lv, ?_, hlvc0, hlvle, ?_⟩
        · intro y i hyi
          rw [hidxpop]
          exact hidxt y i (hidxPush y i hyi)
        · rw [hcpop]
          exact le_trans (Nat.le_succ _) hct
        · exact ⟨[], by rw [hstkpop]; rfl⟩
        · intro y hy hyv
          rw [hlowpop]
          have hy1 : dmem (tarjanPush st v).index y = true := by
            rcases (dmem_dget st.index y).mp hy with ⟨i, hi⟩
            exact (dmem_dget _ y).mpr ⟨i, hidxPush y i hi⟩
          rw [hlowpt y hy1 hyv]
          exact hlowPush y hy hyv
        · rw [hidxpop]
          exact (dmem_dget _ v).mpr ⟨st.counter, hividx⟩
        · rw [hlowpop]
          exact hlv
        · intro _
          rw [hstkpop]
      · rw [if_neg (by simpa using hbr)] at h2
        injection h2 with h3
        subst h3
        refine ⟨SPost_trans ids c0 v _ _ _
            ⟨hT1, hidxPush, Nat.le_succ _, hBound1, ⟨[v], rfl⟩, hlowPush⟩
            ⟨hTt, hidxt, hct, hosbt, ⟨pre, hpre⟩, hlowpt⟩, ?_, lv, hlv, hlvc0,
          hlvle, ?_⟩
        · exact (dmem_dget _ v).mpr ⟨st.counter, hividx⟩
        · intro hh
          exact absurd hh hbr

/-- The top loop of `_compute_sccs`: starting (and hence finishing) with an
empty stack, it indexes every processed node and maintains the invariant. -/
theorem tarjanLoop_spec (ids : List String) (g : GraphAnalyzer)
    (hadj : ∀ u, ∀ w ∈ adjGet g u, w ∈ ids) (fuel : ℕ) :
    ∀ (ns : List String) (st stF : TarjanSt),
      (∀ n ∈ ns, n ∈ ids) → TInv ids st → st.stack = [] →
      tarjanLoop g fuel st ns = some stF →
      TInv ids stF ∧ stF.stack = [] ∧
        (∀ y i, dget st.index y = some i → dget stF.index y = some i) ∧
        (∀ n ∈ ns, dmem stF.index n = true) := by
  intro ns
  induction ns with
  | nil =>
    intro st stF _ hInv hstk h
    have h' : (some st : Option TarjanSt) = some stF := h
    injection h' with h1
    subst h1
    exact ⟨hInv, hstk, fun _ _ hh => hh, by simp⟩
  | cons nid rest ih =>
    intro st stF hns hInv hstk h
    have hstep : tarjanLoop g fuel st (nid :: rest) =
        (if dmem st.index nid then tarjanLoop g fuel st rest
         else match sconnect g fuel st nid with
              | none => none
              | some st2 => tarjanLoop g fuel st2 rest) := rfl
    rw [hstep] at h
    by_cases hm : dmem st.index nid = true
    · rw [if_pos hm] at h
      rcases ih st stF (fun n hn => hns n (by simp [hn])) hInv hstk h with
        ⟨hA, hB, hC, hD⟩
      refine ⟨hA, hB, hC, ?_⟩
      intro n hn
      rcases List.mem_cons.mp hn with h1 | h1
      · subst h1
        rcases (dmem_dget st.index n).mp hm with ⟨i, hi⟩
        exact (dmem_dget stF.index n).mpr ⟨i, hC n i hi⟩
      · exact hD n h1
    · rw [if_neg hm] at h
      cases hc : sconnect g fuel st nid with
      | none => rw [hc] at h; exact absurd h (by simp)
      | some st2 =>
        rw [hc] at h
        have hm' : dmem st.index nid = false := by
          cases hmm : dmem st.index nid
          · rfl
          · exact absurd hmm hm
        have honset : ∀ y ∈ st.onStack,
            ∃ iy, dget st.index y = some iy ∧ st.counter ≤ iy := by
          intro y hy
          exfalso
          have hymem : y ∈ st.stack := (hInv.2.2.1 y).mpr hy
          rw [hstk] at hymem
          cases hymem
        rcases sconnect_spec ids g hadj fuel st nid st.counter st2 hInv
            (hns nid (by simp)) hm' (le_refl _) honset hc with
          ⟨⟨hT2, hidx2, _, _, _, _⟩, hmem2, lv, hlv, hc0lv, hlvle, himp⟩
        have hstk2 : st2.stack = [] := by
          rw [himp (le_antisymm hlvle hc0lv)]
          exact hstk
        rcases ih st2 stF (fun n hn => hns n (by simp [hn])) hT2 hstk2 h with
          ⟨hA, hB, hC, hD⟩
        refine ⟨hA, hB, fun y i hy => hC y i (hidx2 y i hy), ?_⟩
        intro n hn
        rcases List.mem_cons.mp hn with h1 | h1
        · subst h1
          rcases (dmem_dget st2.index n).mp hmem2 with ⟨i, hi⟩
          exact (dmem_dget stF.index n).mpr ⟨i, hC n i hi⟩
        · exact hD n h1

/-- Tarjan's components partition the nodes whenever every edge endpoint is a
listed node. -/
theorem computeSccs_partition (ids : List String) (edges : List EdgeConfig)
    (hcl : ∀ e ∈ edges, e.source ∈ ids ∧ e.target ∈ ids) :
    ∀ sccs, computeSccs (mkAnalyzer ids edges) = some sccs →
      (∀ v ∈ ids, ∃ scc ∈ sccs, v ∈ scc) ∧
      sccs.flatten.Nodup ∧
      (∀ scc ∈ sccs, ∀ v ∈ scc, v ∈ ids) := by
  intro sccs h
  have hadj : ∀ u, ∀ w ∈ adjGet (mkAnalyzer ids edges) u, w ∈ ids := by
    intro u w hw
    rw [adjGet_mkAnalyzer] at hw
    rcases List.mem_map.mp hw with ⟨e, hef, hev⟩
    rcases List.mem_filter.mp hef with ⟨he, _⟩
    exact hev ▸ (hcl e he).2
  have h' : (tarjanLoop (mkAnalyzer ids edges) (tarjanFuel (mkAnalyzer ids edges))
      tarjanInit (mkAnalyzer ids edges).node_ids).map (·.result) = some sccs := h
  cases hT : tarjanLoop (mkAnalyzer ids edges) (tarjanFuel (mkAnalyzer ids edges))
      tarjanInit (mkAnalyzer ids edges).node_ids with
  | none => rw [hT] at h'; exact absurd h' (by simp)
  | some stF =>
    rw [hT] at h'
    have hres : stF.result = sccs := by simpa using h'
    have hInit : TInv ids tarjanInit := by
      refine ⟨?_, by simp [tarjanInit], ?_, by simp [tarjanInit], ?_⟩
      · intro y hy
        exact absurd hy (by simp [tarjanInit, dmem])
      · intro y
        simp [tarjanInit]
      · intro y
        simp [tarjanInit, dmem]
    have hids : (mkAnalyzer ids edges).node_ids = ids := rfl
    rcases tarjanLoop_spec ids (mkAnalyzer ids edges) hadj
        (tarjanFuel (mkAnalyzer ids edges)) (mkAnalyzer ids edges).node_ids
        tarjanInit stF (by rw [hids]; exact fun n hn => hn) hInit rfl hT with
      ⟨hTF, hstkF, _, hallidx⟩
    obtain ⟨hF1, _, _, hF4, hF5⟩ := hTF
    refine ⟨?_, ?_, ?_⟩
    · intro v hv
      have hvm : dmem stF.index v = true := hallidx v (by rw [hids]; exact hv)
      rcases (hF5 v).mp hvm with hvf | hvf
      · rw [hres] at hvf
        rcases List.mem_flatten.mp hvf with ⟨l, hl, hvl⟩
        exact ⟨l, hl, hvl⟩
      · rw [hstkF] at hvf
        cases hvf
    · rw [← hres]
      have := hF4
      rw [hstkF] at this
      simpa using this
    · intro scc hscc v hv
      have hvf : v ∈ stF.result.flatten := by
        rw [hres]
        exact List.mem_flatten.mpr ⟨scc, hscc, hv⟩
      exact hF1 v ((hF5 v).mpr (Or.inl hvf))

/-- The back-edge neighbour loop only appends pairs inside the SCC. -/
theorem beScan_endpoints (sccSet : List String)
    (visit : PyDict Col → List (String × String) → String →
      Option (PyDict Col × List (String × String)))
    (hvisit : ∀ color acc w p, w ∈ sccSet →
      (∀ q ∈ acc, q.1 ∈ sccSet ∧ q.2 ∈ sccSet) → visit color acc w = some p →
      ∀ q ∈ p.2, q.1 ∈ sccSet ∧ q.2 ∈ sccSet) :
    ∀ (ws : List String) (color : PyDict Col) (acc : List (String × String))
      (node : String) (p : PyDict Col × List (String × String)),
      node ∈ sccSet → (∀ q ∈ acc, q.1 ∈ sccSet ∧ q.2 ∈ sccSet) →
      beScan visit sccSet color acc node ws = some p →
      ∀ q ∈ p.2, q.1 ∈ sccSet ∧ q.2 ∈ sccSet := by
  intro ws
  induction ws with
  | nil =>
    intro color acc node p _ hacc h
    have h' : (some (color, acc) : Option (PyDict Col × List (String × String))) =
      some p := h
    injection h' with h1
    rw [← h1]
    exact hacc
  | cons w rest ih =>
    intro color acc node p hnode hacc h
    have hstep : beScan visit sccSet color acc node (w :: rest) =
        (if sccSet.contains w then
          match dget color w with
          | some Col.gray => beScan visit sccSet color (acc ++ [(node, w)]) node rest
          | some Col.white =>
            match visit color acc w with
            | none => none
            | some p => beScan visit sccSet p.1 p.2 node rest
          | _ => beScan visit sccSet color acc node rest
        else beScan visit sccSet color acc node rest) := rfl
    rw [hstep] at h
    by_cases hw : w ∈ sccSet
    · rw [if_pos (by simpa using hw)] at h
      cases hcw : dget color w with
      | none =>
        rw [hcw] at h
        exact ih color acc node p hnode hacc h
      | some c =>
        rw [hcw] at h
        cases c with
        | gray =>
          refine ih color (acc ++ [(node, w)]) node p hnode ?_ h
          intro q hq
          rcases List.mem_append.mp hq with hq1 | hq1
          · exact hacc q hq1
          · have : q = (node, w) := by simpa using hq1
            subst this
            exact ⟨hnode, hw⟩
        | white =>
          cases hv : visit color acc w with
          | none => rw [hv] at h; exact absurd h (by simp)
          | some pv =>
            rw [hv] at h
            exact ih pv.1 pv.2 node p hnode (hvisit color acc w pv hw hacc hv) h
        | black =>
          exact ih color acc node p hnode hacc h
    · rw [if_neg (by simpa using hw)] at h
      exact ih color acc node p hnode hacc h

/-- The back-edge DFS only appends pairs inside the SCC. -/
theorem beVisit_endpoints (g : GraphAnalyzer) (sccSet : List String) :
    ∀ (f : ℕ) (color : PyDict Col) (acc : List (String × String)) (node : String)
      (p : PyDict Col × List (String × String)),
      node ∈ sccSet → (∀ q ∈ acc, q.1 ∈ sccSet ∧ q.2 ∈ sccSet) →
      beVisit g sccSet f color acc node = some p →
      ∀ q ∈ p.2, q.1 ∈ sccSet ∧ q.2 ∈ sccSet := by
  intro f
  induction f with
  | zero =>
    intro color acc node p _ _ h
    exact absurd h (by simp [beVisit])
  | succ f ih =>
    intro color acc node p hnode hacc h
    have hstep : beVisit g sccSet (f + 1) color acc node =
        (match beScan (beVisit g sccSet f) sccSet (dset color node Col.gray) acc node
            (adjGet g node) with
        | none => none
        | some p => some (dset p.1 node Col.black, p.2)) := rfl
    rw [hstep] at h
    cases hs : beScan (beVisit g sccSet f) sccSet (dset color node Col.gray) acc node
        (adjGet g node) with
    | none => rw [hs] at h; exact absurd h (by simp)
    | some ps =>
      rw [hs] at h
      have h' : (some (dset ps.1 node Col.black, ps.2) :
          Option (PyDict Col × List (String × String))) = some p := h
      injection h' with h1
      rw [← h1]
      intro q hq
      refine beScan_endpoints sccSet (beVisit g sccSet f) ?_ (adjGet g node)
        (dset color node Col.gray) acc node ps hnode hacc hs q hq
      intro color' acc' w p' hw hacc' hv
      exact ih color' acc' w p' hw hacc' hv

/-- The top loop of the back-edge search only reports pairs inside the SCC. -/
theorem beLoop_endpoints (g : GraphAnalyzer) (sccSet : List String) :
    ∀ (ns : List String) (color : PyDict Col) (acc : List (String × String))
      (be : List (String × String)),
      (∀ n ∈ ns, n ∈ sccSet) → (∀ q ∈ acc, q.1 ∈ sccSet ∧ q.2 ∈ sccSet) →
      beLoop g sccSet color acc ns = some be →
      ∀ q ∈ be, q.1 ∈ sccSet ∧ q.2 ∈ sccSet := by
  intro ns
  induction ns with
  | nil =>
    intro color acc be _ hacc h
    have h' : (some acc : Option (List (String × String))) = some be := h
    injection h' with h1
    rw [← h1]
    exact hacc
  | cons nid rest ih =>
    intro color acc be hns hacc h
    have hstep : beLoop g sccSet color acc (nid :: rest) =
        (match dget color nid with
        | none => none
        | some c =>
          if c = Col.white then
            match beVisit g sccSet (sccSet.length + 1) color acc nid with
            | none => none
            | some p => beLoop g sccSet p.1 p.2 rest
          else beLoop g sccSet color acc rest) := rfl
    rw [hstep] at h
    cases hcn : dget color nid with
    | none => rw [hcn] at h; exact absurd h (by simp)
    | some c =>
      rw [hcn] at h
      cases c with
      | white =>
        have h2 : (match beVisit g sccSet (sccSet.length + 1) color acc nid with
            | none => none
            | some p => beLoop g sccSet p.1 p.2 rest) = some be := h
        cases hv : beVisit g sccSet (sccSet.length + 1) color acc nid with
        | none => rw [hv] at h2; exact absurd h2 (by simp)
        | some pv =>
          rw [hv] at h2
          exact ih pv.1 pv.2 be (fun n hn => hns n (by simp [hn]))
            (beVisit_endpoints g sccSet _ color acc nid pv (hns nid (by simp)) hacc hv)
            h2
      | gray =>
        have h2 : beLoop g sccSet color acc rest = some be := h
        exact ih color acc be (fun n hn => hns n (by simp [hn])) hacc h2
      | black =>
        have h2 : beLoop g sccSet color acc rest = some be := h
        exact ih color acc be (fun n hn => hns n (by simp [hn])) hacc h2

/-- Every produced cycle group is a kept SCC with its computed back-edges. -/
theorem cgLoop_origin (g : GraphAnalyzer) :
    ∀ (sccs : List (List String)) (acc groups : List CycleGroup),
      cgLoop g acc sccs = some groups →
      ∀ cg ∈ groups, cg ∈ acc ∨
        (cg.node_ids ∈ sccs ∧ findBackEdges g cg.node_ids = some cg.back_edges) := by
  intro sccs
  induction sccs with
  | nil =>
    intro acc groups h cg hcg
    have h' : (some acc : Option (List CycleGroup)) = some groups := h
    injection h' with h1
    rw [← h1] at hcg
    exact Or.inl hcg
  | cons scc rest ih =>
    intro acc groups h cg hcg
    have hstep : cgLoop g acc (scc :: rest) =
        (if scc.length < 2 then cgLoop g acc rest
        else match findBackEdges g scc with
          | none => none
          | some be => cgLoop g (acc ++ [⟨scc, be⟩]) rest) := rfl
    rw [hstep] at h
    by_cases hlen : scc.length < 2
    · rw [if_pos hlen] at h
      rcases ih acc groups h cg hcg with h1 | h1
      · exact Or.inl h1
      · exact Or.inr ⟨by simp [h1.1], h1.2⟩
    · rw [if_neg hlen] at h
      cases hbe : findBackEdges g scc with
      | none => rw [hbe] at h; exact absurd h (by simp)
      | some be =>
        rw [hbe] at h
        rcases ih (acc ++ [⟨scc, be⟩]) groups h cg hcg with h1 | h1
        · rcases List.mem_append.mp h1 with h2 | h2
          · exact Or.inl h2
          · have : cg = ⟨scc, be⟩ := by simpa using h2
            subst this
            exact Or.inr ⟨by simp, hbe⟩
        · exact Or.inr ⟨by simp [h1.1], h1.2⟩

/-! ### C2 (amended theorem) -/

/-- C2 (amended): when every edge endpoint is a listed node id, Tarjan's
components partition the input node set exactly — every input node lies in a
component, the concatenation of all components has no duplicates (so no node
is in two components and nothing else appears), and every component member is
an input node — and consequently every cycle group's `node_ids` and
back-edge endpoints are input nodes (back-edge endpoints lie in their own
group). -/
theorem C2_partition_amended (ids : List String) (edges : List EdgeConfig)
    (hcl : ∀ e ∈ edges, e.source ∈ ids ∧ e.target ∈ ids) :
    (∀ sccs, computeSccs (mkAnalyzer ids edges) = some sccs →
      (∀ v ∈ ids, ∃ scc ∈ sccs, v ∈ scc) ∧
      sccs.flatten.Nodup ∧
      (∀ scc ∈ sccs, ∀ v ∈ scc, v ∈ ids)) ∧
    (∀ groups, cycleGroups (mkAnalyzer ids edges) = some groups →
      ∀ cg ∈ groups, (∀ v ∈ cg.node_ids, v ∈ ids) ∧
        (∀ p ∈ cg.back_edges, p.1 ∈ cg.node_ids ∧ p.2 ∈ cg.node_ids)) := by
  refine ⟨computeSccs_partition ids edges hcl, ?_⟩
  intro groups hg cg hcg
  have hg' : (match computeSccs (mkAnalyzer ids edges) with
      | none => none
      | some sccs => cgLoop (mkAnalyzer ids edges) [] sccs) = some groups := hg
  cases hsccs : computeSccs (mkAnalyzer ids edges) with
  | none => rw [hsccs] at hg'; exact absurd hg' (by simp)
  | some sccs =>
    rw [hsccs] at hg'
    rcases cgLoop_origin (mkAnalyzer ids edges) sccs [] groups hg' cg hcg with h1 | h1
    · exact absurd h1 (by simp)
    · obtain ⟨hmem, hbe⟩ := h1
      have hclos := (computeSccs_partition ids edges hcl sccs hsccs).2.2
      refine ⟨fun v hv => hclos cg.node_ids hmem v hv, ?_⟩
      intro p hp
      exact beLoop_endpoints (mkAnalyzer ids edges) cg.node_ids cg.node_ids
        (initColor cg.node_ids) [] cg.back_edges (fun n hn => hn) (by simp) hbe p hp

/-- Concrete instance of the amended C2 on the two-node cycle `A → B → A`:
one component `["B", "A"]` covering both nodes exactly once, and one cycle
group whose members and back-edge endpoints are the input nodes. -/
theorem C2_partition_amended_witness :
    (∀ e ∈ edC, e.source ∈ (["A", "B"] : List String) ∧
      e.target ∈ (["A", "B"] : List String)) ∧
    computeSccs (mkAnalyzer ["A", "B"] edC) = some [["B", "A"]] ∧
    (∀ v ∈ (["A", "B"] : List String), ∃ scc ∈ [["B", "A"]], v ∈ scc) ∧
    ([["B", "A"]] : List (List String)).flatten.Nodup ∧
    cycleGroups (mkAnalyzer ["A", "B"] edC) = some cgC ∧
    (∀ cg ∈ cgC, (∀ v ∈ cg.node_ids, v ∈ (["A", "B"] : List String)) ∧
      (∀ p ∈ cg.back_edges, p.1 ∈ cg.node_ids ∧ p.2 ∈ cg.node_ids)) := by
  have hmain := C2_partition_amended ["A", "B"] edC (by decide)
  have hs : computeSccs (mkAnalyzer ["A", "B"] edC) = some [["B", "A"]] := by decide
  have hgp : cycleGroups (mkAnalyzer ["A", "B"] edC) = some cgC := by decide
  exact ⟨by decide, hs, (hmain.1 [["B", "A"]] hs).1, (hmain.1 [["B", "A"]] hs).2.1,
    hgp, hmain.2 cgC hgp⟩

end AgenticFlow
